import Mathlib

/-!
# CTP raw decoder (`Detectors/CTP/workflow/src/RawDecoderSpec.cxx`)

A shallow embedding of `RawDecoderSpec::makeGBTWordInverse` and
`RawDecoderSpec::run`, followed by theorems about them.

Conventions of the embedding:

* `gbtword80_t` (`std::bitset<NGBT>`) is a natural number below `2 ^ NGBT`;
  bit `k` of the bitset is `Nat.testBit _ k`. A write to an index at or above
  `NGBT` leaves the value as it is.
* `uint32_t` arithmetic that can wrap is written with `sub32` / `add32`.
* Code that may not finish returns `Option`, `none` meaning that the result
  is not defined.
-/

namespace CTP

/-! ## Bit vectors of width `NGBT` -/

/-- Width in bits of a GBT word: `gbtword80_t` is `std::bitset<NGBT>`. -/
def NGBT : Nat := 80

/-- Subtraction of `uint32_t` values. -/
def sub32 (a b : Nat) : Nat := (a % 2 ^ 32 + 2 ^ 32 - b % 2 ^ 32) % 2 ^ 32

/-- Addition of `uint32_t` values. -/
def add32 (a b : Nat) : Nat := (a + b) % 2 ^ 32

/-- The assignment `w[k] = 1` on a bitset of width `NGBT`; the value has no
position at or above `NGBT`. -/
def setBit (w k : Nat) : Nat := (w ||| 2 ^ k) % 2 ^ NGBT

/-- The assignment `w[k] = b` on a bitset of width `NGBT`. -/
def assignBit (w k : Nat) (b : Bool) : Nat :=
  if b then setBit w k else (w ^^^ (w &&& 2 ^ k)) % 2 ^ NGBT

/-- Left shift `w << s` of a bitset of width `NGBT`: bits moved past the top
are lost. -/
def shl80 (w s : Nat) : Nat := (w <<< s) % 2 ^ NGBT

/-- The loop `for (j = 0; j < n; j++) masksize[j] = 1;` run on `masksize = 0`. -/
def lowMask (n : Nat) : Nat := (List.range n).foldl setBit 0

/-! ## `RawDecoderSpec::makeGBTWordInverse` -/

/-- The `while (i < (NGBT - Npld))` loop of `makeGBTWordInverse`. The first
argument bounds the number of evaluations of the loop condition; `none` when
the bound is reached. The result is `(diglets, GBTWord, i)` at loop exit. -/
def inverseLoop (Npld : Nat) :
    Nat → List Nat → Nat → Nat → Nat → Nat → Option (List Nat × Nat × Nat)
  | 0, _, _, _, _, _ => none
  | fuel + 1, diglets, GBTWord, diglet, i, size_gbt =>
    if i < sub32 NGBT Npld then
      inverseLoop Npld fuel
        (diglets ++ [diglet ||| shl80 (GBTWord &&& lowMask (sub32 Npld size_gbt)) size_gbt])
        (GBTWord >>> sub32 Npld size_gbt)
        0
        (add32 i (sub32 Npld size_gbt))
        0
    else
      some (diglets, GBTWord, i)

/-- The by-reference arguments of `makeGBTWordInverse`. -/
structure GBTState where
  diglets : List Nat
  GBTWord : Nat
  remnant : Nat
  size_gbt : Nat
  deriving DecidableEq, Repr

/-- The function `RawDecoderSpec::makeGBTWordInverse(diglets, GBTWord, remnant, size_gbt, Npld)`:
the values of the four by-reference arguments on return. The loop is given
`NGBT + 1` evaluations of its condition, which is enough for every
`0 < Npld ≤ NGBT` with `size_gbt ≤ Npld`. -/
def makeGBTWordInverse (s : GBTState) (Npld : Nat) : Option GBTState :=
  match inverseLoop Npld (NGBT + 1) s.diglets s.GBTWord s.remnant 0 s.size_gbt with
  | none => none
  | some (diglets, GBTWord, i) =>
    some { diglets := diglets, GBTWord := GBTWord, remnant := GBTWord, size_gbt := sub32 NGBT i }

/-- Feeding a sequence of GBT words, in order, to `makeGBTWordInverse`, from
the reassembly state `(remnant, size_gbt)`; `acc` collects the diglets of
all calls. The result is `(diglets, remnant, size_gbt)`. -/
def feedWords (Npld : Nat) : List Nat → List Nat → Nat → Nat → Option (List Nat × Nat × Nat)
  | [], acc, remnant, size_gbt => some (acc, remnant, size_gbt)
  | w :: ws, acc, remnant, size_gbt =>
    match makeGBTWordInverse
        { diglets := [], GBTWord := w, remnant := remnant, size_gbt := size_gbt } Npld with
    | none => none
    | some s => feedWords Npld ws (acc ++ s.diglets) s.remnant s.size_gbt

/-! ## Bit streams: slices, words and the packing of the round trip -/

/-- The `k`-th slice of width `Npld` of the bit stream `S` (low bits first). -/
def slice (S Npld k : Nat) : Nat := S / 2 ^ (k * Npld) % 2 ^ Npld

/-- The word at index `j` of the bit stream `S`. -/
def wordAt (S j : Nat) : Nat := S / 2 ^ (NGBT * j) % 2 ^ NGBT


/-- Follows the spec's words (section 8, round trip): the bit stream that
holds the values back-to-back, low bits first, value `k` in bits
`k * Npld .. (k + 1) * Npld - 1`. -/
def specPackStream (Npld : Nat) : List Nat → Nat
  | [] => 0
  | v :: vs => v + 2 ^ Npld * specPackStream Npld vs

/-- Follows the spec's words: the minimal number of `NGBT`-bit words that
hold `N` values of `Npld` bits. -/
def specNumWords (Npld N : Nat) : Nat := (N * Npld + NGBT - 1) / NGBT

/-- Follows the spec's words: the packed values cut into `NGBT`-bit words,
the unused top bits of the last word being zero. -/
def specPackWords (Npld : Nat) (vals : List Nat) : List Nat :=
  (List.range (specNumWords Npld vals.length)).map (wordAt (specPackStream Npld vals))

/-- Follows the spec's words: the number of unused (zero) bits at the top of
the last word. -/
def specPad (Npld N : Nat) : Nat := NGBT * specNumWords Npld N - N * Npld


/-! ## Records and the digit map -/

/-- The record `o2::InteractionRecord`, the time stamp of a digit; `bc` is the
bunch-crossing id. -/
structure InteractionRecord where
  orbit : Nat
  bc : Nat
  deriving DecidableEq, Repr

/-- Modelled from the spec: `InteractionRecord::operator<` (its header is not
among the sources), the "total ordering by (orbit, bc)" of the data model. -/
def irLt (a b : InteractionRecord) : Bool :=
  decide (a.orbit < b.orbit) || (decide (a.orbit = b.orbit) && decide (a.bc < b.bc))

/-- The record `o2::ctp::CTPDigit`: time stamp, input mask and class mask. -/
structure CTPDigit where
  intRecord : InteractionRecord
  CTPInputMask : Nat
  CTPClassMask : Nat
  deriving DecidableEq, Repr

/-- Modelled from the spec: `CTPDigit::setInputMask` (the class is not among
the sources) sets the input mask field of the digit. -/
def setInputMask (d : CTPDigit) (mask : Nat) : CTPDigit := { d with CTPInputMask := mask }

/-- Modelled from the spec: `CTPDigit::setClassMask` (the class is not among
the sources) sets the class mask field of the digit. -/
def setClassMask (d : CTPDigit) (mask : Nat) : CTPDigit := { d with CTPClassMask := mask }

/-- The record `o2::ctp::LumiInfo`, in the field order of `LumiInfo{orbit, 0, counts}`. -/
structure LumiInfo where
  orbit : Nat
  nHBFCounted : Nat
  counts : Nat
  deriving DecidableEq, Repr

/-- The type `std::map<o2::InteractionRecord, CTPDigit>`: the entries in key order. -/
abbrev DigitMap := List (InteractionRecord × CTPDigit)

/-- The entry of key `k`, if there is one (`digits.find(k)`). -/
def mapFind : DigitMap → InteractionRecord → Option CTPDigit
  | [], _ => none
  | (k', v') :: rest, k => if k = k' then some v' else mapFind rest k

/-- The call `digits.count(k)`: the number of entries of key `k`. -/
def mapCount (m : DigitMap) (k : InteractionRecord) : Nat :=
  (m.filter (fun e => decide (e.1 = k))).length

/-- The assignment `digits[k] = v`: replaces the entry of key `k`, or inserts it at its
place in key order. -/
def mapSet : DigitMap → InteractionRecord → CTPDigit → DigitMap
  | [], k, v => [(k, v)]
  | (k', v') :: rest, k, v =>
    if k = k' then (k, v) :: rest
    else if irLt k k' then (k, v) :: (k', v') :: rest
    else (k', v') :: mapSet rest k v

/-- The keys of the map are strictly increasing: the map is a `std::map`. -/
def MapSorted (m : DigitMap) : Prop := List.Pairwise (fun a b => irLt a.1 b.1 = true) m

/-! ## `RawDecoderSpec::run` -/

/-- The constants of `DataFormatsCTP` and the configuration members of
`RawDecoderSpec` that `run` reads; their declarations are not among the
sources, so they are parameters. `debugLog` tells whether `LOG(debug)`
evaluates its operands (one of them is `digits[ir]`, which inserts), and
`defaultIR` is the value of a default-constructed `InteractionRecord`. -/
structure Config where
  GBTLinkIDIntRec : Nat
  GBTLinkIDClassRec : Nat
  NIntRecPayload : Nat
  NClassPayload : Nat
  mTVXMask : Nat
  mDoDigits : Bool
  mDoLumi : Bool
  mNTFToIntegrate : Nat
  debugLog : Bool
  defaultIR : InteractionRecord
  deriving DecidableEq, Repr

/-- The constant `const gbtword80_t bcidmask = 0xfff`. -/
def bcidmask : Nat := 0xfff

/-- The loop `for (i = 0; i < payloadCTP; i++) pldmask[12 + i] = 1;` run on
`pldmask = 0`. -/
def pldMask (payloadCTP : Nat) : Nat :=
  (List.range payloadCTP).foldl (fun m i => setBit m (12 + i)) 0

/-- The expression `digits[ir]` evaluated for its value only: inserts a default digit when
the key is absent. -/
def mapTouch (cfg : Config) (m : DigitMap) (ir : InteractionRecord) : DigitMap :=
  match mapFind m ir with
  | none => mapSet m ir { intRecord := cfg.defaultIR, CTPInputMask := 0, CTPClassMask := 0 }
  | some _ => m

/-- The digit aggregation of `run` for one diglet (from `pld = diglet & pldmask`
to the end of the link cases), reached when `mDoDigits` holds. The cases
`digits.count(ir) == 0` and `== 1` are the cases `none` and `some` of the
lookup; a `std::map` has no other case. -/
def aggregateDiglet (cfg : Config) (linkCRU triggerOrbit pldmask : Nat)
    (digits : DigitMap) (diglet : Nat) : DigitMap :=
  if diglet &&& pldmask = 0 then digits
  else
    let pld := (diglet &&& pldmask) >>> 12
    let ir : InteractionRecord := { orbit := triggerOrbit, bc := diglet &&& bcidmask }
    let digit : CTPDigit := { intRecord := ir, CTPInputMask := 0, CTPClassMask := 0 }
    if linkCRU = cfg.GBTLinkIDIntRec then
      let digits1 := if cfg.debugLog then mapTouch cfg digits ir else digits
      match mapFind digits1 ir with
      | none => mapSet digits1 ir (setInputMask digit pld)
      | some d =>
        if d.CTPInputMask = 0 then mapSet digits1 ir (setInputMask d pld) else digits1
    else if linkCRU = cfg.GBTLinkIDClassRec then
      match mapFind digits ir with
      | none => mapSet digits ir (setClassMask digit pld)
      | some d =>
        if d.CTPClassMask = 0 then mapSet digits ir (setClassMask d pld) else digits
    else digits

/-- The body of `for (auto diglet : diglets)`: the trigger count, then the
digit aggregation. The state is `(countsMB, digits)`. -/
def processDiglet (cfg : Config) (linkCRU triggerOrbit payloadCTP pldmask : Nat)
    (st : Nat × DigitMap) (diglet : Nat) : Nat × DigitMap :=
  let countsMB :=
    if cfg.mDoLumi && decide (payloadCTP = cfg.NIntRecPayload) then
      (if diglet &&& cfg.mTVXMask ≠ 0 then st.1 + 1 else st.1)
    else st.1
  if cfg.mDoDigits then (countsMB, aggregateDiglet cfg linkCRU triggerOrbit pldmask st.2 diglet)
  else (countsMB, st.2)

/-- The loop `for (i = 0; i < 8; i++) gbtWord[wordCount * 8 + i] = bool(payloadWord & (1 << i))`. -/
def assignByte (gbtWord wordCount payloadWord : Nat) : Nat :=
  (List.range 8).foldl (fun w i => assignBit w (wordCount * 8 + i) (payloadWord.testBit i)) gbtWord

/-- The variables that change inside the byte loop of one frame; `emitted`
records every diglet that `makeGBTWordInverse` produced for the frame. -/
structure FrameState where
  gbtWord : Nat
  wordCount : Nat
  remnant : Nat
  size_gbt : Nat
  countsMB : Nat
  digits : DigitMap
  emitted : List Nat
  deriving DecidableEq, Repr

/-- The body of `for (auto payloadWord : payload)`. -/
def processByte (cfg : Config) (linkCRU triggerOrbit payloadCTP pldmask : Nat)
    (fs : FrameState) (payloadWord : Nat) : Option FrameState :=
  if fs.wordCount = 15 then some { fs with wordCount := 0 }
  else if fs.wordCount > 9 then some { fs with wordCount := fs.wordCount + 1 }
  else if fs.wordCount = 9 then
    match makeGBTWordInverse
        { diglets := [], GBTWord := assignByte fs.gbtWord fs.wordCount payloadWord,
          remnant := fs.remnant, size_gbt := fs.size_gbt } payloadCTP with
    | none => none
    | some g =>
      let r := g.diglets.foldl (processDiglet cfg linkCRU triggerOrbit payloadCTP pldmask)
        (fs.countsMB, fs.digits)
      some { gbtWord := 0, wordCount := fs.wordCount + 1, remnant := g.remnant,
             size_gbt := g.size_gbt, countsMB := r.1, digits := r.2,
             emitted := fs.emitted ++ g.diglets }
  else
    some { fs with gbtWord := assignByte fs.gbtWord fs.wordCount payloadWord,
                   wordCount := fs.wordCount + 1 }

/-- The byte loop over the payload of one frame. -/
def processBytes (cfg : Config) (linkCRU triggerOrbit payloadCTP pldmask : Nat) :
    FrameState → List Nat → Option FrameState
  | fs, [] => some fs
  | fs, b :: bs =>
    match processByte cfg linkCRU triggerOrbit payloadCTP pldmask fs b with
    | none => none
    | some fs1 => processBytes cfg linkCRU triggerOrbit payloadCTP pldmask fs1 bs

/-- One element of the `DPLRawParser` iteration: the trigger orbit and FEE id
of the RDH, and the payload bytes. -/
structure Frame where
  triggerOrbit : Nat
  feeID : Nat
  payload : List Nat
  deriving DecidableEq, Repr

/-- The local variables of `run` that live across the frames; `payloadCTP` is
`none` until its first assignment (it is declared without a value). -/
structure LoopState where
  digits : DigitMap
  lumiPointsHBF1 : List LumiInfo
  countsMB : Nat
  payloadCTP : Option Nat
  orbit0 : Nat
  first : Bool
  remnant : Nat
  size_gbt : Nat
  deriving DecidableEq, Repr

/-- The values of the local variables before the first frame. -/
def LoopState.init : LoopState :=
  { digits := [], lumiPointsHBF1 := [], countsMB := 0, payloadCTP := none, orbit0 := 0,
    first := true, remnant := 0, size_gbt := 0 }

/-- The part of the frame body from `pldmask = 0` on, for the payload width
`payloadCTP` in force. The result is the loop state after the frame and the
diglets unpacked from the frame. -/
def processFrameBody (cfg : Config) (st : LoopState) (f : Frame) (orbit0 linkCRU payloadCTP : Nat) :
    Option (LoopState × List Nat) :=
  let pldmask := pldMask payloadCTP
  let flush := decide (orbit0 ≠ f.triggerOrbit)
  let lumi := flush && cfg.mDoLumi && decide (payloadCTP = cfg.NIntRecPayload)
  let lumiPoints :=
    if lumi then st.lumiPointsHBF1 ++ [{ orbit := f.triggerOrbit, nHBFCounted := 0, counts := st.countsMB }]
    else st.lumiPointsHBF1
  match processBytes cfg linkCRU f.triggerOrbit payloadCTP pldmask
      { gbtWord := 0, wordCount := 0,
        remnant := if flush then 0 else st.remnant,
        size_gbt := if flush then 0 else st.size_gbt,
        countsMB := if lumi then 0 else st.countsMB,
        digits := st.digits, emitted := [] } f.payload with
  | none => none
  | some fs =>
    some ({ digits := fs.digits, lumiPointsHBF1 := lumiPoints, countsMB := fs.countsMB,
            payloadCTP := some payloadCTP,
            orbit0 := if flush then f.triggerOrbit else orbit0,
            first := false, remnant := fs.remnant, size_gbt := fs.size_gbt }, fs.emitted)

/-- The link field `auto linkCRU = (feeID & 0xf00) >> 8`. -/
def linkOf (feeID : Nat) : Nat := (feeID &&& 0xf00) >>> 8

/-- The body of the loop over the frames. A frame of the class link is left
by `continue` when digits are disabled; a frame of an unexpected link goes on
with the payload width left by the frames before it (not defined when there
is none). -/
def processFrame (cfg : Config) (st : LoopState) (f : Frame) : Option (LoopState × List Nat) :=
  let orbit0 := if st.first then f.triggerOrbit else st.orbit0
  let linkCRU := linkOf f.feeID
  if linkCRU = cfg.GBTLinkIDIntRec then
    processFrameBody cfg st f orbit0 linkCRU cfg.NIntRecPayload
  else if linkCRU = cfg.GBTLinkIDClassRec then
    if !cfg.mDoDigits then
      some ({ st with orbit0 := orbit0, first := false, payloadCTP := some cfg.NClassPayload }, [])
    else processFrameBody cfg st f orbit0 linkCRU cfg.NClassPayload
  else
    match st.payloadCTP with
    | none => none
    | some payloadCTP => processFrameBody cfg st f orbit0 linkCRU payloadCTP

/-- The frame is left by `continue`: it comes from the class-record link
while digits are disabled. -/
def frameSkipped (cfg : Config) (f : Frame) : Bool :=
  !decide (linkOf f.feeID = cfg.GBTLinkIDIntRec) &&
    decide (linkOf f.feeID = cfg.GBTLinkIDClassRec) && !cfg.mDoDigits

/-- The part of the byte-loop state that the unpacking itself reads and
writes: everything but the trigger count and the digit map. -/
def FrameState.core (fs : FrameState) : Nat × Nat × Nat × Nat × List Nat :=
  (fs.gbtWord, fs.wordCount, fs.remnant, fs.size_gbt, fs.emitted)

/-- The loop over the frames. -/
def processFrames (cfg : Config) : LoopState → List Frame → Option LoopState
  | st, [] => some st
  | st, f :: fs =>
    match processFrame cfg st f with
    | none => none
    | some (st1, _) => processFrames cfg st1 fs

/-- The members of `RawDecoderSpec` that `run` changes, and its function-local
static `contDeadBeef`. The members are declared in `RawDecoderSpec.h`, which
is not among the sources: the counters are naturals, `mHistory` is the queue
with the oldest entry first. -/
structure State where
  mOutputDigits : List CTPDigit
  mOutputLumiInfo : LumiInfo
  mCounts : Nat
  mNHBIntegrated : Nat
  mHistory : List Nat
  contDeadBeef : Nat
  deriving DecidableEq, Repr

/-- The decoder before its first run: empty queue, running sum 0, sample
counter 0, streak counter 0. -/
def State.init (lumi0 : LumiInfo) : State :=
  { mOutputDigits := [], mOutputLumiInfo := lumi0, mCounts := 0, mNHBIntegrated := 0,
    mHistory := [], contDeadBeef := 0 }

/-- The input of one run: the payload sizes of the parts that match
`CTP/RAWDATA/0xDEADBEEF`, in the order of the `InputRecordWalker`, and the
frames that the `DPLRawParser` delivers. -/
structure RunInput where
  deadBeef : List Nat
  frames : List Frame
  deriving DecidableEq, Repr

/-- What one run sends: the snapshot of `mOutputDigits` on `CTP/DIGITS` and
of `mOutputLumiInfo` on `CTP/LUMI`, each when enabled. -/
structure Output where
  digits : Option (List CTPDigit)
  lumi : Option LumiInfo
  deriving DecidableEq, Repr

/-- The loop `for (auto const& lp : lumiPointsHBF1) tfCounts += lp.counts;`
with `uint32_t tfCounts = 0`. -/
def tfCountsOf (lumiPoints : List LumiInfo) : Nat :=
  lumiPoints.foldl (fun tfCounts lp => (tfCounts + lp.counts) % 2 ^ 32) 0

/-- The update of the luminosity window: `mHistory.push_back(tfCounts)`,
`mCounts += tfCounts`, then either `mNHBIntegrated += nPoints` (the queue is
not longer than `mNTFToIntegrate`) or the oldest entry is taken off the queue
and off `mCounts`. The subtraction is the one of the naturals; in a state
whose running sum is the sum of the queue it takes off a value that is part
of the sum. -/
def windowPush (cfg : Config) (s : State) (tfCounts nPoints : Nat) : State :=
  if (s.mHistory ++ [tfCounts]).length ≤ cfg.mNTFToIntegrate then
    { s with mHistory := s.mHistory ++ [tfCounts], mCounts := s.mCounts + tfCounts,
             mNHBIntegrated := s.mNHBIntegrated + nPoints }
  else
    { s with mHistory := (s.mHistory ++ [tfCounts]).tail,
             mCounts := s.mCounts + tfCounts - (s.mHistory ++ [tfCounts]).headD 0 }

/-- The `if (mDoLumi)` block at the end of `run`. -/
def lumiUpdate (cfg : Config) (s : State) (ls : LoopState) : State :=
  let lumiPoints :=
    ls.lumiPointsHBF1 ++ [{ orbit := ls.orbit0, nHBFCounted := 0, counts := ls.countsMB }]
  let s1 := windowPush cfg s (tfCountsOf lumiPoints) lumiPoints.length
  { s1 with mOutputLumiInfo :=
      { orbit := if s1.mNHBIntegrated ≠ 0 then (lumiPoints.headD ⟨0, 0, 0⟩).orbit
                 else s1.mOutputLumiInfo.orbit,
        nHBFCounted := s1.mNHBIntegrated,
        counts := s1.mCounts } }

/-- The function `RawDecoderSpec::run`: the state after the run and what the run sends.
When a part with subspecification `0xDEADBEEF` has an empty payload the run
sends its outputs and returns before the frames are read. -/
def run (cfg : Config) (s : State) (inp : RunInput) : Option (State × Output) :=
  let s0 := { s with mOutputDigits := [] }
  if inp.deadBeef.any (fun payloadSize => payloadSize == 0) then
    some ({ s0 with contDeadBeef := s0.contDeadBeef + 1 },
      { digits := if cfg.mDoDigits then some s0.mOutputDigits else none,
        lumi := if cfg.mDoLumi then some s0.mOutputLumiInfo else none })
  else
    match processFrames cfg LoopState.init inp.frames with
    | none => none
    | some ls =>
      let s1 := { s0 with contDeadBeef := 0 }
      let s2 := if cfg.mDoDigits then { s1 with mOutputDigits := ls.digits.map Prod.snd } else s1
      let s3 := if cfg.mDoLumi then lumiUpdate cfg s2 ls else s2
      some (s3, { digits := if cfg.mDoDigits then some s3.mOutputDigits else none,
                  lumi := if cfg.mDoLumi then some s3.mOutputLumiInfo else none })

/-- A sequence of runs, the state carried from one to the next. -/
def runs (cfg : Config) : State → List RunInput → Option State
  | s, [] => some s
  | s, inp :: rest =>
    match run cfg s inp with
    | none => none
    | some (s1, _) => runs cfg s1 rest

/-- The mask field of a digit that the link `linkCRU` writes: the input mask
for the interaction-record link, the class mask otherwise. -/
def kindMask (cfg : Config) (linkCRU : Nat) (d : CTPDigit) : Nat :=
  if linkCRU = cfg.GBTLinkIDIntRec then d.CTPInputMask else d.CTPClassMask

/-- The window updates of a sequence of intervals, each given by its
aggregate and its number of LumiSamples. -/
def pushIntervals (cfg : Config) (s : State) (intervals : List (Nat × Nat)) : State :=
  intervals.foldl (fun s p => windowPush cfg s p.1 p.2) s

/-- The window invariant: the queue is not longer than the window size and
the running sum is the sum of the queue. -/
def WindowInv (cfg : Config) (s : State) : Prop :=
  s.mHistory.length ≤ cfg.mNTFToIntegrate ∧ s.mCounts = s.mHistory.sum

/-- A configuration for the examples: link ids 0 and 1, payload widths 60 and
76 bits, trigger-of-interest mask `0x4`, both outputs enabled, window size 3. -/
def exampleConfig : Config :=
  { GBTLinkIDIntRec := 0, GBTLinkIDClassRec := 1, NIntRecPayload := 60, NClassPayload := 76,
    mTVXMask := 4, mDoDigits := true, mDoLumi := true, mNTFToIntegrate := 3,
    debugLog := false, defaultIR := { orbit := 0xffffffff, bc := 0xffff } }

/-- A loop state for the examples: after frames of orbit 1 on the
interaction-record link, with 20 bits carried in `remnant`. -/
def exampleCarry : LoopState :=
  { digits := [], lumiPointsHBF1 := [], countsMB := 0, payloadCTP := some 60, orbit0 := 1,
    first := false, remnant := 5, size_gbt := 20 }

/-- A loop state for the examples: before the first frame of a run, with the
payload width 60 in force. -/
def exampleFresh : LoopState :=
  { digits := [], lumiPointsHBF1 := [], countsMB := 0, payloadCTP := some 60, orbit0 := 0,
    first := true, remnant := 0, size_gbt := 0 }

/-! ## Streams of words -/

/-- The bit stream formed by a sequence of GBT words, the first word in the
lowest `NGBT` bits. -/
def wordStream : List Nat → Nat
  | [] => 0
  | w :: ws => w + 2 ^ NGBT * wordStream ws

/-! ## `getRawDecoderSpec` -/

/-- The value of `o2::framework::Lifetime` used by a specification entry. -/
inductive Lifetime where
  | Timeframe
  | Optional
  deriving DecidableEq, Repr

/-- An `o2::framework::InputSpec`: binding, origin, description, the
subspecification when the matcher fixes one, and the lifetime. -/
structure InputSpec where
  binding : String
  origin : String
  description : String
  subSpec : Option Nat
  lifetime : Lifetime
  deriving DecidableEq, Repr

/-- An `o2::framework::OutputSpec`: origin, description, subspecification and
lifetime. -/
structure OutputSpec where
  origin : String
  description : String
  subSpec : Nat
  lifetime : Lifetime
  deriving DecidableEq, Repr

/-- The default value of a workflow option (`VariantType::Int` or
`VariantType::Bool`). -/
inductive OptionDefault where
  | int (v : Int)
  | bool (v : Bool)
  deriving DecidableEq, Repr

/-- One entry of `o2::framework::Options`: name, default value and help text. -/
structure ConfigParamSpec where
  name : String
  default : OptionDefault
  help : String
  deriving DecidableEq, Repr

/-- The `o2::framework::DataProcessorSpec` that `getRawDecoderSpec` builds;
`taskDigits` and `taskLumi` are the arguments given to the task. -/
structure DataProcessorSpec where
  name : String
  inputs : List InputSpec
  outputs : List OutputSpec
  taskDigits : Bool
  taskLumi : Bool
  options : List ConfigParamSpec
  deriving DecidableEq, Repr

/-- The function `getRawDecoderSpec(askDISTSTF, digits, lumi)`; the error is
the message of the `std::runtime_error` that is thrown. -/
def getRawDecoderSpec (askDISTSTF digits lumi : Bool) : Except String DataProcessorSpec :=
  if !digits && !lumi then
    Except.error "all outputs were disabled"
  else
    let inputs0 : List InputSpec :=
      [{ binding := "TF", origin := "CTP", description := "RAWDATA", subSpec := none,
         lifetime := Lifetime.Optional }]
    let inputs : List InputSpec :=
      if askDISTSTF then
        inputs0 ++ [{ binding := "stdDist", origin := "FLP", description := "DISTSUBTIMEFRAME",
                      subSpec := some 0, lifetime := Lifetime.Timeframe }]
      else inputs0
    let outputs0 : List OutputSpec :=
      if digits then
        [{ origin := "CTP", description := "DIGITS", subSpec := 0,
           lifetime := Lifetime.Timeframe }]
      else []
    let outputs : List OutputSpec :=
      if lumi then
        outputs0 ++ [{ origin := "CTP", description := "LUMI", subSpec := 0,
                       lifetime := Lifetime.Timeframe }]
      else outputs0
    Except.ok
      { name := "ctp-raw-decoder", inputs := inputs, outputs := outputs,
        taskDigits := digits, taskLumi := lumi,
        options :=
          [{ name := "ntf-to-average", default := OptionDefault.int 90,
             help := "Time interval for averaging luminosity in units of TF" },
           { name := "use-verbose-mode", default := OptionDefault.bool false,
             help := "Verbose logging" }] }

/-- The output `CTP/DIGITS/0` with lifetime `Timeframe`. -/
def outDIGITS : OutputSpec :=
  { origin := "CTP", description := "DIGITS", subSpec := 0, lifetime := Lifetime.Timeframe }

/-- The output `CTP/LUMI/0` with lifetime `Timeframe`. -/
def outLUMI : OutputSpec :=
  { origin := "CTP", description := "LUMI", subSpec := 0, lifetime := Lifetime.Timeframe }

/-! ## The LumiSamples of a run -/

/-- The LumiSamples of a run once the loop over the frames has ended: the
samples appended at orbit changes and the final sample
`LumiInfo{orbit0, 0, countsMB}`. -/
def lumiPointsOf (ls : LoopState) : List LumiInfo :=
  ls.lumiPointsHBF1 ++ [{ orbit := ls.orbit0, nHBFCounted := 0, counts := ls.countsMB }]

/-- The counter invariant: the queue is not longer than the window size, and
a state with an entry in the queue has counted a sample. -/
def CounterInv (cfg : Config) (s : State) : Prop :=
  s.mHistory.length ≤ cfg.mNTFToIntegrate ∧ (s.mHistory ≠ [] → 1 ≤ s.mNHBIntegrated)

/-! ## The byte loop seen word by word -/

/-- The GBT word that the byte loop assembles from the first ten bytes of a
16-byte block, starting from `gbtWord = 0`. -/
def blockWord (block : List Nat) : Nat :=
  (List.range 10).foldl (fun w k => assignByte w k (block.getD k 0)) 0

/-- The words of a payload of `m` blocks of 16 bytes: word `j` is assembled
from the bytes at `16 * j .. 16 * j + 9`. -/
def payloadWords (payload : List Nat) (m : Nat) : List Nat :=
  (List.range m).map (fun j => blockWord (payload.drop (16 * j)))

/-- What `run` does with one complete word: the call of `makeGBTWordInverse`
and the loop over its diglets; the byte-loop variables `gbtWord` and
`wordCount` are 0 again, as they are after the six bytes that follow the
tenth byte of a block. -/
def handWord (cfg : Config) (linkCRU triggerOrbit payloadCTP pldmask : Nat)
    (fs : FrameState) (word : Nat) : Option FrameState :=
  match makeGBTWordInverse
      { diglets := [], GBTWord := word, remnant := fs.remnant, size_gbt := fs.size_gbt }
      payloadCTP with
  | none => none
  | some g =>
    let r := g.diglets.foldl (processDiglet cfg linkCRU triggerOrbit payloadCTP pldmask)
      (fs.countsMB, fs.digits)
    some { gbtWord := 0, wordCount := 0, remnant := g.remnant, size_gbt := g.size_gbt,
           countsMB := r.1, digits := r.2, emitted := fs.emitted ++ g.diglets }

/-- A sequence of words handed to `makeGBTWordInverse`, in order. -/
def handWords (cfg : Config) (linkCRU triggerOrbit payloadCTP pldmask : Nat) :
    FrameState → List Nat → Option FrameState
  | fs, [] => some fs
  | fs, w :: ws =>
    match handWord cfg linkCRU triggerOrbit payloadCTP pldmask fs w with
    | none => none
    | some fs1 => handWords cfg linkCRU triggerOrbit payloadCTP pldmask fs1 ws

/-! ## Invariants of the digit map -/

/-- The map is a `std::map` and none of its digits is empty. -/
def NoEmptyDigit (m : DigitMap) : Prop :=
  MapSorted m ∧ ∀ e ∈ m, e.2.CTPInputMask ≠ 0 ∨ e.2.CTPClassMask ≠ 0

/-- The time stamps for which the digit aggregation takes a diglet of a
frame: the link is one of the two known links and the masked payload is not
zero. -/
def digletStamps (cfg : Config) (linkCRU triggerOrbit pldmask : Nat) (diglets : List Nat) :
    List InteractionRecord :=
  if linkCRU = cfg.GBTLinkIDIntRec ∨ linkCRU = cfg.GBTLinkIDClassRec then
    (diglets.filter (fun d => decide (d &&& pldmask ≠ 0))).map
      (fun d => { orbit := triggerOrbit, bc := d &&& bcidmask })
  else []

/-- The time stamps for which a diglet with a non-zero mask is aggregated in
the loop over the frames, frame by frame, each frame with the payload width
in force for it. -/
def runStamps (cfg : Config) : LoopState → List Frame → List InteractionRecord
  | _, [] => []
  | st, f :: fs =>
    match processFrame cfg st f with
    | none => []
    | some (st1, d) =>
      digletStamps cfg (linkOf f.feeID) f.triggerOrbit (pldMask (st1.payloadCTP.getD 0)) d
        ++ runStamps cfg st1 fs

/-- The map is a `std::map` and every digit carries the time stamp it is
filed under. -/
def StampedDigits (m : DigitMap) : Prop :=
  MapSorted m ∧ ∀ e ∈ m, e.2.intRecord = e.1

/-- The example configuration with the severity of the logger at `debug`, so
that the operands of `LOG(debug)` are evaluated. -/
def exampleDebugConfig : Config := { exampleConfig with debugLog := true }

/-- A frame of orbit 7 on the interaction-record link with two hardware
words; the first holds the diglets (bc `0xabc`, inputs 1) and (bc `0xabd`,
inputs 1), the second is empty. -/
def exampleTwoStamps : Frame :=
  ⟨7, 0, [0xbc, 0x1a, 0, 0, 0, 0, 0, 0xd0, 0xab, 0x01, 0, 0, 0, 0, 0, 0,
          0, 0, 0, 0, 0, 0, 0, 0, 0, 0, 0, 0, 0, 0, 0, 0]⟩

/-- The count of the specification for the diglets of one frame: the diglets
of a frame of the interaction-record link whose bits under the
trigger-of-interest mask are not all zero. -/
def specFrameCount (cfg : Config) (linkCRU : Nat) (diglets : List Nat) : Nat :=
  if linkCRU = cfg.GBTLinkIDIntRec then
    (diglets.filter (fun d => decide (d &&& cfg.mTVXMask ≠ 0))).length
  else 0

/-- The count of the specification for a run: `specFrameCount` summed over
the frames, each with the diglets that the frame emits. -/
def specRunCount (cfg : Config) : LoopState → List Frame → Nat
  | _, [] => 0
  | st, f :: fs =>
    match processFrame cfg st f with
    | none => 0
    | some (st1, d) => specFrameCount cfg (linkOf f.feeID) d + specRunCount cfg st1 fs

/-- The sum of the counts of LumiSamples, in the naturals. -/
def countsSum (lumiPoints : List LumiInfo) : Nat :=
  (lumiPoints.map (fun lp => lp.counts)).sum

/-! # Theorems -/

set_option maxRecDepth 100000

set_option exponentiation.threshold 4096

/-! ## Arithmetic of the bit operations -/

theorem sub32_eq (a b : Nat) (hb : b ≤ a) (ha : a < 2 ^ 32) : sub32 a b = a - b := by
  unfold sub32; omega

theorem add32_eq (a b : Nat) (h : a + b < 2 ^ 32) : add32 a b = a + b := by
  unfold add32; omega

theorem lor_two_pow_sub_one (n : Nat) : (2 ^ n - 1) ||| 2 ^ n = 2 ^ (n + 1) - 1 := by
  have h1 : 2 ^ n - 1 < 2 ^ n := Nat.sub_lt (Nat.two_pow_pos n) (by decide)
  have h2 := Nat.mul_add_lt_is_or h1 1
  rw [Nat.mul_one] at h2
  rw [Nat.lor_comm, ← h2, pow_succ]
  have := Nat.two_pow_pos n
  omega

theorem lowMask_eq (n : Nat) (hn : n ≤ NGBT) : lowMask n = 2 ^ n - 1 := by
  induction n with
  | zero => rfl
  | succ k ih =>
    have hk := ih (by omega)
    unfold lowMask at hk ⊢
    rw [List.range_succ, List.foldl_append, hk]
    simp only [List.foldl_cons, List.foldl_nil, setBit]
    rw [lor_two_pow_sub_one]
    apply Nat.mod_eq_of_lt
    have : 2 ^ (k + 1) ≤ 2 ^ NGBT := Nat.pow_le_pow_right (by decide) hn
    have := Nat.two_pow_pos (k + 1)
    omega

theorem and_lowMask (w n : Nat) (hn : n ≤ NGBT) : w &&& lowMask n = w % 2 ^ n := by
  rw [lowMask_eq n hn, Nat.and_pow_two_sub_one_eq_mod]

/-- Joining `s` low bits `r` with a field placed at bit `s`. -/
theorem lor_shl80 (r x s n : Nat) (hr : r < 2 ^ s) (hx : x < 2 ^ n) (hsn : s + n ≤ NGBT) :
    r ||| shl80 x s = r + 2 ^ s * x := by
  unfold shl80
  rw [Nat.shiftLeft_eq]
  have h1 : x * 2 ^ s < 2 ^ NGBT := by
    calc x * 2 ^ s < 2 ^ n * 2 ^ s := Nat.mul_lt_mul_of_pos_right hx (Nat.two_pow_pos s)
      _ = 2 ^ (n + s) := by rw [pow_add]
      _ ≤ 2 ^ NGBT := Nat.pow_le_pow_right (by decide) (by omega)
  rw [Nat.mod_eq_of_lt h1, Nat.lor_comm, Nat.mul_comm x, ← Nat.mul_add_lt_is_or hr, Nat.add_comm]

theorem div_mod_window (S p a b : Nat) (hab : b ≤ a) :
    S / 2 ^ p % 2 ^ a % 2 ^ b = S / 2 ^ p % 2 ^ b :=
  Nat.mod_mod_of_dvd _ (Nat.pow_dvd_pow 2 hab)

theorem div_mod_shift (S p a n : Nat) (hn : n ≤ a) :
    S / 2 ^ p % 2 ^ a / 2 ^ n = S / 2 ^ (p + n) % 2 ^ (a - n) := by
  have h : 2 ^ a = 2 ^ n * 2 ^ (a - n) := by rw [← pow_add]; congr 1; omega
  rw [h, Nat.mod_mul_right_div_self, Nat.div_div_eq_div_mul, ← pow_add]

theorem mod_split (T s n : Nat) : T % 2 ^ (s + n) = T % 2 ^ s + 2 ^ s * (T / 2 ^ s % 2 ^ n) := by
  rw [pow_add, Nat.mod_mul]

/-! ## The loop of `makeGBTWordInverse` against a bit stream -/

theorem inverseLoop_tail (S B Npld : Nat) (hN0 : 0 < Npld) (hN : Npld < NGBT) :
    ∀ (fuel i K : Nat) (diglets : List Nat), i < NGBT → K * Npld = B + i → NGBT - Npld - i < fuel →
      ∃ K', K ≤ K' ∧ K' * Npld < B + NGBT ∧ B + NGBT ≤ (K' + 1) * Npld ∧
        inverseLoop Npld fuel diglets (S / 2 ^ (B + i) % 2 ^ (NGBT - i)) 0 i 0 =
          some (diglets ++ (List.range' K (K' - K)).map (slice S Npld),
            S / 2 ^ (K' * Npld) % 2 ^ (B + NGBT - K' * Npld), K' * Npld - B) := by
  have hNGBT : NGBT = 80 := rfl
  intro fuel
  induction fuel with
  | zero => intro i K diglets _ _ h; omega
  | succ fuel ih =>
    intro i K diglets hi hK hfuel
    have hsub : sub32 NGBT Npld = NGBT - Npld := sub32_eq _ _ (by omega) (by rw [hNGBT]; decide)
    have hsub0 : sub32 Npld 0 = Npld := by rw [sub32_eq _ _ (by omega) (by omega)]; rfl
    unfold inverseLoop
    rw [hsub, hsub0]
    by_cases hc : i < NGBT - Npld
    · rw [if_pos hc]
      have hadd : add32 i Npld = i + Npld := add32_eq _ _ (by omega)
      have hdig : (0 ||| shl80 (S / 2 ^ (B + i) % 2 ^ (NGBT - i) &&& lowMask Npld) 0)
          = slice S Npld K := by
        rw [and_lowMask _ _ (by omega), div_mod_window _ _ _ _ (by omega)]
        rw [lor_shl80 0 _ 0 Npld (by simp) (Nat.mod_lt _ (Nat.two_pow_pos _)) (by omega)]
        simp [slice, hK]
      have hword : (S / 2 ^ (B + i) % 2 ^ (NGBT - i)) >>> Npld
          = S / 2 ^ (B + (i + Npld)) % 2 ^ (NGBT - (i + Npld)) := by
        rw [Nat.shiftRight_eq_div_pow, div_mod_shift _ _ _ _ (by omega), Nat.add_assoc,
          Nat.sub_sub]
      rw [hdig, hword, hadd]
      obtain ⟨K', hKK', h1, h2, hres⟩ :=
        ih (i + Npld) (K + 1) (diglets ++ [slice S Npld K]) (by omega)
          (by rw [Nat.add_mul, hK]; omega) (by omega)
      refine ⟨K', by omega, h1, h2, ?_⟩
      rw [hres]
      have hr : K' - K = (K' - (K + 1)) + 1 := by omega
      rw [hr, List.range'_succ]
      simp
    · rw [if_neg hc]
      refine ⟨K, le_refl _, by omega, by rw [Nat.add_mul]; omega, ?_⟩
      simp only [Nat.sub_self, List.range'_zero, List.map_nil, List.append_nil]
      have e1 : B + NGBT - (B + i) = NGBT - i := by omega
      have e2 : B + i - B = i := by omega
      rw [hK, e1, e2]


/-- One call of `makeGBTWordInverse` on the word at bit `B` of the stream `S`,
entered with the `s` stream bits below `B` that follow slice `K - 1`. -/
theorem makeGBTWordInverse_stream (S B Npld K s : Nat) (d0 : List Nat)
    (hN0 : 0 < Npld) (hN : Npld < NGBT) (hs : s ≤ Npld) (hKs : K * Npld + s = B) :
    ∃ K', K < K' ∧ K' * Npld < B + NGBT ∧ B + NGBT ≤ (K' + 1) * Npld ∧
      makeGBTWordInverse
        { diglets := d0, GBTWord := S / 2 ^ B % 2 ^ NGBT,
          remnant := S / 2 ^ (K * Npld) % 2 ^ s, size_gbt := s } Npld =
        some { diglets := d0 ++ (List.range' K (K' - K)).map (slice S Npld),
               GBTWord := S / 2 ^ (K' * Npld) % 2 ^ (B + NGBT - K' * Npld),
               remnant := S / 2 ^ (K' * Npld) % 2 ^ (B + NGBT - K' * Npld),
               size_gbt := B + NGBT - K' * Npld } := by
  have hNGBT : NGBT = 80 := rfl
  have hsub : sub32 NGBT Npld = NGBT - Npld := sub32_eq _ _ (by omega) (by rw [hNGBT]; decide)
  have hsubs : sub32 Npld s = Npld - s := sub32_eq _ _ hs (by omega)
  have hadd : add32 0 (Npld - s) = Npld - s := by rw [add32_eq _ _ (by omega)]; omega
  have hdig : (S / 2 ^ (K * Npld) % 2 ^ s
      ||| shl80 (S / 2 ^ B % 2 ^ NGBT &&& lowMask (Npld - s)) s) = slice S Npld K := by
    rw [and_lowMask _ _ (by omega), div_mod_window _ _ _ _ (by omega)]
    rw [lor_shl80 _ _ s (Npld - s) (Nat.mod_lt _ (Nat.two_pow_pos _))
      (Nat.mod_lt _ (Nat.two_pow_pos _)) (by omega)]
    have hB : S / 2 ^ B = S / 2 ^ (K * Npld) / 2 ^ s := by
      rw [Nat.div_div_eq_div_mul, ← pow_add, hKs]
    have hn : Npld = s + (Npld - s) := by omega
    rw [hB, ← mod_split, ← hn]
    rfl
  have hword : (S / 2 ^ B % 2 ^ NGBT) >>> (Npld - s)
      = S / 2 ^ (B + (Npld - s)) % 2 ^ (NGBT - (Npld - s)) := by
    rw [Nat.shiftRight_eq_div_pow, div_mod_shift _ _ _ _ (by omega)]
  obtain ⟨K', hKK', h1, h2, hres⟩ :=
    inverseLoop_tail S B Npld hN0 hN NGBT (Npld - s) (K + 1) (d0 ++ [slice S Npld K])
      (by omega) (by rw [Nat.add_mul]; omega) (by omega)
  refine ⟨K', by omega, h1, h2, ?_⟩
  unfold makeGBTWordInverse
  dsimp only
  rw [inverseLoop, hsub, if_pos (by omega), hsubs, hdig, hword, hadd, hres]
  have hr : K' - K = (K' - (K + 1)) + 1 := by omega
  have hge : (K + 1) * Npld ≤ K' * Npld := Nat.mul_le_mul_right _ hKK'
  rw [Nat.add_mul] at hge
  have hsz : sub32 NGBT (K' * Npld - B) = B + NGBT - K' * Npld := by
    rw [sub32_eq _ _ (by omega) (by rw [hNGBT]; decide)]; omega
  simp only [hsz, hr, List.range'_succ, List.map_cons, List.append_assoc, List.singleton_append]


/-- Feeding `n` consecutive words of the stream `S`, starting at word `j`. -/
theorem feedWords_stream (S Npld : Nat) (hN0 : 0 < Npld) (hN : Npld < NGBT) :
    ∀ (n j K s : Nat) (acc : List Nat), s ≤ Npld → K * Npld + s = NGBT * j →
      ∃ K' s', K' * Npld + s' = NGBT * (j + n) ∧ s' ≤ Npld ∧ (0 < n → 1 ≤ s') ∧
        (n = 0 → s' = s) ∧ K ≤ K' ∧
        feedWords Npld ((List.range' j n).map (wordAt S)) acc (S / 2 ^ (K * Npld) % 2 ^ s) s =
          some (acc ++ (List.range' K (K' - K)).map (slice S Npld),
            S / 2 ^ (K' * Npld) % 2 ^ s', s') := by
  intro n
  induction n with
  | zero =>
    intro j K s acc hs hK
    exact ⟨K, s, by simpa using hK, hs, by omega, fun _ => rfl, le_refl _, by simp [feedWords]⟩
  | succ n ih =>
    intro j K s acc hs hK
    obtain ⟨K1, hK1, h1, h2, hcall⟩ :=
      makeGBTWordInverse_stream S (NGBT * j) Npld K s [] hN0 hN hs hK
    rw [Nat.add_mul] at h2
    have hs1 : K1 * Npld + (NGBT * j + NGBT - K1 * Npld) = NGBT * (j + 1) := by
      rw [Nat.mul_add]; omega
    obtain ⟨K', s', e1, e2, _, _, e5, e6⟩ :=
      ih (j + 1) K1 (NGBT * j + NGBT - K1 * Npld)
        (acc ++ (List.range' K (K1 - K)).map (slice S Npld)) (by omega) hs1
    have hpos : 1 ≤ s' := by
      rcases Nat.eq_zero_or_pos n with h0 | h0
      · have := ‹n = 0 → s' = _› h0; omega
      · exact ‹0 < n → 1 ≤ s'› h0
    refine ⟨K', s', by rw [e1]; congr 1; omega, e2, fun _ => hpos, fun h => by omega,
      by omega, ?_⟩
    have hw : wordAt S j = S / 2 ^ (NGBT * j) % 2 ^ NGBT := rfl
    rw [List.range'_succ, List.map_cons, feedWords, hw, hcall]
    dsimp only
    rw [List.nil_append, e6, List.append_assoc, ← List.map_append]
    have hr : K + 1 * (K1 - K) = K1 := by omega
    have hr2 : K' - K1 + (K1 - K) = K' - K := by omega
    have := List.range'_append K (K1 - K) (K' - K1) 1
    rw [hr, hr2] at this
    rw [this]

/-- Feeding the first `W ≥ 1` words of the stream `S` from the empty
reassembly state: the first `K = (NGBT * W - 1) / Npld` slices are emitted
and the rest of the stream stays in `remnant`. -/
theorem feedWords_stream_init (S Npld W : Nat) (hN0 : 0 < Npld) (hN : Npld < NGBT)
    (hW : 0 < W) :
    feedWords Npld ((List.range W).map (wordAt S)) [] 0 0 =
      some ((List.range ((NGBT * W - 1) / Npld)).map (slice S Npld),
        S / 2 ^ ((NGBT * W - 1) / Npld * Npld)
          % 2 ^ (NGBT * W - (NGBT * W - 1) / Npld * Npld),
        NGBT * W - (NGBT * W - 1) / Npld * Npld) := by
  obtain ⟨K', s', e1, e2, e3, _, _, e6⟩ :=
    feedWords_stream S Npld hN0 hN W 0 0 0 [] (by omega) (by simp)
  have hs := e3 hW
  rw [Nat.zero_add] at e1
  have hK : (NGBT * W - 1) / Npld = K' := by
    apply Nat.div_eq_of_lt_le
    · omega
    · rw [Nat.add_mul]; omega
  have h0 : S / 2 ^ (0 * Npld) % 2 ^ 0 = 0 := by simp [Nat.mod_one]
  rw [h0] at e6
  rw [hK, List.range_eq_range', e6]
  have hs' : NGBT * W - K' * Npld = s' := by omega
  simp [hs', List.range_eq_range']

/-! ## Packing values of width `Npld` into GBT words -/

theorem slice_specPackStream (Npld : Nat) :
    ∀ (vals : List Nat) (k : Nat), (∀ v ∈ vals, v < 2 ^ Npld) →
      slice (specPackStream Npld vals) Npld k = vals.getD k 0 := by
  intro vals
  induction vals with
  | nil => intro k _; simp [slice, specPackStream]
  | cons v vs ih =>
    intro k hv
    have hv0 : v < 2 ^ Npld := hv v (List.mem_cons_self _ _)
    cases k with
    | zero =>
      simp only [slice, specPackStream, Nat.zero_mul, pow_zero, Nat.div_one,
        Nat.add_mul_mod_self_left, List.getD_cons_zero]
      exact Nat.mod_eq_of_lt hv0
    | succ k =>
      have h := ih k (fun x hx => hv x (List.mem_cons_of_mem _ hx))
      rw [List.getD_cons_succ, ← h]
      unfold slice
      rw [specPackStream, Nat.add_mul k 1 Npld, Nat.one_mul, Nat.add_comm (k * Npld) Npld,
        pow_add, ← Nat.div_div_eq_div_mul,
        Nat.add_mul_div_left _ _ (Nat.two_pow_pos Npld), Nat.div_eq_of_lt hv0, Nat.zero_add]

theorem map_getD_range (l : List Nat) (K : Nat) :
    (List.range K).map (fun k => l.getD k 0)
      = l.take K ++ List.replicate (K - l.length) 0 := by
  apply List.ext_getElem
  · simp; omega
  · intro i h1 h2
    simp only [List.length_map, List.length_range] at h1
    simp only [List.getElem_map, List.getElem_range]
    by_cases h : i < l.length
    · rw [List.getD_eq_getElem _ _ h, List.getElem_append_left (by simp; omega)]
      simp
    · rw [List.getD_eq_default _ _ (by omega), List.getElem_append_right (by simp; omega)]
      simp

/-- One call of `makeGBTWordInverse` from any reassembly state with
`size_gbt ≤ Npld` and `remnant < 2 ^ size_gbt`, on any 80-bit word. -/
theorem makeGBTWordInverse_call (Npld w r s : Nat) (d0 : List Nat)
    (hN0 : 0 < Npld) (hN : Npld < NGBT) (hs : s ≤ Npld) (hr : r < 2 ^ s) (hw : w < 2 ^ NGBT) :
    ∃ st new, makeGBTWordInverse
        { diglets := d0, GBTWord := w, remnant := r, size_gbt := s } Npld = some st ∧
      st.diglets = d0 ++ new ∧ (∀ d ∈ new, d < 2 ^ Npld) ∧
      1 ≤ st.size_gbt ∧ st.size_gbt ≤ Npld ∧ st.remnant < 2 ^ st.size_gbt ∧
      new.length * Npld + st.size_gbt = NGBT + s := by
  obtain ⟨K', hK, h1, h2, hcall⟩ :=
    makeGBTWordInverse_stream (r + 2 ^ s * w) s Npld 0 s d0 hN0 hN hs (by simp)
  have e1 : (r + 2 ^ s * w) / 2 ^ s % 2 ^ NGBT = w := by
    rw [Nat.add_mul_div_left _ _ (Nat.two_pow_pos s), Nat.div_eq_of_lt hr, Nat.zero_add,
      Nat.mod_eq_of_lt hw]
  have e2 : (r + 2 ^ s * w) / 2 ^ (0 * Npld) % 2 ^ s = r := by
    rw [Nat.zero_mul, pow_zero, Nat.div_one, Nat.add_mul_mod_self_left, Nat.mod_eq_of_lt hr]
  rw [e1, e2] at hcall
  rw [Nat.add_mul] at h2
  refine ⟨_, _, hcall, rfl, ?_, ?_, ?_, ?_, ?_⟩
  · intro d hd
    simp only [List.mem_map] at hd
    obtain ⟨k, _, rfl⟩ := hd
    exact Nat.mod_lt _ (Nat.two_pow_pos _)
  · show 1 ≤ s + NGBT - K' * Npld
    omega
  · show s + NGBT - K' * Npld ≤ Npld
    omega
  · exact Nat.mod_lt _ (Nat.two_pow_pos _)
  · show ((List.range' 0 (K' - 0)).map _).length * Npld + (s + NGBT - K' * Npld) = NGBT + s
    rw [List.length_map, List.length_range', Nat.sub_zero]
    omega

/-- Feeding any non-empty sequence of 80-bit words from a reassembly state
with `size_gbt ≤ Npld` returns, with `1 ≤ size_gbt ≤ Npld`. -/
theorem feedWords_size (Npld : Nat) (hN0 : 0 < Npld) (hN : Npld < NGBT) :
    ∀ (words acc : List Nat) (r s : Nat), (∀ w ∈ words, w < 2 ^ NGBT) → s ≤ Npld → r < 2 ^ s →
      ∃ d r' s', feedWords Npld words acc r s = some (d, r', s') ∧ s' ≤ Npld ∧ r' < 2 ^ s' ∧
        (words ≠ [] → 1 ≤ s') := by
  intro words
  induction words with
  | nil =>
    intro acc r s _ hs hr
    exact ⟨acc, r, s, rfl, hs, hr, fun h => absurd rfl h⟩
  | cons w ws ih =>
    intro acc r s hw hs hr
    obtain ⟨st, new, hcall, _, _, h1, h2, h3, _⟩ :=
      makeGBTWordInverse_call Npld w r s [] hN0 hN hs hr (hw w (List.mem_cons_self _ _))
    obtain ⟨d, r', s', e1, e2, e3, e4⟩ :=
      ih (acc ++ st.diglets) st.remnant st.size_gbt
        (fun x hx => hw x (List.mem_cons_of_mem _ hx)) h2 h3
    refine ⟨d, r', s', ?_, e2, e3, fun _ => ?_⟩
    · rw [feedWords, hcall]; exact e1
    · cases ws with
      | nil =>
        simp only [feedWords, Option.some.injEq, Prod.mk.injEq] at e1
        omega
      | cons x xs => exact e4 (List.cons_ne_nil _ _)

/-- C2 (as the code has it): for every payload width `0 < Npld < 80` and
every sequence of 80-bit words fed to `makeGBTWordInverse` from
`remnant = 0`, `size_gbt = 0`, after each word (every non-empty prefix) the
calls have returned and the carried bit count satisfies
`1 ≤ size_gbt ≤ Npld`. -/
theorem size_gbt_after_each_word (Npld : Nat) (words : List Nat) (n : Nat)
    (hN0 : 0 < Npld) (hN : Npld < NGBT) (hw : ∀ w ∈ words, w < 2 ^ NGBT)
    (hn1 : 1 ≤ n) (hn : n ≤ words.length) :
    ∃ d r s, feedWords Npld (words.take n) [] 0 0 = some (d, r, s) ∧ 1 ≤ s ∧ s ≤ Npld := by
  obtain ⟨d, r, s, e1, e2, _, e4⟩ :=
    feedWords_size Npld hN0 hN (words.take n) [] 0 0
      (fun w h => hw w (List.mem_of_mem_take h)) (Nat.zero_le _) (by simp)
  refine ⟨d, r, s, e1, e4 ?_, e2⟩
  intro h
  have := congrArg List.length h
  rw [List.length_take, List.length_nil] at this
  omega

/-- Witness of `size_gbt_after_each_word`: width 60, three words, all of them fed. -/
theorem size_gbt_after_each_word_witness :
    ∃ d r s, feedWords 60 (List.take 3 [5, 6, 7]) [] 0 0 = some (d, r, s) ∧ 1 ≤ s ∧ s ≤ 60 :=
  size_gbt_after_each_word 60 [5, 6, 7] 3 (by decide) (by decide) (by decide) (by decide)
    (by decide)

/-- C2 fails as stated: with `Npld = 60`, after the third word
`size_gbt = 60`, which is not below `Npld`; with `Npld = 76` the same
happens after the nineteenth word. -/
theorem size_gbt_reaches_Npld :
    feedWords 60 [5, 6, 7] [] 0 0 = some ([5, 6291456, 7696581394432], 0, 60) ∧ ¬ (60 < 60) ∧
      (feedWords 76 (List.replicate 19 0) [] 0 0).map (fun r => r.2.2) = some 76 :=
  ⟨by decide, by decide, by rfl⟩


theorem specNumWords_bounds (Npld N : Nat) :
    N * Npld ≤ NGBT * specNumWords Npld N ∧ NGBT * specNumWords Npld N < N * Npld + NGBT := by
  unfold specNumWords NGBT
  omega

/-- C1 (as the code has it): for every payload width `0 < Npld < 80` and every
sequence of `N` values below `2 ^ Npld`, packed back-to-back into the minimal
number of 80-bit words and fed in order to `makeGBTWordInverse` from
`remnant = 0`, `size_gbt = 0`, the calls return and, with `pad` the number of
unused bits of the last word: if `1 ≤ pad ≤ Npld` the emitted diglets are
exactly the `N` values in order; if the values fill the last word
(`pad = 0`, `N > 0`) only the first `N - 1` values are emitted and the last
one stays in `remnant` with `size_gbt = Npld`; if `pad > Npld` the `N` values
are followed by `(pad - 1) / Npld` zero diglets. -/
theorem roundTrip_makeGBTWordInverse (Npld : Nat) (vals : List Nat)
    (hN0 : 0 < Npld) (hN : Npld < NGBT) (hv : ∀ v ∈ vals, v < 2 ^ Npld) :
    ∃ diglets remnant size_gbt,
      feedWords Npld (specPackWords Npld vals) [] 0 0 = some (diglets, remnant, size_gbt) ∧
      (vals = [] → diglets = []) ∧
      (1 ≤ specPad Npld vals.length → specPad Npld vals.length ≤ Npld → diglets = vals) ∧
      (vals ≠ [] → specPad Npld vals.length = 0 →
        diglets = vals.dropLast ∧ some remnant = vals.getLast? ∧ size_gbt = Npld) ∧
      (Npld < specPad Npld vals.length →
        diglets = vals ++ List.replicate ((specPad Npld vals.length - 1) / Npld) 0) := by
  obtain ⟨hb1, hb2⟩ := specNumWords_bounds Npld vals.length
  rcases Nat.eq_zero_or_pos (specNumWords Npld vals.length) with hW | hW
  · -- no word at all: no value
    have hlen : vals.length * Npld = 0 := by rw [hW] at hb1; omega
    have hnil : vals = [] := by
      rcases Nat.mul_eq_zero.mp hlen with h | h
      · exact List.length_eq_zero.mp h
      · omega
    subst hnil
    have hW' : specNumWords Npld 0 = 0 := hW
    refine ⟨[], 0, 0, by simp [specPackWords, hW', feedWords], fun _ => rfl,
      fun h => ?_, fun h => absurd rfl h, fun h => ?_⟩
    · simp [specPad, hW'] at h
    · simp [specPad, hW'] at h
  · have hfeed := feedWords_stream_init (specPackStream Npld vals) Npld
      (specNumWords Npld vals.length) hN0 hN hW
    have hsl : (slice (specPackStream Npld vals) Npld) = fun k => vals.getD k 0 := by
      funext k; exact slice_specPackStream Npld vals k hv
    rw [hsl, map_getD_range] at hfeed
    have hdm := Nat.div_add_mod (NGBT * specNumWords Npld vals.length - 1) Npld
    have hml := Nat.mod_lt (NGBT * specNumWords Npld vals.length - 1) hN0
    generalize hKdef : (NGBT * specNumWords Npld vals.length - 1) / Npld = K at hfeed hdm
    rw [Nat.mul_comm] at hdm
    unfold specPackWords
    refine ⟨_, _, _, hfeed, ?_, ?_, ?_, ?_⟩
    · intro h; subst h
      simp [specNumWords, NGBT] at hW
    · intro hp1 hp2
      unfold specPad at hp1 hp2
      have hK : K = vals.length := by
        rw [← hKdef]
        apply Nat.div_eq_of_lt_le
        · omega
        · rw [Nat.add_mul]; omega
      rw [hK]
      simp
    · intro hne hp
      unfold specPad at hp
      obtain ⟨M, hM⟩ : ∃ M, vals.length = M + 1 :=
        ⟨vals.length - 1, by have := List.length_pos.mpr hne; omega⟩
      have hMN : vals.length * Npld = M * Npld + Npld := by
        rw [hM, Nat.add_mul, Nat.one_mul]
      have hK : K = M := by
        rw [← hKdef]
        apply Nat.div_eq_of_lt_le
        · omega
        · rw [Nat.add_mul, Nat.one_mul]; omega
      have hsz : NGBT * specNumWords Npld vals.length - K * Npld = Npld := by
        rw [hK]; omega
      refine ⟨?_, ?_, hsz⟩
      · rw [hK, List.dropLast_eq_take, hM]
        simp
      · rw [hsz]
        have := slice_specPackStream Npld vals K hv
        unfold slice at this
        rw [this, List.getLast?_eq_getElem?, hM, hK, List.getD_eq_getElem?_getD]
        have hlt : M < vals.length := by omega
        simp [List.getElem?_eq_getElem hlt]
    · intro hp
      unfold specPad at hp ⊢
      have hq := Nat.div_add_mod (NGBT * specNumWords Npld vals.length - vals.length * Npld - 1) Npld
      have hql := Nat.mod_lt (NGBT * specNumWords Npld vals.length - vals.length * Npld - 1) hN0
      generalize (NGBT * specNumWords Npld vals.length - vals.length * Npld - 1) / Npld = q at hq ⊢
      rw [Nat.mul_comm] at hq
      have hK : K = vals.length + q := by
        rw [← hKdef]
        apply Nat.div_eq_of_lt_le
        · rw [Nat.add_mul]; omega
        · rw [Nat.add_mul, Nat.add_mul]; omega
      rw [hK]
      simp

/-- Witness of `roundTrip_makeGBTWordInverse`: the values 1, 2, 3 at width 60. -/
theorem roundTrip_makeGBTWordInverse_witness :
    ∃ diglets remnant size_gbt,
      feedWords 60 (specPackWords 60 [1, 2, 3]) [] 0 0 = some (diglets, remnant, size_gbt) ∧
      (([1, 2, 3] : List Nat) = [] → diglets = []) ∧
      (1 ≤ specPad 60 [1, 2, 3].length → specPad 60 [1, 2, 3].length ≤ 60 →
        diglets = [1, 2, 3]) ∧
      (([1, 2, 3] : List Nat) ≠ [] → specPad 60 [1, 2, 3].length = 0 →
        diglets = [1, 2, 3].dropLast ∧ some remnant = [1, 2, 3].getLast? ∧ size_gbt = 60) ∧
      (60 < specPad 60 [1, 2, 3].length →
        diglets = [1, 2, 3] ++ List.replicate ((specPad 60 [1, 2, 3].length - 1) / 60) 0) :=
  roundTrip_makeGBTWordInverse 60 [1, 2, 3] (by decide) (by decide) (by decide)

/-- C1 fails as stated: the four values 1, 2, 3, 4 of width 60 fill three
80-bit words exactly; feeding these words emits only 1, 2, 3 and leaves 4 in
`remnant` with `size_gbt = 60`. The same happens with the twenty values
1 .. 20 of width 76, which fill nineteen words: 1 .. 19 are emitted. -/
theorem roundTrip_loses_last_value :
    feedWords 60 (specPackWords 60 [1, 2, 3, 4]) [] 0 0 = some ([1, 2, 3], 4, 60) ∧
      ([1, 2, 3] : List Nat) ≠ [1, 2, 3, 4] ∧
      feedWords 76 (specPackWords 76 (List.range' 1 20)) [] 0 0
        = some (List.range' 1 19, 20, 76) :=
  ⟨by decide, by decide, by rfl⟩

/-! ## The digit map -/

theorem irLt_irrefl (a : InteractionRecord) : irLt a a = false := by
  simp [irLt]

theorem irLt_trans {a b c : InteractionRecord} (h1 : irLt a b = true) (h2 : irLt b c = true) :
    irLt a c = true := by
  simp only [irLt, Bool.or_eq_true, Bool.and_eq_true, decide_eq_true_eq] at *
  omega

theorem irLt_ne {a b : InteractionRecord} (h : irLt a b = true) : a ≠ b := by
  intro e; subst e; rw [irLt_irrefl] at h; exact Bool.false_ne_true h

theorem irLt_total {a b : InteractionRecord} (hne : a ≠ b) (h : irLt a b = false) :
    irLt b a = true := by
  have hne' : ¬ (a.orbit = b.orbit ∧ a.bc = b.bc) := by
    intro ⟨h1, h2⟩
    apply hne
    cases a; cases b; simp_all
  simp only [irLt, Bool.or_eq_false_iff, Bool.and_eq_false_iff, decide_eq_false_iff_not,
    Bool.or_eq_true, Bool.and_eq_true, decide_eq_true_eq] at *
  omega

theorem mem_mapSet {m : DigitMap} {k : InteractionRecord} {v : CTPDigit}
    {e : InteractionRecord × CTPDigit} (h : e ∈ mapSet m k v) : e = (k, v) ∨ e ∈ m := by
  induction m with
  | nil => simp [mapSet] at h; exact Or.inl h
  | cons x rest ih =>
    obtain ⟨k', v'⟩ := x
    unfold mapSet at h
    split at h
    · rcases List.mem_cons.mp h with h | h
      · exact Or.inl h
      · exact Or.inr (List.mem_cons_of_mem _ h)
    · split at h
      · rcases List.mem_cons.mp h with h | h
        · exact Or.inl h
        · exact Or.inr h
      · rcases List.mem_cons.mp h with h | h
        · exact Or.inr (h ▸ List.mem_cons_self _ _)
        · rcases ih h with h | h
          · exact Or.inl h
          · exact Or.inr (List.mem_cons_of_mem _ h)

theorem mapSet_sorted {m : DigitMap} (k : InteractionRecord) (v : CTPDigit) (hm : MapSorted m) :
    MapSorted (mapSet m k v) := by
  induction m with
  | nil => simp [mapSet, MapSorted]
  | cons x rest ih =>
    obtain ⟨k', v'⟩ := x
    unfold MapSorted at hm ih ⊢
    rw [List.pairwise_cons] at hm
    unfold mapSet
    split
    · next h =>
      subst h
      exact List.pairwise_cons.mpr ⟨hm.1, hm.2⟩
    · split
      · next _ hlt =>
        refine List.pairwise_cons.mpr ⟨?_, List.pairwise_cons.mpr hm⟩
        intro e he
        rcases List.mem_cons.mp he with he | he
        · subst he; exact hlt
        · exact irLt_trans hlt (hm.1 e he)
      · next hne hlt =>
        refine List.pairwise_cons.mpr ⟨?_, ih hm.2⟩
        intro e he
        rcases mem_mapSet he with he | he
        · subst he
          exact irLt_total hne (by simpa using hlt)
        · exact hm.1 e he

theorem mapFind_mapSet_self (m : DigitMap) (k : InteractionRecord) (v : CTPDigit) :
    mapFind (mapSet m k v) k = some v := by
  induction m with
  | nil => simp [mapSet, mapFind]
  | cons x rest ih =>
    obtain ⟨k', v'⟩ := x
    unfold mapSet
    split
    · simp [mapFind]
    · split
      · simp [mapFind]
      · next hne _ => simp [mapFind, hne, ih]

theorem mapCount_eq_zero {m : DigitMap} {k : InteractionRecord}
    (h : ∀ e ∈ m, e.1 ≠ k) : mapCount m k = 0 := by
  unfold mapCount
  rw [List.length_eq_zero, List.filter_eq_nil_iff]
  intro e he
  simpa using h e he

theorem mapCount_mapSet_self {m : DigitMap} (k : InteractionRecord) (v : CTPDigit)
    (hm : MapSorted m) : mapCount (mapSet m k v) k = 1 := by
  induction m with
  | nil => simp [mapSet, mapCount]
  | cons x rest ih =>
    obtain ⟨k', v'⟩ := x
    unfold MapSorted at hm ih
    rw [List.pairwise_cons] at hm
    unfold mapSet
    split
    · next h =>
      subst h
      have h0 : mapCount rest k = 0 :=
        mapCount_eq_zero (fun e he => (irLt_ne (hm.1 e he)).symm)
      unfold mapCount at h0 ⊢
      simp [List.filter_cons, h0]
    · split
      · next hne hlt =>
        have h0 : mapCount rest k = 0 :=
          mapCount_eq_zero (fun e he => (irLt_ne (irLt_trans hlt (hm.1 e he))).symm)
        unfold mapCount at h0 ⊢
        have hne' : ¬ k' = k := fun e => hne e.symm
        simp [List.filter_cons, h0, hne']
      · next hne _ =>
        have h1 := ih hm.2
        unfold mapCount at h1 ⊢
        have hne' : ¬ k' = k := fun e => hne e.symm
        simp [List.filter_cons, hne', h1]

theorem mapTouch_sorted (cfg : Config) {m : DigitMap} (k : InteractionRecord)
    (hm : MapSorted m) : MapSorted (mapTouch cfg m k) := by
  unfold mapTouch
  split
  · exact mapSet_sorted _ _ hm
  · exact hm

/-! ## The payload mask -/

theorem testBit_setBit (w k i : Nat) :
    (setBit w k).testBit i = (decide (i < NGBT) && (w.testBit i || decide (k = i))) := by
  unfold setBit
  rw [Nat.testBit_mod_two_pow, Nat.testBit_or, Nat.testBit_two_pow]

theorem testBit_pldMask (n i : Nat) :
    (pldMask n).testBit i = decide (12 ≤ i ∧ i < 12 + n ∧ i < NGBT) := by
  induction n with
  | zero => simp [pldMask]; omega
  | succ n ih =>
    unfold pldMask at ih ⊢
    rw [List.range_succ, List.foldl_append]
    simp only [List.foldl_cons, List.foldl_nil]
    rw [testBit_setBit, ih]
    by_cases h1 : i < NGBT <;> by_cases h2 : 12 + n = i <;> by_cases h3 : 12 ≤ i <;>
      by_cases h4 : i < 12 + n <;> simp [h1, h2, h3, h4] <;> omega

/-- A payload that is not zero under the mask is not zero after `pld >>= 12`. -/
theorem pld_shift_ne_zero (d n : Nat) (h : d &&& pldMask n ≠ 0) :
    (d &&& pldMask n) >>> 12 ≠ 0 := by
  intro h0
  apply h
  apply Nat.eq_of_testBit_eq
  intro i
  rw [Nat.zero_testBit]
  by_cases hi : i < 12
  · rw [Nat.testBit_and, testBit_pldMask]
    have : ¬ (12 ≤ i ∧ i < 12 + n ∧ i < NGBT) := by omega
    simp [this]
  · have h1 := congrArg (fun x => Nat.testBit x (i - 12)) h0
    simp only [Nat.testBit_shiftRight, Nat.zero_testBit] at h1
    have e : 12 + (i - 12) = i := by omega
    rw [e] at h1
    exact h1

/-- The masked payload is zero exactly when the diglet has no bit set in the
positions `12 .. 12 + n - 1` that exist in the 80-bit word. -/
theorem and_pldMask_eq_zero (d n : Nat)
    (h : ∀ i, 12 ≤ i → i < 12 + n → d.testBit i = false) : d &&& pldMask n = 0 := by
  apply Nat.eq_of_testBit_eq
  intro i
  rw [Nat.zero_testBit, Nat.testBit_and, testBit_pldMask]
  by_cases hi : 12 ≤ i ∧ i < 12 + n ∧ i < NGBT
  · simp [h i hi.1 hi.2.1]
  · simp [hi]

/-! ## The digit aggregation -/

/-- C5: a diglet whose bits `12 .. 12 + Npld - 1` are all zero leaves the
digit map exactly as it was, for every link (so for both payload kinds):
in the aggregation itself and in the whole per-diglet body of `run`. -/
theorem zero_diglet_leaves_map (cfg : Config) (linkCRU triggerOrbit payloadCTP Npld : Nat)
    (countsMB : Nat) (digits : DigitMap) (diglet : Nat)
    (h : ∀ i, 12 ≤ i → i < 12 + Npld → diglet.testBit i = false) :
    aggregateDiglet cfg linkCRU triggerOrbit (pldMask Npld) digits diglet = digits ∧
      (processDiglet cfg linkCRU triggerOrbit payloadCTP (pldMask Npld)
        (countsMB, digits) diglet).2 = digits := by
  have h0 := and_pldMask_eq_zero diglet Npld h
  have ha : aggregateDiglet cfg linkCRU triggerOrbit (pldMask Npld) digits diglet = digits := by
    unfold aggregateDiglet
    rw [if_pos h0]
  refine ⟨ha, ?_⟩
  unfold processDiglet
  by_cases hd : cfg.mDoDigits = true
  · simp [hd, ha]
  · simp [hd]

theorem aggregateDiglet_first (cfg : Config) (linkCRU triggerOrbit n : Nat)
    (m : DigitMap) (d1 : Nat)
    (hkind : linkCRU = cfg.GBTLinkIDIntRec ∨ linkCRU = cfg.GBTLinkIDClassRec)
    (hm : MapSorted m) (h1 : d1 &&& pldMask n ≠ 0)
    (hfirst : ∀ d, mapFind m { orbit := triggerOrbit, bc := d1 &&& bcidmask } = some d →
      kindMask cfg linkCRU d = 0) :
    ∃ d, mapFind (aggregateDiglet cfg linkCRU triggerOrbit (pldMask n) m d1)
        { orbit := triggerOrbit, bc := d1 &&& bcidmask } = some d ∧
      kindMask cfg linkCRU d = (d1 &&& pldMask n) >>> 12 ∧
      mapCount (aggregateDiglet cfg linkCRU triggerOrbit (pldMask n) m d1)
        { orbit := triggerOrbit, bc := d1 &&& bcidmask } = 1 := by
  unfold aggregateDiglet
  rw [if_neg h1]
  dsimp only
  by_cases hI : linkCRU = cfg.GBTLinkIDIntRec
  · rw [if_pos hI]
    have hs1 : MapSorted (if cfg.debugLog = true
        then mapTouch cfg m { orbit := triggerOrbit, bc := d1 &&& bcidmask } else m) := by
      split
      · exact mapTouch_sorted cfg _ hm
      · exact hm
    have hf1 : ∀ d, mapFind (if cfg.debugLog = true
        then mapTouch cfg m { orbit := triggerOrbit, bc := d1 &&& bcidmask } else m)
          { orbit := triggerOrbit, bc := d1 &&& bcidmask } = some d → d.CTPInputMask = 0 := by
      intro d hd
      split at hd
      · unfold mapTouch at hd
        split at hd
        · rw [mapFind_mapSet_self] at hd
          cases hd; rfl
        · have := hfirst d hd
          simpa [kindMask, hI] using this
      · have := hfirst d hd
        simpa [kindMask, hI] using this
    generalize (if cfg.debugLog = true
        then mapTouch cfg m { orbit := triggerOrbit, bc := d1 &&& bcidmask } else m) = m' at hs1 hf1
    cases hfind : mapFind m' { orbit := triggerOrbit, bc := d1 &&& bcidmask } with
    | none =>
      exact ⟨_, mapFind_mapSet_self _ _ _, by simp [kindMask, hI, setInputMask],
        mapCount_mapSet_self _ _ hs1⟩
    | some d =>
      dsimp only
      rw [if_pos (hf1 d hfind)]
      exact ⟨_, mapFind_mapSet_self _ _ _, by simp [kindMask, hI, setInputMask],
        mapCount_mapSet_self _ _ hs1⟩
  · have hC : linkCRU = cfg.GBTLinkIDClassRec := hkind.resolve_left hI
    rw [if_neg hI, if_pos hC]
    cases hfind : mapFind m { orbit := triggerOrbit, bc := d1 &&& bcidmask } with
    | none =>
      exact ⟨_, mapFind_mapSet_self _ _ _, by simp [kindMask, hI, setClassMask],
        mapCount_mapSet_self _ _ hm⟩
    | some d =>
      dsimp only
      have := hfirst d hfind
      rw [if_pos (by simpa [kindMask, hI] using this)]
      exact ⟨_, mapFind_mapSet_self _ _ _, by simp [kindMask, hI, setClassMask],
        mapCount_mapSet_self _ _ hm⟩

theorem aggregateDiglet_second (cfg : Config) (linkCRU triggerOrbit n : Nat)
    (m : DigitMap) (d2 : Nat) (d : CTPDigit)
    (hfind : mapFind m { orbit := triggerOrbit, bc := d2 &&& bcidmask } = some d)
    (hset : kindMask cfg linkCRU d ≠ 0) :
    aggregateDiglet cfg linkCRU triggerOrbit (pldMask n) m d2 = m := by
  unfold aggregateDiglet
  split
  · rfl
  · dsimp only
    by_cases hI : linkCRU = cfg.GBTLinkIDIntRec
    · rw [if_pos hI]
      have ht : mapTouch cfg m { orbit := triggerOrbit, bc := d2 &&& bcidmask } = m := by
        unfold mapTouch; rw [hfind]
      have hm' : (if cfg.debugLog = true
          then mapTouch cfg m { orbit := triggerOrbit, bc := d2 &&& bcidmask } else m) = m := by
        split
        · exact ht
        · rfl
      rw [hm', hfind]
      dsimp only
      rw [if_neg (by simpa [kindMask, hI] using hset)]
    · rw [if_neg hI]
      split
      · rw [hfind]
        dsimp only
        rw [if_neg (by simpa [kindMask, hI] using hset)]
      · rfl

/-- C4: first writer wins. For a time stamp `(orbit, bc)` and a payload kind
(the link is the interaction-record or the class-record link), let two
diglets with that bc be aggregated one after the other into a map in which
the time stamp has no mask of that kind yet, the first with a non-zero mask
(the second with any mask, zero or not). After the first, the map holds
exactly one digit for the time stamp and its mask of that kind is the first
diglet's mask; the second leaves the whole map unchanged. -/
theorem first_writer_wins (cfg : Config) (linkCRU triggerOrbit Npld : Nat)
    (m : DigitMap) (d1 d2 : Nat)
    (hkind : linkCRU = cfg.GBTLinkIDIntRec ∨ linkCRU = cfg.GBTLinkIDClassRec)
    (hm : MapSorted m)
    (hbc : d2 &&& bcidmask = d1 &&& bcidmask)
    (h1 : d1 &&& pldMask Npld ≠ 0)
    (hfirst : ∀ d, mapFind m { orbit := triggerOrbit, bc := d1 &&& bcidmask } = some d →
      kindMask cfg linkCRU d = 0) :
    mapCount (aggregateDiglet cfg linkCRU triggerOrbit (pldMask Npld) m d1)
        { orbit := triggerOrbit, bc := d1 &&& bcidmask } = 1 ∧
      (mapFind (aggregateDiglet cfg linkCRU triggerOrbit (pldMask Npld) m d1)
        { orbit := triggerOrbit, bc := d1 &&& bcidmask }).map (kindMask cfg linkCRU)
          = some ((d1 &&& pldMask Npld) >>> 12) ∧
      aggregateDiglet cfg linkCRU triggerOrbit (pldMask Npld)
        (aggregateDiglet cfg linkCRU triggerOrbit (pldMask Npld) m d1) d2
          = aggregateDiglet cfg linkCRU triggerOrbit (pldMask Npld) m d1 := by
  obtain ⟨d, hfind, hmask, hcount⟩ :=
    aggregateDiglet_first cfg linkCRU triggerOrbit Npld m d1 hkind hm h1 hfirst
  refine ⟨hcount, by rw [hfind]; simp [hmask], ?_⟩
  apply aggregateDiglet_second cfg linkCRU triggerOrbit Npld _ d2 d
  · rw [hbc]; exact hfind
  · rw [hmask]; exact pld_shift_ne_zero d1 Npld h1

/-! ## The luminosity window -/

/-- One window update from a state that satisfies the window invariant. -/
theorem windowPush_spec (cfg : Config) (s : State) (x n : Nat)
    (hlen : s.mHistory.length ≤ cfg.mNTFToIntegrate) (hsum : s.mCounts = s.mHistory.sum) :
    (windowPush cfg s x n).mHistory
        = (s.mHistory ++ [x]).drop (s.mHistory.length + 1 - cfg.mNTFToIntegrate) ∧
      (windowPush cfg s x n).mCounts = (windowPush cfg s x n).mHistory.sum ∧
      (windowPush cfg s x n).mHistory.length ≤ cfg.mNTFToIntegrate := by
  unfold windowPush
  by_cases h : (s.mHistory ++ [x]).length ≤ cfg.mNTFToIntegrate
  · rw [if_pos h]
    have h' : s.mHistory.length + 1 ≤ cfg.mNTFToIntegrate := by simpa using h
    have hd : s.mHistory.length + 1 - cfg.mNTFToIntegrate = 0 := by omega
    refine ⟨by rw [hd]; rfl, ?_, h⟩
    show s.mCounts + x = (s.mHistory ++ [x]).sum
    rw [List.sum_append, hsum]; simp
  · rw [if_neg h]
    have h' : ¬ s.mHistory.length + 1 ≤ cfg.mNTFToIntegrate := by simpa using h
    have hd : s.mHistory.length + 1 - cfg.mNTFToIntegrate = 1 := by omega
    refine ⟨by rw [hd, List.drop_one], ?_, ?_⟩
    · show s.mCounts + x - (s.mHistory ++ [x]).headD 0 = (s.mHistory ++ [x]).tail.sum
      have hs : s.mCounts + x = (s.mHistory ++ [x]).sum := by
        rw [List.sum_append, hsum]; simp
      rw [hs]
      cases hL : s.mHistory ++ [x] with
      | nil => simp at hL
      | cons a t => simp
    · show (s.mHistory ++ [x]).tail.length ≤ cfg.mNTFToIntegrate
      simp
      omega

/-- The window after a sequence of updates: the last `mNTFToIntegrate` of the
values that were in the queue or were pushed. -/
theorem pushIntervals_spec (cfg : Config) :
    ∀ (intervals : List (Nat × Nat)) (s : State),
      s.mHistory.length ≤ cfg.mNTFToIntegrate → s.mCounts = s.mHistory.sum →
      (pushIntervals cfg s intervals).mHistory
          = (s.mHistory ++ intervals.map Prod.fst).drop
              ((s.mHistory ++ intervals.map Prod.fst).length - cfg.mNTFToIntegrate) ∧
        (pushIntervals cfg s intervals).mCounts = (pushIntervals cfg s intervals).mHistory.sum ∧
        (pushIntervals cfg s intervals).mHistory.length ≤ cfg.mNTFToIntegrate := by
  intro intervals
  induction intervals with
  | nil =>
    intro s hlen hsum
    have hd : (s.mHistory ++ List.map Prod.fst ([] : List (Nat × Nat))).length
        - cfg.mNTFToIntegrate = 0 := by simp; omega
    rw [hd]
    simpa [pushIntervals] using ⟨hsum, hlen⟩
  | cons p rest ih =>
    intro s hlen hsum
    obtain ⟨e1, e2, e3⟩ := windowPush_spec cfg s p.1 p.2 hlen hsum
    obtain ⟨f1, f2, f3⟩ := ih (windowPush cfg s p.1 p.2) e3 e2
    have hstep : pushIntervals cfg s (p :: rest)
        = pushIntervals cfg (windowPush cfg s p.1 p.2) rest := rfl
    rw [hstep]
    refine ⟨?_, f2, f3⟩
    rw [f1, e1]
    have hle : s.mHistory.length + 1 - cfg.mNTFToIntegrate ≤ (s.mHistory ++ [p.1]).length := by
      simp
    rw [← List.drop_append_of_le_length hle, List.drop_drop]
    have happ : s.mHistory ++ [p.1] ++ List.map Prod.fst rest
        = s.mHistory ++ List.map Prod.fst (p :: rest) := by simp
    rw [happ]
    congr 1
    simp only [List.length_drop, List.length_append, List.length_map, List.length_cons,
      List.length_nil]
    omega

/-- C6: sliding window bound. From an empty window (empty queue, running
sum 0), for every window size and every `k` (so for every `k ≥ 1`), after
the aggregates of `mNTFToIntegrate + k` intervals have been pushed the queue
holds exactly `mNTFToIntegrate` entries, they are the most recent
`mNTFToIntegrate` pushed values in push order, and the running sum is their
sum. -/
theorem sliding_window_bound (cfg : Config) (s : State) (intervals : List (Nat × Nat)) (k : Nat)
    (hq : s.mHistory = []) (hc : s.mCounts = 0)
    (hn : intervals.length = cfg.mNTFToIntegrate + k) :
    (pushIntervals cfg s intervals).mHistory.length = cfg.mNTFToIntegrate ∧
      (pushIntervals cfg s intervals).mHistory = (intervals.map Prod.fst).drop k ∧
      (pushIntervals cfg s intervals).mCounts = ((intervals.map Prod.fst).drop k).sum := by
  obtain ⟨e1, e2, _⟩ := pushIntervals_spec cfg intervals s (by simp [hq]) (by simp [hq, hc])
  have hd : (s.mHistory ++ intervals.map Prod.fst).length - cfg.mNTFToIntegrate = k := by
    simp [hq, hn]
  rw [hd, hq, List.nil_append] at e1
  refine ⟨?_, e1, by rw [e2, e1]⟩
  rw [e1, List.length_drop, List.length_map, hn]
  omega

/-- Witness of `sliding_window_bound`: window size 3 and the pushes 10, 20,
30, 40 give the queue 20, 30, 40 and the sum 90. -/
theorem sliding_window_bound_witness :
    (pushIntervals exampleConfig (State.init ⟨0, 0, 0⟩)
        [(10, 1), (20, 1), (30, 1), (40, 1)]).mHistory = [20, 30, 40] ∧
      (pushIntervals exampleConfig (State.init ⟨0, 0, 0⟩)
        [(10, 1), (20, 1), (30, 1), (40, 1)]).mCounts = 90 :=
  have h := sliding_window_bound exampleConfig (State.init ⟨0, 0, 0⟩)
    [(10, 1), (20, 1), (30, 1), (40, 1)] 1 rfl rfl rfl
  ⟨h.2.1, h.2.2⟩

theorem lumiUpdate_windowInv (cfg : Config) (s : State) (ls : LoopState)
    (hinv : WindowInv cfg s) : WindowInv cfg (lumiUpdate cfg s ls) := by
  unfold WindowInv lumiUpdate
  dsimp only
  exact ⟨(windowPush_spec cfg s _ _ hinv.1 hinv.2).2.2,
    (windowPush_spec cfg s _ _ hinv.1 hinv.2).2.1⟩

theorem run_windowInv (cfg : Config) (s s' : State) (inp : RunInput) (out : Output)
    (h : run cfg s inp = some (s', out)) (hinv : WindowInv cfg s) : WindowInv cfg s' := by
  unfold run at h
  dsimp only at h
  split at h
  · simp only [Option.some.injEq, Prod.mk.injEq] at h
    rw [← h.1]; exact hinv
  · split at h
    · exact absurd h (by simp)
    · next ls _ =>
      simp only [Option.some.injEq, Prod.mk.injEq] at h
      rw [← h.1]
      have h2 : WindowInv cfg (if cfg.mDoDigits = true
          then { mOutputDigits := ls.digits.map Prod.snd, mOutputLumiInfo := s.mOutputLumiInfo,
                 mCounts := s.mCounts, mNHBIntegrated := s.mNHBIntegrated,
                 mHistory := s.mHistory, contDeadBeef := 0 }
          else { mOutputDigits := [], mOutputLumiInfo := s.mOutputLumiInfo,
                 mCounts := s.mCounts, mNHBIntegrated := s.mNHBIntegrated,
                 mHistory := s.mHistory, contDeadBeef := 0 }) := by
        split <;> exact hinv
      split
      · exact lumiUpdate_windowInv cfg _ ls h2
      · exact h2

/-- C7: in every state reached from the initial state by any sequence of
runs (real-data intervals and sentinel intervals), the queue length is at
most the window size and the running sum is the sum of the queue entries. -/
theorem window_invariant (cfg : Config) (lumi0 : LumiInfo) (inputs : List RunInput) (s : State)
    (h : runs cfg (State.init lumi0) inputs = some s) :
    s.mHistory.length ≤ cfg.mNTFToIntegrate ∧ s.mCounts = s.mHistory.sum := by
  have key : ∀ (inputs : List RunInput) (s0 s : State), WindowInv cfg s0 →
      runs cfg s0 inputs = some s → WindowInv cfg s := by
    intro inputs
    induction inputs with
    | nil =>
      intro s0 s h0 h
      simp only [runs, Option.some.injEq] at h
      rw [← h]; exact h0
    | cons inp rest ih =>
      intro s0 s h0 h
      unfold runs at h
      split at h
      · exact absurd h (by simp)
      · next s1 out hrun => exact ih s1 s (run_windowInv cfg s0 s1 inp out hrun h0) h
  exact key inputs _ s ⟨Nat.zero_le _, rfl⟩ h

/-! ## The sentinel interval -/

theorem run_sentinel (cfg : Config) (s : State) (inp : RunInput) (h : 0 ∈ inp.deadBeef) :
    run cfg s inp =
      some ({ s with mOutputDigits := [], contDeadBeef := s.contDeadBeef + 1 },
        { digits := if cfg.mDoDigits then some [] else none,
          lumi := if cfg.mDoLumi then some s.mOutputLumiInfo else none }) := by
  have hany : inp.deadBeef.any (fun payloadSize => payloadSize == 0) = true := by
    rw [List.any_eq_true]
    exact ⟨0, h, rfl⟩
  unfold run
  dsimp only
  rw [if_pos hany]

/-- Every run that sends a luminosity record sends the record it leaves in
`mOutputLumiInfo`. -/
theorem run_lumi_output (cfg : Config) (s s' : State) (inp : RunInput) (out : Output)
    (h : run cfg s inp = some (s', out)) :
    out.lumi = if cfg.mDoLumi then some s'.mOutputLumiInfo else none := by
  unfold run at h
  dsimp only at h
  split at h
  · simp only [Option.some.injEq, Prod.mk.injEq] at h
    rw [← h.1, ← h.2]
  · split at h
    · exact absurd h (by simp)
    · simp only [Option.some.injEq, Prod.mk.injEq] at h
      rw [← h.1, ← h.2]

theorem run_real_streak (cfg : Config) (s s' : State) (inp : RunInput) (out : Output)
    (hreal : 0 ∉ inp.deadBeef) (h : run cfg s inp = some (s', out)) : s'.contDeadBeef = 0 := by
  have hany : ¬ inp.deadBeef.any (fun payloadSize => payloadSize == 0) = true := by
    rw [List.any_eq_true]
    rintro ⟨x, hx, h0⟩
    have : x = 0 := by simpa using h0
    exact hreal (this ▸ hx)
  unfold run at h
  dsimp only at h
  rw [if_neg hany] at h
  split at h
  · exact absurd h (by simp)
  · simp only [Option.some.injEq, Prod.mk.injEq] at h
    rw [← h.1]
    unfold lumiUpdate windowPush
    dsimp only
    split <;> split <;> (try split) <;> rfl

/-- C9: the sentinel interval. From every decoder state `s`, a run whose
input has a part with subspecification `0xDEADBEEF` and an empty payload
returns; it sends an empty digit list when digits are enabled and the stored
luminosity record when luminosity is enabled; that record is the one the
run before it sent (whatever that run was); the queue, the running sum and
the sample counter are unchanged and the streak counter grows by exactly 1.
A run with real data (no such part) sets the streak counter to 0. -/
theorem sentinel_interval (cfg : Config) (s : State) (inp : RunInput)
    (hsent : 0 ∈ inp.deadBeef) :
    ∃ s' out, run cfg s inp = some (s', out) ∧
      out.digits = (if cfg.mDoDigits then some [] else none) ∧
      out.lumi = (if cfg.mDoLumi then some s.mOutputLumiInfo else none) ∧
      (∀ (sp : State) (inpp : RunInput) (outp : Output),
        run cfg sp inpp = some (s, outp) → out.lumi = outp.lumi) ∧
      s'.mHistory = s.mHistory ∧ s'.mCounts = s.mCounts ∧
      s'.mNHBIntegrated = s.mNHBIntegrated ∧
      s'.contDeadBeef = s.contDeadBeef + 1 ∧
      (∀ (sr sr' : State) (inpr : RunInput) (outr : Output),
        0 ∉ inpr.deadBeef → run cfg sr inpr = some (sr', outr) → sr'.contDeadBeef = 0) := by
  refine ⟨_, _, run_sentinel cfg s inp hsent, rfl, rfl, ?_, rfl, rfl, rfl, rfl, ?_⟩
  · intro sp inpp outp hp
    rw [run_lumi_output cfg sp s inpp outp hp]
  · intro sr sr' inpr outr hreal hr
    exact run_real_streak cfg sr sr' inpr outr hreal hr

/-! ## The reset of the reassembly state at an orbit change -/

theorem processByte_core (cfg : Config) (linkCRU triggerOrbit payloadCTP pldmask : Nat)
    (fs1 fs2 : FrameState) (b : Nat) (h : FrameState.core fs1 = FrameState.core fs2) :
    (processByte cfg linkCRU triggerOrbit payloadCTP pldmask fs1 b).map FrameState.core
      = (processByte cfg linkCRU triggerOrbit payloadCTP pldmask fs2 b).map FrameState.core := by
  simp only [FrameState.core, Prod.mk.injEq] at h
  obtain ⟨h1, h2, h3, h4, h5⟩ := h
  unfold processByte
  rw [h1, h2, h3, h4, h5]
  by_cases c1 : fs2.wordCount = 15
  · simp [c1, FrameState.core, h1, h3, h4, h5]
  · by_cases c2 : fs2.wordCount > 9
    · simp [c1, c2, FrameState.core, h1, h2, h3, h4, h5]
    · by_cases c3 : fs2.wordCount = 9
      · simp only [c1, c2, c3, if_false, if_true]
        cases makeGBTWordInverse
          { diglets := [], GBTWord := assignByte fs2.gbtWord 9 b, remnant := fs2.remnant,
            size_gbt := fs2.size_gbt } payloadCTP with
        | none => rfl
        | some g => simp [FrameState.core]
      · simp [c1, c2, c3, FrameState.core, h3, h4, h5]

theorem processBytes_core (cfg : Config) (linkCRU triggerOrbit payloadCTP pldmask : Nat) :
    ∀ (bytes : List Nat) (fs1 fs2 : FrameState), FrameState.core fs1 = FrameState.core fs2 →
      (processBytes cfg linkCRU triggerOrbit payloadCTP pldmask fs1 bytes).map FrameState.core
        = (processBytes cfg linkCRU triggerOrbit payloadCTP pldmask fs2 bytes).map
            FrameState.core := by
  intro bytes
  induction bytes with
  | nil => intro fs1 fs2 h; simp [processBytes, h]
  | cons b bs ih =>
    intro fs1 fs2 h
    have hb := processByte_core cfg linkCRU triggerOrbit payloadCTP pldmask fs1 fs2 b h
    unfold processBytes
    cases h1 : processByte cfg linkCRU triggerOrbit payloadCTP pldmask fs1 b with
    | none =>
      rw [h1] at hb
      cases h2 : processByte cfg linkCRU triggerOrbit payloadCTP pldmask fs2 b with
      | none => rfl
      | some y => rw [h2] at hb; simp at hb
    | some x =>
      rw [h1] at hb
      cases h2 : processByte cfg linkCRU triggerOrbit payloadCTP pldmask fs2 b with
      | none => rw [h2] at hb; simp at hb
      | some y =>
        rw [h2] at hb
        simp only [Option.map_some', Option.some.injEq] at hb
        exact ih x y hb

/-- The diglets of a frame body that starts with an orbit change depend on
the frame and the payload width only. -/
theorem processFrameBody_flush (cfg : Config) (st1 st2 : LoopState) (f : Frame)
    (o1 o2 linkCRU payloadCTP : Nat) (h1 : o1 ≠ f.triggerOrbit) (h2 : o2 ≠ f.triggerOrbit) :
    (processFrameBody cfg st1 f o1 linkCRU payloadCTP).map Prod.snd
      = (processFrameBody cfg st2 f o2 linkCRU payloadCTP).map Prod.snd := by
  unfold processFrameBody
  simp only [h1, h2, ne_eq, not_false_eq_true, decide_True, Bool.true_and, if_true]
  have hcore := processBytes_core cfg linkCRU f.triggerOrbit payloadCTP (pldMask payloadCTP)
    f.payload
    { gbtWord := 0, wordCount := 0, remnant := 0, size_gbt := 0,
      countsMB := if (cfg.mDoLumi && decide (payloadCTP = cfg.NIntRecPayload)) = true
        then 0 else st1.countsMB,
      digits := st1.digits, emitted := [] }
    { gbtWord := 0, wordCount := 0, remnant := 0, size_gbt := 0,
      countsMB := if (cfg.mDoLumi && decide (payloadCTP = cfg.NIntRecPayload)) = true
        then 0 else st2.countsMB,
      digits := st2.digits, emitted := [] } rfl
  revert hcore
  cases processBytes cfg linkCRU f.triggerOrbit payloadCTP (pldMask payloadCTP)
    { gbtWord := 0, wordCount := 0, remnant := 0, size_gbt := 0,
      countsMB := if (cfg.mDoLumi && decide (payloadCTP = cfg.NIntRecPayload)) = true
        then 0 else st1.countsMB,
      digits := st1.digits, emitted := [] } f.payload <;>
  cases processBytes cfg linkCRU f.triggerOrbit payloadCTP (pldMask payloadCTP)
    { gbtWord := 0, wordCount := 0, remnant := 0, size_gbt := 0,
      countsMB := if (cfg.mDoLumi && decide (payloadCTP = cfg.NIntRecPayload)) = true
        then 0 else st2.countsMB,
      digits := st2.digits, emitted := [] } f.payload <;>
  simp [FrameState.core]

theorem processFrameBody_reset (cfg : Config) (st : LoopState) (f : Frame)
    (o linkCRU payloadCTP : Nat) (h : o ≠ f.triggerOrbit) :
    processFrameBody cfg st f o linkCRU payloadCTP
      = processFrameBody cfg { st with remnant := 0, size_gbt := 0 } f o linkCRU payloadCTP := by
  unfold processFrameBody
  simp only [h, ne_eq, not_false_eq_true, decide_True, Bool.true_and, if_true]

/-- After a frame that is processed (not left by `continue`), `orbit0` is the
orbit of that frame, `first` is off, and the payload width in force is the
one of the frame's link, or the one carried so far for an unexpected link. -/
theorem processFrame_header (cfg : Config) (st st' : LoopState) (g : Frame) (d : List Nat)
    (h : processFrame cfg st g = some (st', d)) (hproc : frameSkipped cfg g = false) :
    st'.orbit0 = g.triggerOrbit ∧ st'.first = false ∧
      st'.payloadCTP =
        (if linkOf g.feeID = cfg.GBTLinkIDIntRec then some cfg.NIntRecPayload
         else if linkOf g.feeID = cfg.GBTLinkIDClassRec then some cfg.NClassPayload
         else st.payloadCTP) := by
  have body2 : ∀ (o p : Nat),
      processFrameBody cfg st g o (linkOf g.feeID) p = some (st', d) →
      (st'.orbit0 = if o = g.triggerOrbit then o else g.triggerOrbit) ∧ st'.first = false ∧
        st'.payloadCTP = some p := by
    intro o p hb
    unfold processFrameBody at hb
    dsimp only at hb
    split at hb
    · exact absurd hb (by simp)
    · simp only [Option.some.injEq, Prod.mk.injEq] at hb
      rw [← hb.1]
      by_cases ho : o = g.triggerOrbit <;> simp [ho]
  unfold frameSkipped at hproc
  unfold processFrame at h
  dsimp only at h
  by_cases hI : linkOf g.feeID = cfg.GBTLinkIDIntRec
  · rw [if_pos hI] at h
    obtain ⟨e1, e2, e3⟩ := body2 _ _ h
    refine ⟨?_, e2, by rw [e3, if_pos hI]⟩
    rw [e1]; split <;> simp_all
  · rw [if_neg hI] at h
    by_cases hC : linkOf g.feeID = cfg.GBTLinkIDClassRec
    · rw [if_pos hC] at h
      have hI' : ¬ cfg.GBTLinkIDClassRec = cfg.GBTLinkIDIntRec := hC ▸ hI
      have hd : cfg.mDoDigits = true := by
        cases hdd : cfg.mDoDigits with
        | true => rfl
        | false => simp [hC, hI', hdd] at hproc
      simp only [hd, Bool.not_true, Bool.false_eq_true, if_false] at h
      obtain ⟨e1, e2, e3⟩ := body2 _ _ h
      refine ⟨?_, e2, by rw [e3, if_neg hI, if_pos hC]⟩
      rw [e1]; split <;> simp_all
    · rw [if_neg hC] at h
      split at h
      · exact absurd h (by simp)
      · next p hp =>
        obtain ⟨e1, e2, e3⟩ := body2 _ _ h
        refine ⟨?_, e2, by rw [e3, if_neg hI, if_neg hC, hp]⟩
        rw [e1]; split <;> simp_all

theorem processFrame_flush (cfg : Config) (st1 st2 : LoopState) (f : Frame)
    (hf1 : st1.first = false) (hf2 : st2.first = false)
    (ho1 : st1.orbit0 ≠ f.triggerOrbit) (ho2 : st2.orbit0 ≠ f.triggerOrbit)
    (hp : st1.payloadCTP = st2.payloadCTP) :
    (processFrame cfg st1 f).map Prod.snd = (processFrame cfg st2 f).map Prod.snd := by
  unfold processFrame
  simp only [hf1, hf2, Bool.false_eq_true, if_false]
  by_cases hI : linkOf f.feeID = cfg.GBTLinkIDIntRec
  · simp only [hI, if_true]
    exact processFrameBody_flush cfg st1 st2 f _ _ _ _ ho1 ho2
  · simp only [hI, if_false]
    by_cases hC : linkOf f.feeID = cfg.GBTLinkIDClassRec
    · simp only [hC, if_true]
      by_cases hd : cfg.mDoDigits = true
      · simp only [hd, Bool.not_true, Bool.false_eq_true, if_false]
        have := processFrameBody_flush cfg st1 st2 f _ _ (linkOf f.feeID) cfg.NClassPayload
          ho1 ho2
        rw [hC] at this
        exact this
      · simp [hd]
    · simp only [hC, if_false]
      rw [hp]
      cases st2.payloadCTP with
      | none => rfl
      | some p => exact processFrameBody_flush cfg st1 st2 f _ _ _ _ ho1 ho2

theorem processFrame_reset (cfg : Config) (st : LoopState) (f : Frame)
    (hf : st.first = false) (ho : st.orbit0 ≠ f.triggerOrbit)
    (hproc : frameSkipped cfg f = false) :
    processFrame cfg st f = processFrame cfg { st with remnant := 0, size_gbt := 0 } f := by
  unfold frameSkipped at hproc
  unfold processFrame
  simp only [hf, Bool.false_eq_true, if_false]
  by_cases hI : linkOf f.feeID = cfg.GBTLinkIDIntRec
  · simp only [hI, if_true]
    exact processFrameBody_reset cfg st f _ _ _ ho
  · simp only [hI, if_false]
    by_cases hC : linkOf f.feeID = cfg.GBTLinkIDClassRec
    · have hI' : ¬ cfg.GBTLinkIDClassRec = cfg.GBTLinkIDIntRec := hC ▸ hI
      have hd : cfg.mDoDigits = true := by
        cases hdd : cfg.mDoDigits with
        | true => rfl
        | false => simp [hC, hI', hdd] at hproc
      simp only [hC, if_true, hd, Bool.not_true, Bool.false_eq_true, if_false]
      have := processFrameBody_reset cfg st f st.orbit0 (linkOf f.feeID) cfg.NClassPayload ho
      rw [hC] at this
      exact this
    · simp only [hC, if_false]
      cases st.payloadCTP with
      | none => rfl
      | some p => exact processFrameBody_reset cfg st f _ _ _ ho

/-- C3: interval-boundary reset. Let `ga` and `f` be two consecutive processed
frames of a run whose orbits differ. Then the frame `f` is processed exactly
as from `remnant = 0`, `size_gbt = 0`; and in a second run, in which the frame
before `f` has the same header (orbit and FEE id) as `ga` and the same payload
width is in force, but the bytes and everything unpacked before may differ,
the diglets unpacked from `f` are the same. -/
theorem interval_boundary_reset (cfg : Config) (sa sb sa' sb' : LoopState) (ga gb f : Frame)
    (da db : List Nat)
    (hga : processFrame cfg sa ga = some (sa', da))
    (hgb : processFrame cfg sb gb = some (sb', db))
    (hproc : frameSkipped cfg ga = false) (hprocf : frameSkipped cfg f = false)
    (horbit : gb.triggerOrbit = ga.triggerOrbit) (hfee : gb.feeID = ga.feeID)
    (hwidth : sa.payloadCTP = sb.payloadCTP)
    (hdiff : f.triggerOrbit ≠ ga.triggerOrbit) :
    processFrame cfg sa' f = processFrame cfg { sa' with remnant := 0, size_gbt := 0 } f ∧
      (processFrame cfg sa' f).map Prod.snd = (processFrame cfg sb' f).map Prod.snd := by
  have hprocb : frameSkipped cfg gb = false := by
    unfold frameSkipped at hproc ⊢; rw [hfee]; exact hproc
  obtain ⟨a1, a2, a3⟩ := processFrame_header cfg sa sa' ga da hga hproc
  obtain ⟨b1, b2, b3⟩ := processFrame_header cfg sb sb' gb db hgb hprocb
  rw [hfee, ← hwidth, ← a3] at b3
  rw [horbit] at b1
  refine ⟨processFrame_reset cfg sa' f a2 (by rw [a1]; exact fun e => hdiff e.symm) hprocf,
    processFrame_flush cfg sa' sb' f a2 b2 (by rw [a1]; exact fun e => hdiff e.symm)
      (by rw [b1]; exact fun e => hdiff e.symm) b3.symm⟩

/-! ## Frames of an unexpected link, and the luminosity flush -/

/-- C8, the code on a frame of an unexpected link: after a frame of the
interaction-record link (payload width 60 left in `payloadCTP`), a frame
with link field 2 and one GBT word whose bit 2 is set is not skipped: its
word is unpacked with the width 60 and the trigger counter goes from 0 to 1.
As the first frame of a run the same frame has no defined result. -/
theorem unexpected_link_is_counted :
    linkOf 0x200 = 2 ∧
      processFrames exampleConfig LoopState.init [⟨7, 0, []⟩] =
        some { digits := [], lumiPointsHBF1 := [], countsMB := 0, payloadCTP := some 60,
               orbit0 := 7, first := false, remnant := 0, size_gbt := 0 } ∧
      processFrames exampleConfig LoopState.init
          [⟨7, 0, []⟩, ⟨7, 0x200, [4, 0, 0, 0, 0, 0, 0, 0, 0, 0]⟩] =
        some { digits := [], lumiPointsHBF1 := [], countsMB := 1, payloadCTP := some 60,
               orbit0 := 7, first := false, remnant := 0, size_gbt := 20 } ∧
      processFrame exampleConfig LoopState.init ⟨7, 0x200, [4, 0, 0, 0, 0, 0, 0, 0, 0, 0]⟩
        = none := by
  refine ⟨by decide, by rfl, by rfl, by rfl⟩

/-- A frame of an unexpected link creates and changes no digit: the digit
part of C8 holds. -/
theorem aggregateDiglet_unexpected_link (cfg : Config) (linkCRU triggerOrbit pldmask : Nat)
    (digits : DigitMap) (diglet : Nat)
    (h1 : linkCRU ≠ cfg.GBTLinkIDIntRec) (h2 : linkCRU ≠ cfg.GBTLinkIDClassRec) :
    aggregateDiglet cfg linkCRU triggerOrbit pldmask digits diglet = digits := by
  unfold aggregateDiglet
  split
  · rfl
  · simp [h1, h2]

/-- C10, the code at an orbit change: two frames of the interaction-record
link, the first of orbit 1 with one counted diglet, the second of orbit 2.
The sample appended at the orbit change carries the count 1 of orbit 1 under
the orbit 2 of the new frame, and the luminosity record of the run gets the
orbit 2. -/
theorem lumi_flush_carries_new_orbit :
    processFrames exampleConfig LoopState.init
        [⟨1, 0, [4, 0, 0, 0, 0, 0, 0, 0, 0, 0]⟩, ⟨2, 0, []⟩] =
      some { digits := [], lumiPointsHBF1 := [{ orbit := 2, nHBFCounted := 0, counts := 1 }],
             countsMB := 0, payloadCTP := some 60, orbit0 := 2, first := false,
             remnant := 0, size_gbt := 0 } ∧
      (run exampleConfig (State.init ⟨0, 0, 0⟩)
          ⟨[], [⟨1, 0, [4, 0, 0, 0, 0, 0, 0, 0, 0, 0]⟩, ⟨2, 0, []⟩]⟩).map
        (fun r => r.2.lumi) = some (some { orbit := 2, nHBFCounted := 2, counts := 1 }) := by
  refine ⟨by rfl, by rfl⟩

/-- What the code does at an orbit change on the interaction-record link with
luminosity enabled: one sample is appended, with the orbit of the new frame
and the count accumulated so far, and the frame's diglets are counted from 0. -/
theorem processFrameBody_lumi_flush (cfg : Config) (st st' : LoopState) (f : Frame)
    (orbit0 linkCRU : Nat) (d : List Nat) (hl : cfg.mDoLumi = true)
    (ho : orbit0 ≠ f.triggerOrbit)
    (h : processFrameBody cfg st f orbit0 linkCRU cfg.NIntRecPayload = some (st', d)) :
    st'.lumiPointsHBF1 = st.lumiPointsHBF1 ++
        [{ orbit := f.triggerOrbit, nHBFCounted := 0, counts := st.countsMB }] ∧
      processFrameBody cfg { st with countsMB := 0, remnant := 0, size_gbt := 0 } f
          f.triggerOrbit linkCRU cfg.NIntRecPayload
        = some ({ st' with lumiPointsHBF1 := st.lumiPointsHBF1 }, d) := by
  unfold processFrameBody at h ⊢
  simp only [ho, hl, ne_eq, not_false_eq_true, decide_True, Bool.true_and, Bool.and_self,
    if_true, not_true_eq_false, decide_False, Bool.false_and, Bool.false_eq_true,
    if_false] at h ⊢
  split at h
  · exact absurd h (by simp)
  · next fs hfs =>
    simp only [Option.some.injEq, Prod.mk.injEq] at h
    obtain ⟨h1, h2⟩ := h
    subst h1 h2
    exact ⟨rfl, rfl⟩

/-! ## Instances on concrete inputs -/

/-- Witness of `interval_boundary_reset`: 20 bits carried from orbit 1 do not
reach the diglet of the frame of orbit 2. -/
theorem interval_boundary_reset_witness :
    processFrame exampleConfig exampleCarry ⟨2, 0, [0xbc, 0x1a, 0, 0, 0, 0, 0, 0, 0, 0]⟩
        = processFrame exampleConfig { exampleCarry with remnant := 0, size_gbt := 0 }
            ⟨2, 0, [0xbc, 0x1a, 0, 0, 0, 0, 0, 0, 0, 0]⟩ ∧
      (processFrame exampleConfig exampleCarry
          ⟨2, 0, [0xbc, 0x1a, 0, 0, 0, 0, 0, 0, 0, 0]⟩).map Prod.snd
        = (processFrame exampleConfig
            { exampleFresh with orbit0 := 1, first := false }
            ⟨2, 0, [0xbc, 0x1a, 0, 0, 0, 0, 0, 0, 0, 0]⟩).map Prod.snd :=
  interval_boundary_reset exampleConfig exampleCarry exampleFresh exampleCarry
    { exampleFresh with orbit0 := 1, first := false }
    ⟨1, 0, [1, 2, 3]⟩ ⟨1, 0, []⟩ ⟨2, 0, [0xbc, 0x1a, 0, 0, 0, 0, 0, 0, 0, 0]⟩ [] []
    (by rfl) (by rfl) (by rfl) (by rfl) (by rfl) (by rfl) (by rfl) (by decide)

/-- Witness of `first_writer_wins`: the diglets `0x1abc` and `0x2abc` on the
interaction-record link, into the empty map. -/
theorem first_writer_wins_witness :
    mapCount (aggregateDiglet exampleConfig 0 7 (pldMask 60) [] 0x1abc)
        { orbit := 7, bc := 0x1abc &&& bcidmask } = 1 ∧
      (mapFind (aggregateDiglet exampleConfig 0 7 (pldMask 60) [] 0x1abc)
        { orbit := 7, bc := 0x1abc &&& bcidmask }).map (kindMask exampleConfig 0)
          = some ((0x1abc &&& pldMask 60) >>> 12) ∧
      aggregateDiglet exampleConfig 0 7 (pldMask 60)
        (aggregateDiglet exampleConfig 0 7 (pldMask 60) [] 0x1abc) 0x2abc
          = aggregateDiglet exampleConfig 0 7 (pldMask 60) [] 0x1abc :=
  first_writer_wins exampleConfig 0 7 60 [] 0x1abc 0x2abc (Or.inl rfl) List.Pairwise.nil
    (by decide) (by decide) (fun d h => by simp [mapFind] at h)

/-- Witness of `zero_diglet_leaves_map`: the diglet `0xabc` has a bc and no
mask bit. -/
theorem zero_diglet_leaves_map_witness :
    aggregateDiglet exampleConfig 0 7 (pldMask 60)
        [(⟨7, 1⟩, ⟨⟨7, 1⟩, 1, 0⟩)] 0xabc = [(⟨7, 1⟩, ⟨⟨7, 1⟩, 1, 0⟩)] ∧
      (processDiglet exampleConfig 0 7 60 (pldMask 60)
        (0, [(⟨7, 1⟩, ⟨⟨7, 1⟩, 1, 0⟩)]) 0xabc).2 = [(⟨7, 1⟩, ⟨⟨7, 1⟩, 1, 0⟩)] :=
  zero_diglet_leaves_map exampleConfig 0 7 60 60 0 [(⟨7, 1⟩, ⟨⟨7, 1⟩, 1, 0⟩)] 0xabc
    (fun i h1 _ => Nat.testBit_lt_two_pow
      (lt_of_lt_of_le (by decide : 0xabc < 2 ^ 12) (Nat.pow_le_pow_right (by decide) h1)))

/-- Witness of `window_invariant`: a real-data run, a sentinel run and a
real-data run with two orbits. -/
theorem window_invariant_witness :
    ([1, 2] : List Nat).length ≤ exampleConfig.mNTFToIntegrate ∧ 3 = ([1, 2] : List Nat).sum :=
  window_invariant exampleConfig ⟨0, 0, 0⟩
    [⟨[], [⟨1, 0, [4, 0x10, 0, 0, 0, 0, 0, 0, 0, 0]⟩]⟩, ⟨[0], []⟩,
     ⟨[], [⟨3, 0, [4, 0, 0, 0, 0, 0, 0, 0, 0, 0]⟩, ⟨4, 0, [4, 0, 0, 0, 0, 0, 0, 0, 0, 0]⟩]⟩]
    { mOutputDigits := [], mOutputLumiInfo := { orbit := 4, nHBFCounted := 3, counts := 3 },
      mCounts := 3, mNHBIntegrated := 3, mHistory := [1, 2], contDeadBeef := 0 }
    (by rfl)

/-- Witness of `sentinel_interval`: a sentinel run from a state with the
luminosity record `(7, 2, 5)`. -/
theorem sentinel_interval_witness :
    ∃ s' out, run exampleConfig (State.init ⟨7, 2, 5⟩) ⟨[0], []⟩ = some (s', out) ∧
      out.digits = some [] ∧ out.lumi = some ⟨7, 2, 5⟩ ∧ s'.contDeadBeef = 1 :=
  match sentinel_interval exampleConfig (State.init ⟨7, 2, 5⟩) ⟨[0], []⟩ (by decide) with
  | ⟨s', out, h1, h2, h3, _, _, _, _, h8, _⟩ => ⟨s', out, h1, h2, h3, h8⟩

/-! ## `getRawDecoderSpec` -/

/-- C13: `getRawDecoderSpec(askDISTSTF, digits, lumi)` throws exactly when
`digits` and `lumi` are both false; otherwise it returns a processor
description whose outputs are exactly `DIGITS` when `digits` holds followed by
`LUMI` when `lumi` holds, and whose options are `ntf-to-average` (the window
size) with default 90 and `use-verbose-mode` with default false. -/
theorem getRawDecoderSpec_contract (askDISTSTF digits lumi : Bool) :
    ((∃ msg, getRawDecoderSpec askDISTSTF digits lumi = Except.error msg)
        ↔ (digits = false ∧ lumi = false)) ∧
      (¬ (digits = false ∧ lumi = false) →
        ∃ spec, getRawDecoderSpec askDISTSTF digits lumi = Except.ok spec ∧
          spec.outputs = (if digits then [outDIGITS] else []) ++ (if lumi then [outLUMI] else []) ∧
          spec.options.map (fun o => (o.name, o.default)) =
            [("ntf-to-average", OptionDefault.int 90),
             ("use-verbose-mode", OptionDefault.bool false)]) := by
  cases askDISTSTF <;> cases digits <;> cases lumi <;>
    simp [getRawDecoderSpec, outDIGITS, outLUMI]

/-! ## `makeGBTWordInverse` on one word and on a sequence of words -/

/-- C18: state invariant kept by `makeGBTWordInverse`. For every `0 < Npld < 80`,
every 80-bit word and every entry state with `size_gbt ≤ Npld` and
`remnant < 2 ^ size_gbt`, the call returns with `1 ≤ size_gbt ≤ Npld` and
`remnant < 2 ^ size_gbt`, every diglet it appended is below `2 ^ Npld`, and
(diglets appended) `* Npld + size_gbt` after `= 80 + size_gbt` before. -/
theorem makeGBTWordInverse_invariant (Npld w r s : Nat) (d0 : List Nat)
    (hN0 : 0 < Npld) (hN : Npld < NGBT) (hs : s ≤ Npld) (hr : r < 2 ^ s) (hw : w < 2 ^ NGBT) :
    ∃ st new, makeGBTWordInverse
        { diglets := d0, GBTWord := w, remnant := r, size_gbt := s } Npld = some st ∧
      st.diglets = d0 ++ new ∧ (∀ d ∈ new, d < 2 ^ Npld) ∧
      1 ≤ st.size_gbt ∧ st.size_gbt ≤ Npld ∧ st.remnant < 2 ^ st.size_gbt ∧
      new.length * Npld + st.size_gbt = NGBT + s :=
  makeGBTWordInverse_call Npld w r s d0 hN0 hN hs hr hw

/-- Witness of `makeGBTWordInverse_invariant`: width 60, 20 bits carried. -/
theorem makeGBTWordInverse_invariant_witness :
    ∃ st new, makeGBTWordInverse
        { diglets := [9], GBTWord := 0x1234567890abcdef, remnant := 5, size_gbt := 20 } 60
          = some st ∧
      st.diglets = [9] ++ new ∧ (∀ d ∈ new, d < 2 ^ 60) ∧
      1 ≤ st.size_gbt ∧ st.size_gbt ≤ 60 ∧ st.remnant < 2 ^ st.size_gbt ∧
      new.length * 60 + st.size_gbt = NGBT + 20 :=
  makeGBTWordInverse_invariant 60 0x1234567890abcdef 5 20 [9] (by decide) (by decide)
    (by decide) (by decide) (by decide)

theorem wordStream_eq (words : List Nat) : wordStream words = specPackStream NGBT words := by
  induction words with
  | nil => rfl
  | cons w ws ih => simp only [wordStream, specPackStream, ih]

theorem wordAt_wordStream (words : List Nat) (hw : ∀ w ∈ words, w < 2 ^ NGBT) (j : Nat) :
    wordAt (wordStream words) j = words.getD j 0 := by
  have h := slice_specPackStream NGBT words j hw
  rw [← wordStream_eq] at h
  unfold slice at h
  unfold wordAt
  rw [Nat.mul_comm]
  exact h

theorem map_wordAt_wordStream (words : List Nat) (hw : ∀ w ∈ words, w < 2 ^ NGBT) :
    (List.range words.length).map (wordAt (wordStream words)) = words := by
  have hfun : wordAt (wordStream words) = fun j => words.getD j 0 := by
    funext j; exact wordAt_wordStream words hw j
  rw [hfun, map_getD_range]
  simp

theorem wordStream_lt (words : List Nat) (hw : ∀ w ∈ words, w < 2 ^ NGBT) :
    wordStream words < 2 ^ (NGBT * words.length) := by
  induction words with
  | nil => simp [wordStream]
  | cons w ws ih =>
    have h1 := hw w (List.mem_cons_self _ _)
    have h2 := ih (fun x hx => hw x (List.mem_cons_of_mem _ hx))
    have h3 : 2 ^ (NGBT * (w :: ws).length) = 2 ^ NGBT * 2 ^ (NGBT * ws.length) := by
      rw [List.length_cons, Nat.mul_add, Nat.mul_one, Nat.add_comm, pow_add]
    rw [h3, wordStream]
    have h4 : 2 ^ NGBT * (wordStream ws + 1) ≤ 2 ^ NGBT * 2 ^ (NGBT * ws.length) :=
      Nat.mul_le_mul_left _ h2
    rw [Nat.mul_add, Nat.mul_one] at h4
    omega

/-- C17: slice correctness of the unpacker. For every `0 < Npld < 80` and every
sequence of `w ≥ 1` 80-bit words fed in order to `makeGBTWordInverse` from
`remnant = 0`, `size_gbt = 0`, the calls return, the emitted diglets are
exactly the first `K = ceil (80 * w / Npld) - 1` consecutive `Npld`-bit slices
(low bits first) of the stream of the words, and the final `remnant` is the
rest of the stream, `80 * w - K * Npld` bits, with `size_gbt` that number. -/
theorem unpacker_slices (Npld : Nat) (words : List Nat)
    (hN0 : 0 < Npld) (hN : Npld < NGBT) (hw : ∀ w ∈ words, w < 2 ^ NGBT) (hne : words ≠ []) :
    feedWords Npld words [] 0 0 =
        some ((List.range ((NGBT * words.length + Npld - 1) / Npld - 1)).map
                (slice (wordStream words) Npld),
          wordStream words / 2 ^ (((NGBT * words.length + Npld - 1) / Npld - 1) * Npld),
          NGBT * words.length - ((NGBT * words.length + Npld - 1) / Npld - 1) * Npld) ∧
      wordStream words / 2 ^ (((NGBT * words.length + Npld - 1) / Npld - 1) * Npld)
        < 2 ^ (NGBT * words.length - ((NGBT * words.length + Npld - 1) / Npld - 1) * Npld) ∧
      ((NGBT * words.length + Npld - 1) / Npld - 1) * Npld < NGBT * words.length := by
  have hlen : 0 < words.length := List.length_pos.mpr hne
  have hpos : 0 < NGBT * words.length := Nat.mul_pos (by decide) hlen
  have hK : (NGBT * words.length + Npld - 1) / Npld - 1 = (NGBT * words.length - 1) / Npld := by
    have e : NGBT * words.length + Npld - 1 = (NGBT * words.length - 1) + Npld := by omega
    rw [e, Nat.add_div_right _ hN0]
    rfl
  rw [hK]
  have hfeed := feedWords_stream_init (wordStream words) Npld words.length hN0 hN hlen
  rw [map_wordAt_wordStream words hw] at hfeed
  have hdm := Nat.div_add_mod (NGBT * words.length - 1) Npld
  have hml := Nat.mod_lt (NGBT * words.length - 1) hN0
  generalize (NGBT * words.length - 1) / Npld = K at hfeed hdm ⊢
  rw [Nat.mul_comm] at hdm
  have hlt : wordStream words / 2 ^ (K * Npld) < 2 ^ (NGBT * words.length - K * Npld) := by
    rw [Nat.div_lt_iff_lt_mul (Nat.two_pow_pos _), ← pow_add]
    have e : NGBT * words.length - K * Npld + K * Npld = NGBT * words.length := by omega
    rw [e]
    exact wordStream_lt words hw
  refine ⟨?_, hlt, by omega⟩
  rw [hfeed, Nat.mod_eq_of_lt hlt]

/-- Witness of `unpacker_slices`: width 60 and the three words 5, 6, 7. -/
theorem unpacker_slices_witness :
    feedWords 60 [5, 6, 7] [] 0 0 =
        some ((List.range ((NGBT * [5, 6, 7].length + 60 - 1) / 60 - 1)).map
                (slice (wordStream [5, 6, 7]) 60),
          wordStream [5, 6, 7] / 2 ^ (((NGBT * [5, 6, 7].length + 60 - 1) / 60 - 1) * 60),
          NGBT * [5, 6, 7].length - ((NGBT * [5, 6, 7].length + 60 - 1) / 60 - 1) * 60) ∧
      wordStream [5, 6, 7] / 2 ^ (((NGBT * [5, 6, 7].length + 60 - 1) / 60 - 1) * 60)
        < 2 ^ (NGBT * [5, 6, 7].length - ((NGBT * [5, 6, 7].length + 60 - 1) / 60 - 1) * 60) ∧
      ((NGBT * [5, 6, 7].length + 60 - 1) / 60 - 1) * 60 < NGBT * [5, 6, 7].length :=
  unpacker_slices 60 [5, 6, 7] (by decide) (by decide) (by decide) (by decide)

/-- C14: the single-word scenario. With `Npld = 12`, for every six 12-bit
values `v1 .. v6` and every 8-bit value `t`, the call of
`makeGBTWordInverse` from `remnant = 0`, `size_gbt = 0` on the word that holds
`v1 .. v6` in bits 0..71 and `t` in bits 72..79 appends exactly the diglets
`v1, v2, v3, v4, v5, v6` in that order and leaves `size_gbt = 8` and
`remnant = t`. -/
theorem single_word_scenario (v1 v2 v3 v4 v5 v6 t : Nat) (d0 : List Nat)
    (h1 : v1 < 2 ^ 12) (h2 : v2 < 2 ^ 12) (h3 : v3 < 2 ^ 12) (h4 : v4 < 2 ^ 12)
    (h5 : v5 < 2 ^ 12) (h6 : v6 < 2 ^ 12) (ht : t < 2 ^ 8) :
    makeGBTWordInverse
        { diglets := d0,
          GBTWord := v1 + v2 * 2 ^ 12 + v3 * 2 ^ 24 + v4 * 2 ^ 36 + v5 * 2 ^ 48 + v6 * 2 ^ 60
            + t * 2 ^ 72,
          remnant := 0, size_gbt := 0 } 12 =
      some { diglets := d0 ++ [v1, v2, v3, v4, v5, v6], GBTWord := t, remnant := t,
             size_gbt := 8 } := by
  have hS : v1 + v2 * 2 ^ 12 + v3 * 2 ^ 24 + v4 * 2 ^ 36 + v5 * 2 ^ 48 + v6 * 2 ^ 60
      + t * 2 ^ 72 = specPackStream 12 [v1, v2, v3, v4, v5, v6, t] := by
    simp only [specPackStream]
    omega
  have hv : ∀ v ∈ [v1, v2, v3, v4, v5, v6, t], v < 2 ^ 12 := by
    intro v hv
    simp only [List.mem_cons, List.mem_singleton, List.not_mem_nil, or_false] at hv
    have : t < 2 ^ 12 := lt_trans ht (by decide)
    rcases hv with h | h | h | h | h | h | h <;> rw [h] <;> assumption
  have hlt : specPackStream 12 [v1, v2, v3, v4, v5, v6, t] < 2 ^ NGBT := by
    rw [← hS]
    have : (2 : Nat) ^ NGBT = 2 ^ 80 := rfl
    omega
  obtain ⟨K', _, hK1, hK2, hcall⟩ :=
    makeGBTWordInverse_stream (specPackStream 12 [v1, v2, v3, v4, v5, v6, t]) 0 12 0 0 d0
      (by decide) (by decide) (by decide) (by decide)
  have hK : K' = 6 := by
    have : NGBT = 80 := rfl
    omega
  subst hK
  have hsl : ∀ k, slice (specPackStream 12 [v1, v2, v3, v4, v5, v6, t]) 12 k
      = [v1, v2, v3, v4, v5, v6, t].getD k 0 :=
    fun k => slice_specPackStream 12 _ k hv
  have hrem : specPackStream 12 [v1, v2, v3, v4, v5, v6, t] / 2 ^ (6 * 12)
      % 2 ^ (0 + NGBT - 6 * 12) = t := by
    have h := hsl 6
    unfold slice at h
    have e1 : 0 + NGBT - 6 * 12 = 8 := rfl
    rw [e1]
    have h8 : specPackStream 12 [v1, v2, v3, v4, v5, v6, t] / 2 ^ (6 * 12) % 2 ^ 12 = t := by
      rw [h]; rfl
    have hd : specPackStream 12 [v1, v2, v3, v4, v5, v6, t] / 2 ^ (6 * 12) = t := by
      rw [← hS]
      omega
    rw [hd]
    exact Nat.mod_eq_of_lt ht
  have hw : specPackStream 12 [v1, v2, v3, v4, v5, v6, t] / 2 ^ 0 % 2 ^ NGBT
      = specPackStream 12 [v1, v2, v3, v4, v5, v6, t] := by
    rw [pow_zero, Nat.div_one, Nat.mod_eq_of_lt hlt]
  have hr0 : specPackStream 12 [v1, v2, v3, v4, v5, v6, t] / 2 ^ (0 * 12) % 2 ^ 0 = 0 := by
    simp [Nat.mod_one]
  rw [hw, hr0, hrem] at hcall
  rw [hS, hcall]
  have hlist : List.map (slice (specPackStream 12 [v1, v2, v3, v4, v5, v6, t]) 12)
      (List.range' 0 (6 - 0)) = [v1, v2, v3, v4, v5, v6] := by
    have hfun : slice (specPackStream 12 [v1, v2, v3, v4, v5, v6, t]) 12
        = fun k => [v1, v2, v3, v4, v5, v6, t].getD k 0 := funext hsl
    rw [hfun]
    rfl
  rw [hlist]
  rfl

/-- Witness of `single_word_scenario`: the values 1, 2, 3, 4, 5, 6 and the
top byte `0xab`. -/
theorem single_word_scenario_witness :
    makeGBTWordInverse
        { diglets := [],
          GBTWord := 1 + 2 * 2 ^ 12 + 3 * 2 ^ 24 + 4 * 2 ^ 36 + 5 * 2 ^ 48 + 6 * 2 ^ 60
            + 0xab * 2 ^ 72,
          remnant := 0, size_gbt := 0 } 12 =
      some { diglets := [] ++ [1, 2, 3, 4, 5, 6], GBTWord := 0xab, remnant := 0xab,
             size_gbt := 8 } :=
  single_word_scenario 1 2 3 4 5 6 0xab [] (by decide) (by decide) (by decide) (by decide)
    (by decide) (by decide) (by decide)

/-! ## The window update of a real-data run -/

theorem not_any_deadBeef (inp : RunInput) (hreal : 0 ∉ inp.deadBeef) :
    ¬ inp.deadBeef.any (fun payloadSize => payloadSize == 0) = true := by
  rw [List.any_eq_true]
  rintro ⟨x, hx, h0⟩
  have : x = 0 := by simpa using h0
  exact hreal (this ▸ hx)

theorem windowPush_mOutputDigits (cfg : Config) (s : State) (x n : Nat) :
    (windowPush cfg s x n).mOutputDigits = s.mOutputDigits := by
  unfold windowPush
  split <;> rfl

/-- A real-data run with luminosity enabled: the state after the run is the
luminosity update of a state that has the window and the luminosity record
of the state before. -/
theorem run_real_lumi (cfg : Config) (s : State) (inp : RunInput) (ls : LoopState)
    (hl : cfg.mDoLumi = true) (hreal : 0 ∉ inp.deadBeef)
    (hls : processFrames cfg LoopState.init inp.frames = some ls) :
    ∃ s2 : State, s2.mHistory = s.mHistory ∧ s2.mCounts = s.mCounts ∧
      s2.mNHBIntegrated = s.mNHBIntegrated ∧ s2.mOutputLumiInfo = s.mOutputLumiInfo ∧
      s2.mOutputDigits = (if cfg.mDoDigits then ls.digits.map Prod.snd else []) ∧
      run cfg s inp = some (lumiUpdate cfg s2 ls,
        { digits := if cfg.mDoDigits then some (ls.digits.map Prod.snd) else none,
          lumi := some (lumiUpdate cfg s2 ls).mOutputLumiInfo }) := by
  refine ⟨{ s with mOutputDigits := (if cfg.mDoDigits then ls.digits.map Prod.snd else []),
                     contDeadBeef := 0 }, rfl, rfl, rfl, rfl, rfl, ?_⟩
  unfold run
  dsimp only
  rw [if_neg (not_any_deadBeef inp hreal), hls]
  dsimp only
  by_cases hd : cfg.mDoDigits = true
  · simp [hd, hl, lumiUpdate, windowPush_mOutputDigits]
  · simp [hd, hl, lumiUpdate, windowPush_mOutputDigits]

theorem lumiUpdate_fields (cfg : Config) (s : State) (ls : LoopState) :
    (lumiUpdate cfg s ls).mHistory
        = (windowPush cfg s (tfCountsOf (lumiPointsOf ls)) (lumiPointsOf ls).length).mHistory ∧
      (lumiUpdate cfg s ls).mCounts
        = (windowPush cfg s (tfCountsOf (lumiPointsOf ls)) (lumiPointsOf ls).length).mCounts ∧
      (lumiUpdate cfg s ls).mNHBIntegrated
        = (windowPush cfg s (tfCountsOf (lumiPointsOf ls))
            (lumiPointsOf ls).length).mNHBIntegrated ∧
      (lumiUpdate cfg s ls).mOutputLumiInfo =
        { orbit := if (lumiUpdate cfg s ls).mNHBIntegrated ≠ 0
                   then ((lumiPointsOf ls).headD ⟨0, 0, 0⟩).orbit else s.mOutputLumiInfo.orbit,
          nHBFCounted := (lumiUpdate cfg s ls).mNHBIntegrated,
          counts := (lumiUpdate cfg s ls).mCounts } := by
  refine ⟨rfl, rfl, rfl, ?_⟩
  unfold lumiUpdate windowPush lumiPointsOf
  dsimp only
  split <;> rfl

/-- The two cases of the window update. -/
theorem windowPush_cases (cfg : Config) (s : State) (x n : Nat) :
    (s.mHistory.length + 1 ≤ cfg.mNTFToIntegrate →
        (windowPush cfg s x n).mHistory = s.mHistory ++ [x] ∧
        (windowPush cfg s x n).mCounts = s.mCounts + x ∧
        (windowPush cfg s x n).mNHBIntegrated = s.mNHBIntegrated + n) ∧
      (cfg.mNTFToIntegrate < s.mHistory.length + 1 →
        (windowPush cfg s x n).mHistory = (s.mHistory ++ [x]).tail ∧
        (windowPush cfg s x n).mCounts = s.mCounts + x - (s.mHistory ++ [x]).headD 0 ∧
        (windowPush cfg s x n).mNHBIntegrated = s.mNHBIntegrated) := by
  have hlen : (s.mHistory ++ [x]).length = s.mHistory.length + 1 := by simp
  unfold windowPush
  rw [hlen]
  constructor
  · intro h
    rw [if_pos h]
    exact ⟨rfl, rfl, rfl⟩
  · intro h
    rw [if_neg (by omega)]
    exact ⟨rfl, rfl, rfl⟩

/-- C15: the window push step. For every state and every real-data run with
luminosity enabled, with `agg` the aggregate of the run and `n` the number of
its LumiSamples: the run returns; if the queue with `agg` appended is not
longer than the window size, the queue is the old queue with `agg` appended,
the running sum grows by `agg` and the sample counter by `n`; if it is longer,
the oldest entry is removed from the queue with `agg` appended, its value is
subtracted from the running sum plus `agg`, and the sample counter is
unchanged. -/
theorem window_push_step (cfg : Config) (s : State) (inp : RunInput) (ls : LoopState)
    (hl : cfg.mDoLumi = true) (hreal : 0 ∉ inp.deadBeef)
    (hls : processFrames cfg LoopState.init inp.frames = some ls) :
    ∃ s' out, run cfg s inp = some (s', out) ∧
      (s.mHistory.length + 1 ≤ cfg.mNTFToIntegrate →
        s'.mHistory = s.mHistory ++ [tfCountsOf (lumiPointsOf ls)] ∧
        s'.mCounts = s.mCounts + tfCountsOf (lumiPointsOf ls) ∧
        s'.mNHBIntegrated = s.mNHBIntegrated + (lumiPointsOf ls).length) ∧
      (cfg.mNTFToIntegrate < s.mHistory.length + 1 →
        s'.mHistory = (s.mHistory ++ [tfCountsOf (lumiPointsOf ls)]).tail ∧
        s'.mCounts = s.mCounts + tfCountsOf (lumiPointsOf ls)
          - (s.mHistory ++ [tfCountsOf (lumiPointsOf ls)]).headD 0 ∧
        s'.mNHBIntegrated = s.mNHBIntegrated) := by
  obtain ⟨s2, e1, e2, e3, _, _, hrun⟩ := run_real_lumi cfg s inp ls hl hreal hls
  obtain ⟨f1, f2, f3, _⟩ := lumiUpdate_fields cfg s2 ls
  obtain ⟨c1, c2⟩ := windowPush_cases cfg s2 (tfCountsOf (lumiPointsOf ls)) (lumiPointsOf ls).length
  rw [e1, e2, e3] at c1 c2
  refine ⟨_, _, hrun, ?_, ?_⟩
  · intro h
    rw [f1, f2, f3]
    exact c1 h
  · intro h
    rw [f1, f2, f3]
    exact c2 h

/-! ## The sample counter -/

/-- What a run does to the window and the stored luminosity record: nothing,
or the luminosity update of a real-data run. -/
theorem run_cases (cfg : Config) (s s' : State) (inp : RunInput) (out : Output)
    (h : run cfg s inp = some (s', out)) :
    (s'.mHistory = s.mHistory ∧ s'.mCounts = s.mCounts ∧
        s'.mNHBIntegrated = s.mNHBIntegrated ∧ s'.mOutputLumiInfo = s.mOutputLumiInfo) ∨
      (∃ (s2 : State) (ls : LoopState), cfg.mDoLumi = true ∧ 0 ∉ inp.deadBeef ∧
        processFrames cfg LoopState.init inp.frames = some ls ∧
        s2.mHistory = s.mHistory ∧ s2.mCounts = s.mCounts ∧
        s2.mNHBIntegrated = s.mNHBIntegrated ∧ s2.mOutputLumiInfo = s.mOutputLumiInfo ∧
        s' = lumiUpdate cfg s2 ls) := by
  by_cases hsent : 0 ∈ inp.deadBeef
  · rw [run_sentinel cfg s inp hsent] at h
    simp only [Option.some.injEq, Prod.mk.injEq] at h
    left
    rw [← h.1]
    exact ⟨rfl, rfl, rfl, rfl⟩
  · cases hls : processFrames cfg LoopState.init inp.frames with
    | none =>
      unfold run at h
      dsimp only at h
      rw [if_neg (not_any_deadBeef inp hsent), hls] at h
      exact absurd h (by simp)
    | some ls =>
      by_cases hl : cfg.mDoLumi = true
      · obtain ⟨s2, e1, e2, e3, e4, _, hrun⟩ := run_real_lumi cfg s inp ls hl hsent hls
        rw [hrun] at h
        simp only [Option.some.injEq, Prod.mk.injEq] at h
        right
        exact ⟨s2, ls, hl, hsent, rfl, e1, e2, e3, e4, h.1.symm⟩
      · unfold run at h
        dsimp only at h
        rw [if_neg (not_any_deadBeef inp hsent), hls] at h
        simp only [hl, Bool.false_eq_true, if_false, Option.some.injEq, Prod.mk.injEq] at h
        left
        rw [← h.1]
        split <;> exact ⟨rfl, rfl, rfl, rfl⟩

theorem lumiPointsOf_length_pos (ls : LoopState) : 1 ≤ (lumiPointsOf ls).length := by
  simp [lumiPointsOf]

/-- The sample counter never decreases in a run. -/
theorem run_counter_mono (cfg : Config) (s s' : State) (inp : RunInput) (out : Output)
    (h : run cfg s inp = some (s', out)) : s.mNHBIntegrated ≤ s'.mNHBIntegrated := by
  rcases run_cases cfg s s' inp out h with ⟨_, _, e, _⟩ | ⟨s2, ls, _, _, _, e1, _, e3, _, hs'⟩
  · rw [e]
  · obtain ⟨_, _, f3, _⟩ := lumiUpdate_fields cfg s2 ls
    obtain ⟨c1, c2⟩ :=
      windowPush_cases cfg s2 (tfCountsOf (lumiPointsOf ls)) (lumiPointsOf ls).length
    rw [hs', f3, ← e3]
    by_cases hc : s2.mHistory.length + 1 ≤ cfg.mNTFToIntegrate
    · rw [(c1 hc).2.2]; omega
    · rw [(c2 (by omega)).2.2]

theorem runs_counter_mono (cfg : Config) :
    ∀ (inputs : List RunInput) (s s' : State), runs cfg s inputs = some s' →
      s.mNHBIntegrated ≤ s'.mNHBIntegrated := by
  intro inputs
  induction inputs with
  | nil =>
    intro s s' h
    simp only [runs, Option.some.injEq] at h
    rw [h]
  | cons inp rest ih =>
    intro s s' h
    unfold runs at h
    split at h
    · exact absurd h (by simp)
    · next s1 out hrun =>
      exact le_trans (run_counter_mono cfg s s1 inp out hrun) (ih s1 s' h)

theorem windowPush_counterInv (cfg : Config) (s : State) (x n : Nat) (hn : 1 ≤ n)
    (hinv : CounterInv cfg s) :
    CounterInv cfg (windowPush cfg s x n) ∧
      (1 ≤ cfg.mNTFToIntegrate → 1 ≤ (windowPush cfg s x n).mNHBIntegrated) := by
  obtain ⟨c1, c2⟩ := windowPush_cases cfg s x n
  obtain ⟨h1, h2⟩ := hinv
  by_cases hc : s.mHistory.length + 1 ≤ cfg.mNTFToIntegrate
  · obtain ⟨a1, _, a3⟩ := c1 hc
    refine ⟨⟨by rw [a1]; simpa using hc, fun _ => by rw [a3]; omega⟩, fun _ => by rw [a3]; omega⟩
  · obtain ⟨a1, _, a3⟩ := c2 (by omega)
    have hne : cfg.mNTFToIntegrate = 0 ∨ s.mHistory ≠ [] := by
      rcases Nat.eq_zero_or_pos cfg.mNTFToIntegrate with h0 | h0
      · exact Or.inl h0
      · right
        intro he
        rw [he] at hc
        simp at hc
        omega
    refine ⟨⟨?_, ?_⟩, ?_⟩
    · rw [a1]; simp; omega
    · intro hne'
      rw [a3]
      apply h2
      intro he
      rw [a1, he] at hne'
      exact hne' rfl
    · intro hW
      rw [a3]
      rcases hne with h0 | h0
      · omega
      · exact h2 h0

theorem run_counterInv (cfg : Config) (s s' : State) (inp : RunInput) (out : Output)
    (h : run cfg s inp = some (s', out)) (hinv : CounterInv cfg s) : CounterInv cfg s' := by
  rcases run_cases cfg s s' inp out h with ⟨e1, _, e3, _⟩ | ⟨s2, ls, _, _, _, e1, _, e3, _, hs'⟩
  · unfold CounterInv
    rw [e1, e3]; exact hinv
  · obtain ⟨f1, _, f3, _⟩ := lumiUpdate_fields cfg s2 ls
    have hinv2 : CounterInv cfg s2 := by
      unfold CounterInv; rw [e1, e3]; exact hinv
    have := (windowPush_counterInv cfg s2 (tfCountsOf (lumiPointsOf ls)) (lumiPointsOf ls).length
      (lumiPointsOf_length_pos ls) hinv2).1
    unfold CounterInv at this ⊢
    rw [hs', f1, f3]
    exact this

theorem runs_counterInv (cfg : Config) :
    ∀ (inputs : List RunInput) (s s' : State), CounterInv cfg s →
      runs cfg s inputs = some s' → CounterInv cfg s' := by
  intro inputs
  induction inputs with
  | nil =>
    intro s s' h0 h
    simp only [runs, Option.some.injEq] at h
    rw [← h]; exact h0
  | cons inp rest ih =>
    intro s s' h0 h
    unfold runs at h
    split at h
    · exact absurd h (by simp)
    · next s1 out hrun => exact ih s1 s' (run_counterInv cfg s s1 inp out hrun h0) h

/-- C19: the sample counter is never zero. If the window size is at least 1
and the decoder starts from its initial state, then every real-data run with
luminosity enabled, after any sequence of runs, returns with a sample counter
of at least 1, the counter never decreases in the runs that follow, and the
luminosity record that the run sends carries the orbit of the first
LumiSample of that run (the orbit is not retained from the record before). -/
theorem sample_counter_never_zero (cfg : Config) (lumi0 : LumiInfo) (pre : List RunInput)
    (s : State) (inp : RunInput) (ls : LoopState)
    (hW : 1 ≤ cfg.mNTFToIntegrate) (hl : cfg.mDoLumi = true)
    (hpre : runs cfg (State.init lumi0) pre = some s) (hreal : 0 ∉ inp.deadBeef)
    (hls : processFrames cfg LoopState.init inp.frames = some ls) :
    ∃ s' out, run cfg s inp = some (s', out) ∧ 1 ≤ s'.mNHBIntegrated ∧
      out.lumi = some { orbit := ((lumiPointsOf ls).headD ⟨0, 0, 0⟩).orbit,
                        nHBFCounted := s'.mNHBIntegrated, counts := s'.mCounts } ∧
      (∀ (post : List RunInput) (s'' : State), runs cfg s' post = some s'' →
        s'.mNHBIntegrated ≤ s''.mNHBIntegrated) := by
  have hinv : CounterInv cfg s :=
    runs_counterInv cfg pre _ s ⟨Nat.zero_le _, fun h => absurd rfl h⟩ hpre
  obtain ⟨s2, e1, _, e3, _, _, hrun⟩ := run_real_lumi cfg s inp ls hl hreal hls
  obtain ⟨_, _, f3, f4⟩ := lumiUpdate_fields cfg s2 ls
  have hinv2 : CounterInv cfg s2 := by
    unfold CounterInv; rw [e1, e3]; exact hinv
  have hpos : 1 ≤ (lumiUpdate cfg s2 ls).mNHBIntegrated := by
    rw [f3]
    exact (windowPush_counterInv cfg s2 (tfCountsOf (lumiPointsOf ls)) (lumiPointsOf ls).length
      (lumiPointsOf_length_pos ls) hinv2).2 hW
  refine ⟨_, _, hrun, hpos, ?_, fun post s'' h => runs_counter_mono cfg post _ s'' h⟩
  show some (lumiUpdate cfg s2 ls).mOutputLumiInfo = _
  rw [f4, if_pos (by omega)]

/-! ## The byte loop: one word per block of 16 bytes -/

theorem range_ten : List.range 10 = [0, 1, 2, 3, 4, 5, 6, 7, 8, 9] := by decide

theorem blockWord_cons (b0 b1 b2 b3 b4 b5 b6 b7 b8 b9 : Nat) (rest : List Nat) :
    blockWord (b0 :: b1 :: b2 :: b3 :: b4 :: b5 :: b6 :: b7 :: b8 :: b9 :: rest)
      = assignByte (assignByte (assignByte (assignByte (assignByte (assignByte (assignByte
          (assignByte (assignByte (assignByte 0 0 b0) 1 b1) 2 b2) 3 b3) 4 b4) 5 b5) 6 b6) 7 b7)
          8 b8) 9 b9 := by
  unfold blockWord
  rw [range_ten]
  simp only [List.foldl_cons, List.foldl_nil, List.getD_cons_zero, List.getD_cons_succ]

theorem processBytes_cons_data (cfg : Config) (linkCRU triggerOrbit payloadCTP pldmask : Nat)
    (g wc r sz c : Nat) (dg : DigitMap) (em : List Nat) (x : Nat) (rest : List Nat)
    (h : wc < 9) :
    processBytes cfg linkCRU triggerOrbit payloadCTP pldmask
        { gbtWord := g, wordCount := wc, remnant := r, size_gbt := sz, countsMB := c,
          digits := dg, emitted := em } (x :: rest) =
      processBytes cfg linkCRU triggerOrbit payloadCTP pldmask
        { gbtWord := assignByte g wc x, wordCount := wc + 1, remnant := r, size_gbt := sz,
          countsMB := c, digits := dg, emitted := em } rest := by
  rw [processBytes]
  unfold processByte
  dsimp only
  rw [if_neg (by omega), if_neg (by omega), if_neg (by omega)]

theorem processBytes_cons_pad (cfg : Config) (linkCRU triggerOrbit payloadCTP pldmask : Nat)
    (g wc r sz c : Nat) (dg : DigitMap) (em : List Nat) (x : Nat) (rest : List Nat)
    (h : 9 < wc) (h2 : wc < 15) :
    processBytes cfg linkCRU triggerOrbit payloadCTP pldmask
        { gbtWord := g, wordCount := wc, remnant := r, size_gbt := sz, countsMB := c,
          digits := dg, emitted := em } (x :: rest) =
      processBytes cfg linkCRU triggerOrbit payloadCTP pldmask
        { gbtWord := g, wordCount := wc + 1, remnant := r, size_gbt := sz, countsMB := c,
          digits := dg, emitted := em } rest := by
  rw [processBytes]
  unfold processByte
  dsimp only
  rw [if_neg (by omega), if_pos h]

theorem processBytes_cons_wrap (cfg : Config) (linkCRU triggerOrbit payloadCTP pldmask : Nat)
    (g r sz c : Nat) (dg : DigitMap) (em : List Nat) (x : Nat) (rest : List Nat) :
    processBytes cfg linkCRU triggerOrbit payloadCTP pldmask
        { gbtWord := g, wordCount := 15, remnant := r, size_gbt := sz, countsMB := c,
          digits := dg, emitted := em } (x :: rest) =
      processBytes cfg linkCRU triggerOrbit payloadCTP pldmask
        { gbtWord := g, wordCount := 0, remnant := r, size_gbt := sz, countsMB := c,
          digits := dg, emitted := em } rest := by
  rw [processBytes]
  unfold processByte
  dsimp only
  rw [if_pos rfl]

theorem processBytes_cons_word (cfg : Config) (linkCRU triggerOrbit payloadCTP pldmask : Nat)
    (g r sz c : Nat) (dg : DigitMap) (em : List Nat) (x : Nat) (rest : List Nat) :
    processBytes cfg linkCRU triggerOrbit payloadCTP pldmask
        { gbtWord := g, wordCount := 9, remnant := r, size_gbt := sz, countsMB := c,
          digits := dg, emitted := em } (x :: rest) =
      match makeGBTWordInverse
          { diglets := [], GBTWord := assignByte g 9 x, remnant := r, size_gbt := sz }
          payloadCTP with
      | none => none
      | some gs =>
        processBytes cfg linkCRU triggerOrbit payloadCTP pldmask
          { gbtWord := 0, wordCount := 10, remnant := gs.remnant, size_gbt := gs.size_gbt,
            countsMB := (gs.diglets.foldl
              (processDiglet cfg linkCRU triggerOrbit payloadCTP pldmask) (c, dg)).1,
            digits := (gs.diglets.foldl
              (processDiglet cfg linkCRU triggerOrbit payloadCTP pldmask) (c, dg)).2,
            emitted := em ++ gs.diglets } rest := by
  rw [processBytes]
  unfold processByte
  dsimp only
  rw [if_neg (by decide), if_neg (by decide), if_pos rfl]
  cases makeGBTWordInverse
      { diglets := [], GBTWord := assignByte g 9 x, remnant := r, size_gbt := sz }
      payloadCTP <;> rfl

/-- The ten data bytes of a block, entered with `gbtWord = 0` and
`wordCount = 0`. -/
theorem processBytes_ten (cfg : Config) (linkCRU triggerOrbit payloadCTP pldmask : Nat)
    (r sz c : Nat) (dg : DigitMap) (em : List Nat)
    (b0 b1 b2 b3 b4 b5 b6 b7 b8 b9 : Nat) (rest : List Nat) :
    processBytes cfg linkCRU triggerOrbit payloadCTP pldmask
        { gbtWord := 0, wordCount := 0, remnant := r, size_gbt := sz, countsMB := c,
          digits := dg, emitted := em }
        (b0 :: b1 :: b2 :: b3 :: b4 :: b5 :: b6 :: b7 :: b8 :: b9 :: rest) =
      match makeGBTWordInverse
          { diglets := [],
            GBTWord := blockWord (b0 :: b1 :: b2 :: b3 :: b4 :: b5 :: b6 :: b7 :: b8 :: b9 :: rest),
            remnant := r, size_gbt := sz } payloadCTP with
      | none => none
      | some gs =>
        processBytes cfg linkCRU triggerOrbit payloadCTP pldmask
          { gbtWord := 0, wordCount := 10, remnant := gs.remnant, size_gbt := gs.size_gbt,
            countsMB := (gs.diglets.foldl
              (processDiglet cfg linkCRU triggerOrbit payloadCTP pldmask) (c, dg)).1,
            digits := (gs.diglets.foldl
              (processDiglet cfg linkCRU triggerOrbit payloadCTP pldmask) (c, dg)).2,
            emitted := em ++ gs.diglets } rest := by
  rw [blockWord_cons]
  rw [processBytes_cons_data, processBytes_cons_data, processBytes_cons_data,
    processBytes_cons_data, processBytes_cons_data, processBytes_cons_data,
    processBytes_cons_data, processBytes_cons_data, processBytes_cons_data,
    processBytes_cons_word] <;> decide

/-- The six bytes after the tenth byte of a block. -/
theorem processBytes_six (cfg : Config) (linkCRU triggerOrbit payloadCTP pldmask : Nat)
    (g r sz c : Nat) (dg : DigitMap) (em : List Nat)
    (b10 b11 b12 b13 b14 b15 : Nat) (rest : List Nat) :
    processBytes cfg linkCRU triggerOrbit payloadCTP pldmask
        { gbtWord := g, wordCount := 10, remnant := r, size_gbt := sz, countsMB := c,
          digits := dg, emitted := em }
        (b10 :: b11 :: b12 :: b13 :: b14 :: b15 :: rest) =
      processBytes cfg linkCRU triggerOrbit payloadCTP pldmask
        { gbtWord := g, wordCount := 0, remnant := r, size_gbt := sz, countsMB := c,
          digits := dg, emitted := em } rest := by
  rw [processBytes_cons_pad, processBytes_cons_pad, processBytes_cons_pad,
    processBytes_cons_pad, processBytes_cons_pad, processBytes_cons_wrap] <;> decide

/-- One block of 16 bytes, entered with `gbtWord = 0` and `wordCount = 0`,
hands exactly one word to `makeGBTWordInverse`: the word of its first ten
bytes. -/
theorem processBytes_block (cfg : Config) (linkCRU triggerOrbit payloadCTP pldmask : Nat)
    (fs : FrameState) (h0 : fs.gbtWord = 0) (hwc : fs.wordCount = 0)
    (b0 b1 b2 b3 b4 b5 b6 b7 b8 b9 b10 b11 b12 b13 b14 b15 : Nat) (rest : List Nat) :
    processBytes cfg linkCRU triggerOrbit payloadCTP pldmask fs
        (b0 :: b1 :: b2 :: b3 :: b4 :: b5 :: b6 :: b7 :: b8 :: b9 :: b10 :: b11 :: b12 :: b13
          :: b14 :: b15 :: rest) =
      match handWord cfg linkCRU triggerOrbit payloadCTP pldmask fs
          (blockWord (b0 :: b1 :: b2 :: b3 :: b4 :: b5 :: b6 :: b7 :: b8 :: b9 :: b10 :: b11
            :: b12 :: b13 :: b14 :: b15 :: rest)) with
      | none => none
      | some fs1 => processBytes cfg linkCRU triggerOrbit payloadCTP pldmask fs1 rest := by
  obtain ⟨g, wc, r, sz, c, dg, em⟩ := fs
  simp only at h0 hwc
  subst h0 hwc
  rw [processBytes_ten]
  unfold handWord
  dsimp only
  cases makeGBTWordInverse
      { diglets := [],
        GBTWord := blockWord (b0 :: b1 :: b2 :: b3 :: b4 :: b5 :: b6 :: b7 :: b8 :: b9 :: b10
          :: b11 :: b12 :: b13 :: b14 :: b15 :: rest),
        remnant := r, size_gbt := sz } payloadCTP with
  | none => rfl
  | some gs =>
    dsimp only
    rw [processBytes_six]

/-- A list of at least 16 elements starts with 16 elements. -/
theorem list_sixteen (l : List Nat) (h : 16 ≤ l.length) :
    ∃ b0 b1 b2 b3 b4 b5 b6 b7 b8 b9 b10 b11 b12 b13 b14 b15 rest,
      l = b0 :: b1 :: b2 :: b3 :: b4 :: b5 :: b6 :: b7 :: b8 :: b9 :: b10 :: b11 :: b12 :: b13
        :: b14 :: b15 :: rest := by
  rcases l with _ | ⟨b0, l⟩
  · simp at h
  rcases l with _ | ⟨b1, l⟩
  · simp at h
  rcases l with _ | ⟨b2, l⟩
  · simp at h
  rcases l with _ | ⟨b3, l⟩
  · simp at h
  rcases l with _ | ⟨b4, l⟩
  · simp at h
  rcases l with _ | ⟨b5, l⟩
  · simp at h
  rcases l with _ | ⟨b6, l⟩
  · simp at h
  rcases l with _ | ⟨b7, l⟩
  · simp at h
  rcases l with _ | ⟨b8, l⟩
  · simp at h
  rcases l with _ | ⟨b9, l⟩
  · simp at h
  rcases l with _ | ⟨b10, l⟩
  · simp at h
  rcases l with _ | ⟨b11, l⟩
  · simp at h
  rcases l with _ | ⟨b12, l⟩
  · simp at h
  rcases l with _ | ⟨b13, l⟩
  · simp at h
  rcases l with _ | ⟨b14, l⟩
  · simp at h
  rcases l with _ | ⟨b15, l⟩
  · simp at h
  exact ⟨b0, b1, b2, b3, b4, b5, b6, b7, b8, b9, b10, b11, b12, b13, b14, b15, l, rfl⟩

theorem payloadWords_succ (l : List Nat) (m : Nat) :
    payloadWords l (m + 1) = blockWord l :: payloadWords (l.drop 16) m := by
  unfold payloadWords
  rw [List.range_succ_eq_map, List.map_cons, List.map_map]
  have h0 : List.drop (16 * 0) l = l := by simp
  rw [h0]
  congr 1
  apply List.map_congr_left
  intro j _
  simp only [Function.comp, List.drop_drop]
  congr 2
  omega

/-- The byte loop over a payload of `m` blocks of 16 bytes hands the `m` words
of the payload to `makeGBTWordInverse`, in order. -/
theorem processBytes_words (cfg : Config) (linkCRU triggerOrbit payloadCTP pldmask : Nat) :
    ∀ (m : Nat) (payload : List Nat) (fs : FrameState), payload.length = 16 * m →
      fs.gbtWord = 0 → fs.wordCount = 0 →
      processBytes cfg linkCRU triggerOrbit payloadCTP pldmask fs payload
        = handWords cfg linkCRU triggerOrbit payloadCTP pldmask fs (payloadWords payload m) := by
  intro m
  induction m with
  | zero =>
    intro payload fs hlen _ _
    have : payload = [] := List.length_eq_zero.mp (by omega)
    subst this
    rfl
  | succ m ih =>
    intro payload fs hlen h0 hwc
    obtain ⟨b0, b1, b2, b3, b4, b5, b6, b7, b8, b9, b10, b11, b12, b13, b14, b15, rest, hp⟩ :=
      list_sixteen payload (by omega)
    have hrest : rest.length = 16 * m := by
      rw [hp] at hlen
      simp only [List.length_cons] at hlen
      omega
    have hdrop : payload.drop 16 = rest := by rw [hp]; rfl
    rw [payloadWords_succ, hdrop, handWords, hp,
      processBytes_block cfg linkCRU triggerOrbit payloadCTP pldmask fs h0 hwc]
    cases hh : handWord cfg linkCRU triggerOrbit payloadCTP pldmask fs
        (blockWord (b0 :: b1 :: b2 :: b3 :: b4 :: b5 :: b6 :: b7 :: b8 :: b9 :: b10 :: b11
          :: b12 :: b13 :: b14 :: b15 :: rest)) with
    | none => rfl
    | some fs1 =>
      dsimp only
      apply ih rest fs1 hrest
      · unfold handWord at hh
        split at hh
        · exact absurd hh (by simp)
        · simp only [Option.some.injEq] at hh
          rw [← hh]
      · unfold handWord at hh
        split at hh
        · exact absurd hh (by simp)
        · simp only [Option.some.injEq] at hh
          rw [← hh]

theorem testBit_assignBit (w p : Nat) (v : Bool) (j : Nat) :
    (assignBit w p v).testBit j
      = (decide (j < NGBT) && (if p = j then v else w.testBit j)) := by
  unfold assignBit
  cases v with
  | true =>
    rw [if_pos rfl, testBit_setBit]
    by_cases h : p = j <;> simp [h]
  | false =>
    rw [if_neg (by simp), Nat.testBit_mod_two_pow, Nat.testBit_xor, Nat.testBit_and,
      Nat.testBit_two_pow]
    by_cases h : p = j <;> cases w.testBit j <;> simp [h]

theorem testBit_assignByte_aux (w k byte : Nat)
    (hw : ∀ j, NGBT ≤ j → w.testBit j = false) (j : Nat) :
    ∀ n, ((List.range n).foldl
        (fun w i => assignBit w (k * 8 + i) (byte.testBit i)) w).testBit j
      = if k * 8 ≤ j ∧ j < k * 8 + n ∧ j < NGBT then byte.testBit (j - k * 8)
        else w.testBit j := by
  intro n
  induction n with
  | zero =>
    have : ¬ (k * 8 ≤ j ∧ j < k * 8 + 0 ∧ j < NGBT) := by omega
    rw [if_neg this]
    rfl
  | succ n ih =>
    rw [List.range_succ, List.foldl_append]
    simp only [List.foldl_cons, List.foldl_nil]
    rw [testBit_assignBit, ih]
    by_cases hj : j < NGBT
    · have hd : decide (j < NGBT) = true := decide_eq_true hj
      rw [hd, Bool.true_and]
      by_cases he : k * 8 + n = j
      · have e : j - k * 8 = n := by omega
        have c : k * 8 ≤ j ∧ j < k * 8 + (n + 1) ∧ j < NGBT := ⟨by omega, by omega, hj⟩
        rw [if_pos he, if_pos c, e]
      · rw [if_neg he]
        by_cases c : k * 8 ≤ j ∧ j < k * 8 + n ∧ j < NGBT
        · have c' : k * 8 ≤ j ∧ j < k * 8 + (n + 1) ∧ j < NGBT := ⟨c.1, by omega, hj⟩
          rw [if_pos c, if_pos c']
        · have c' : ¬ (k * 8 ≤ j ∧ j < k * 8 + (n + 1) ∧ j < NGBT) := by
            intro ⟨a1, a2, _⟩
            exact c ⟨a1, by omega, hj⟩
          rw [if_neg c, if_neg c']
    · have c : ¬ (k * 8 ≤ j ∧ j < k * 8 + (n + 1) ∧ j < NGBT) := fun h => hj h.2.2
      have hd : decide (j < NGBT) = false := decide_eq_false hj
      rw [if_neg c, hw j (by omega), hd, Bool.false_and]

theorem testBit_assignByte (w k byte : Nat)
    (hw : ∀ j, NGBT ≤ j → w.testBit j = false) (j : Nat) :
    (assignByte w k byte).testBit j
      = if k * 8 ≤ j ∧ j < k * 8 + 8 ∧ j < NGBT then byte.testBit (j - k * 8)
        else w.testBit j :=
  testBit_assignByte_aux w k byte hw j 8

theorem testBit_blockWord_aux (b : List Nat) (j : Nat) :
    ∀ m, ((List.range m).foldl (fun w k => assignByte w k (b.getD k 0)) 0).testBit j
      = (decide (j < 8 * m ∧ j < NGBT) && (b.getD (j / 8) 0).testBit (j % 8)) := by
  intro m
  induction m generalizing j with
  | zero => simp
  | succ m ih =>
    rw [List.range_succ, List.foldl_append]
    simp only [List.foldl_cons, List.foldl_nil]
    rw [testBit_assignByte _ _ _ (fun i hi => by
      rw [ih i]
      have : ¬ (i < 8 * m ∧ i < NGBT) := by omega
      simp [this])]
    by_cases c : m * 8 ≤ j ∧ j < m * 8 + 8 ∧ j < NGBT
    · have e1 : j / 8 = m := by omega
      have e2 : j % 8 = j - m * 8 := by omega
      have c' : j < 8 * (m + 1) ∧ j < NGBT := ⟨by omega, c.2.2⟩
      rw [if_pos c, e1, e2]
      simp [c']
    · rw [if_neg c, ih j]
      by_cases c2 : j < 8 * m ∧ j < NGBT
      · have c' : j < 8 * (m + 1) ∧ j < NGBT := ⟨by omega, c2.2⟩
        simp [c2, c']
      · have c' : ¬ (j < 8 * (m + 1) ∧ j < NGBT) := by
          intro ⟨a1, a2⟩
          by_cases h8 : j < 8 * m
          · exact c2 ⟨h8, a2⟩
          · exact c ⟨by omega, by omega, a2⟩
        simp [c2, c']

/-- Bit `j` of the word of a block is bit `j % 8` of byte `j / 8` of the
block, for `j` below 80. -/
theorem testBit_blockWord (b : List Nat) (j : Nat) :
    (blockWord b).testBit j = (decide (j < NGBT) && (b.getD (j / 8) 0).testBit (j % 8)) := by
  unfold blockWord
  rw [testBit_blockWord_aux b j 10]
  have hN : NGBT = 80 := rfl
  by_cases h : j < NGBT
  · have : j < 8 * 10 ∧ j < NGBT := ⟨by omega, h⟩
    simp [h, this]
  · have : ¬ (j < 8 * 10 ∧ j < NGBT) := fun c => h c.2
    simp [h, this]

theorem getD_drop (l : List Nat) (n k : Nat) : (l.drop n).getD k 0 = l.getD (n + k) 0 := by
  rw [List.getD_eq_getElem?_getD, List.getD_eq_getElem?_getD, List.getElem?_drop]

theorem blockWord_congr (l l' : List Nat) (h : ∀ k, k < 10 → l'.getD k 0 = l.getD k 0) :
    blockWord l' = blockWord l := by
  unfold blockWord
  apply List.foldl_ext
  intro a k hk
  rw [h k (List.mem_range.mp hk)]

theorem getD_payloadWords (payload : List Nat) (m j : Nat) (hj : j < m) :
    (payloadWords payload m).getD j 0 = blockWord (payload.drop (16 * j)) := by
  unfold payloadWords
  rw [List.getD_eq_getElem?_getD, List.getElem?_map, List.getElem?_range hj]
  simp only [Option.map_some', Option.getD_some]

/-- C11: byte-to-word reassembly. For every frame payload of `16 * m` bytes,
the byte loop (entered with `gbtWord = 0`, `wordCount = 0`, as in every frame)
hands exactly `m` words to `makeGBTWordInverse`, in order; bit `8 * k + i` of
word `j` is bit `i` of byte `16 * j + k` for `k < 10`, `i < 8`; and the bytes
at `16 * j + 10 .. 16 * j + 15` have no effect: a payload that agrees on the
other bytes ends in the same state (same diglets, digits and count). -/
theorem byte_to_word_reassembly (cfg : Config) (linkCRU triggerOrbit payloadCTP pldmask : Nat)
    (fs : FrameState) (payload : List Nat) (m : Nat)
    (hlen : payload.length = 16 * m) (h0 : fs.gbtWord = 0) (hwc : fs.wordCount = 0) :
    processBytes cfg linkCRU triggerOrbit payloadCTP pldmask fs payload
        = handWords cfg linkCRU triggerOrbit payloadCTP pldmask fs (payloadWords payload m) ∧
      (payloadWords payload m).length = m ∧
      (∀ j k i, j < m → k < 10 → i < 8 →
        ((payloadWords payload m).getD j 0).testBit (8 * k + i)
          = (payload.getD (16 * j + k) 0).testBit i) ∧
      (∀ payload' : List Nat, payload'.length = 16 * m →
        (∀ j k, j < m → k < 10 → payload'.getD (16 * j + k) 0 = payload.getD (16 * j + k) 0) →
        processBytes cfg linkCRU triggerOrbit payloadCTP pldmask fs payload'
          = processBytes cfg linkCRU triggerOrbit payloadCTP pldmask fs payload) := by
  have hmain := processBytes_words cfg linkCRU triggerOrbit payloadCTP pldmask m payload fs
    hlen h0 hwc
  refine ⟨hmain, by simp [payloadWords], ?_, ?_⟩
  · intro j k i hj hk hi
    have hN : NGBT = 80 := rfl
    have e1 : (8 * k + i) / 8 = k := by omega
    have e2 : (8 * k + i) % 8 = i := by omega
    have e3 : 8 * k + i < NGBT := by omega
    rw [getD_payloadWords payload m j hj, testBit_blockWord, e1, e2, getD_drop]
    simp [e3]
  · intro payload' hlen' hsame
    rw [hmain, processBytes_words cfg linkCRU triggerOrbit payloadCTP pldmask m payload' fs
      hlen' h0 hwc]
    have hw : payloadWords payload' m = payloadWords payload m := by
      unfold payloadWords
      apply List.map_congr_left
      intro j hj
      apply blockWord_congr
      intro k hk
      rw [getD_drop, getD_drop]
      exact hsame j k (List.mem_range.mp hj) hk
    rw [hw]

/-! ## Invariants of the digit map along a run -/

theorem processDiglet_digits (cfg : Config) (linkCRU triggerOrbit payloadCTP pldmask : Nat)
    (st : Nat × DigitMap) (d : Nat) :
    (processDiglet cfg linkCRU triggerOrbit payloadCTP pldmask st d).2
      = if cfg.mDoDigits then aggregateDiglet cfg linkCRU triggerOrbit pldmask st.2 d
        else st.2 := by
  unfold processDiglet
  dsimp only
  by_cases h : cfg.mDoDigits = true
  · rw [if_pos h, if_pos h]
  · rw [if_neg h, if_neg h]

theorem foldl_processDiglet_inv (P : DigitMap → Prop) (cfg : Config)
    (linkCRU triggerOrbit payloadCTP pldmask : Nat)
    (hP : ∀ m d, P m → P (aggregateDiglet cfg linkCRU triggerOrbit pldmask m d)) :
    ∀ (ds : List Nat) (st : Nat × DigitMap), P st.2 →
      P (ds.foldl (processDiglet cfg linkCRU triggerOrbit payloadCTP pldmask) st).2 := by
  intro ds
  induction ds with
  | nil => intro st h; exact h
  | cons d ds ih =>
    intro st h
    rw [List.foldl_cons]
    apply ih
    rw [processDiglet_digits]
    split
    · exact hP _ _ h
    · exact h

theorem processByte_inv (P : DigitMap → Prop) (cfg : Config)
    (linkCRU triggerOrbit payloadCTP pldmask : Nat)
    (hP : ∀ m d, P m → P (aggregateDiglet cfg linkCRU triggerOrbit pldmask m d))
    (fs fs' : FrameState) (b : Nat) (h : P fs.digits)
    (hb : processByte cfg linkCRU triggerOrbit payloadCTP pldmask fs b = some fs') :
    P fs'.digits := by
  unfold processByte at hb
  split at hb
  · simp only [Option.some.injEq] at hb; rw [← hb]; exact h
  · split at hb
    · simp only [Option.some.injEq] at hb; rw [← hb]; exact h
    · split at hb
      · split at hb
        · exact absurd hb (by simp)
        · simp only [Option.some.injEq] at hb
          rw [← hb]
          exact foldl_processDiglet_inv P cfg linkCRU triggerOrbit payloadCTP pldmask hP _
            (fs.countsMB, fs.digits) h
      · simp only [Option.some.injEq] at hb; rw [← hb]; exact h

theorem processBytes_inv (P : DigitMap → Prop) (cfg : Config)
    (linkCRU triggerOrbit payloadCTP pldmask : Nat)
    (hP : ∀ m d, P m → P (aggregateDiglet cfg linkCRU triggerOrbit pldmask m d)) :
    ∀ (bytes : List Nat) (fs fs' : FrameState), P fs.digits →
      processBytes cfg linkCRU triggerOrbit payloadCTP pldmask fs bytes = some fs' →
      P fs'.digits := by
  intro bytes
  induction bytes with
  | nil =>
    intro fs fs' h hb
    simp only [processBytes, Option.some.injEq] at hb
    rw [← hb]; exact h
  | cons b bs ih =>
    intro fs fs' h hb
    unfold processBytes at hb
    split at hb
    · exact absurd hb (by simp)
    · next fs1 h1 =>
      exact ih fs1 fs' (processByte_inv P cfg linkCRU triggerOrbit payloadCTP pldmask hP
        fs fs1 b h h1) hb

theorem processFrameBody_inv (P : DigitMap → Prop) (cfg : Config)
    (hP : ∀ linkCRU triggerOrbit n m d, P m →
      P (aggregateDiglet cfg linkCRU triggerOrbit (pldMask n) m d))
    (st st' : LoopState) (f : Frame) (orbit0 linkCRU payloadCTP : Nat) (d : List Nat)
    (h : P st.digits)
    (hb : processFrameBody cfg st f orbit0 linkCRU payloadCTP = some (st', d)) :
    P st'.digits := by
  unfold processFrameBody at hb
  dsimp only at hb
  split at hb
  · exact absurd hb (by simp)
  · next fs hfs =>
    simp only [Option.some.injEq, Prod.mk.injEq] at hb
    rw [← hb.1]
    exact processBytes_inv P cfg linkCRU f.triggerOrbit payloadCTP (pldMask payloadCTP)
      (hP linkCRU f.triggerOrbit payloadCTP) f.payload _ fs h hfs

theorem processFrame_inv (P : DigitMap → Prop) (cfg : Config)
    (hP : ∀ linkCRU triggerOrbit n m d, P m →
      P (aggregateDiglet cfg linkCRU triggerOrbit (pldMask n) m d))
    (st st' : LoopState) (f : Frame) (d : List Nat) (h : P st.digits)
    (hb : processFrame cfg st f = some (st', d)) : P st'.digits := by
  unfold processFrame at hb
  dsimp only at hb
  split at hb
  · exact processFrameBody_inv P cfg hP st st' f _ _ _ d h hb
  · split at hb
    · split at hb
      · simp only [Option.some.injEq, Prod.mk.injEq] at hb
        rw [← hb.1]; exact h
      · exact processFrameBody_inv P cfg hP st st' f _ _ _ d h hb
    · split at hb
      · exact absurd hb (by simp)
      · exact processFrameBody_inv P cfg hP st st' f _ _ _ d h hb

theorem processFrames_inv (P : DigitMap → Prop) (cfg : Config)
    (hP : ∀ linkCRU triggerOrbit n m d, P m →
      P (aggregateDiglet cfg linkCRU triggerOrbit (pldMask n) m d)) :
    ∀ (frames : List Frame) (st st' : LoopState), P st.digits →
      processFrames cfg st frames = some st' → P st'.digits := by
  intro frames
  induction frames with
  | nil =>
    intro st st' h hb
    simp only [processFrames, Option.some.injEq] at hb
    rw [← hb]; exact h
  | cons f fs ih =>
    intro st st' h hb
    unfold processFrames at hb
    split at hb
    · exact absurd hb (by simp)
    · next st1 d h1 => exact ih st1 st' (processFrame_inv P cfg hP st st1 f d h h1) hb

/-! ## No empty digit -/

theorem mem_mapSet_sorted {m : DigitMap} {k : InteractionRecord} {v : CTPDigit}
    {e : InteractionRecord × CTPDigit} (hm : MapSorted m) (h : e ∈ mapSet m k v) :
    e = (k, v) ∨ (e ∈ m ∧ e.1 ≠ k) := by
  induction m with
  | nil => simp [mapSet] at h; exact Or.inl h
  | cons x rest ih =>
    obtain ⟨k', v'⟩ := x
    unfold MapSorted at hm ih
    rw [List.pairwise_cons] at hm
    unfold mapSet at h
    split at h
    · next hk =>
      subst hk
      rcases List.mem_cons.mp h with h | h
      · exact Or.inl h
      · exact Or.inr ⟨List.mem_cons_of_mem _ h, (irLt_ne (hm.1 e h)).symm⟩
    · split at h
      · next hne hlt =>
        rcases List.mem_cons.mp h with h | h
        · exact Or.inl h
        · right
          refine ⟨h, ?_⟩
          rcases List.mem_cons.mp h with h' | h'
          · rw [h']; exact fun e' => hne e'.symm
          · exact (irLt_ne (irLt_trans hlt (hm.1 e h'))).symm
      · next hne _ =>
        rcases List.mem_cons.mp h with h | h
        · right
          rw [h]
          exact ⟨List.mem_cons_self _ _, fun e' => hne e'.symm⟩
        · rcases ih hm.2 h with h | ⟨h1, h2⟩
          · exact Or.inl h
          · exact Or.inr ⟨List.mem_cons_of_mem _ h1, h2⟩

theorem mapFind_mem {m : DigitMap} {k : InteractionRecord} {d : CTPDigit}
    (h : mapFind m k = some d) : (k, d) ∈ m := by
  induction m with
  | nil => simp [mapFind] at h
  | cons x rest ih =>
    obtain ⟨k', v'⟩ := x
    unfold mapFind at h
    split at h
    · next hk =>
      simp only [Option.some.injEq] at h
      rw [hk, h]
      exact List.mem_cons_self _ _
    · exact List.mem_cons_of_mem _ (ih h)

theorem aggregateDiglet_sorted (cfg : Config) (linkCRU triggerOrbit pldmask : Nat)
    (m : DigitMap) (d : Nat) (hm : MapSorted m) :
    MapSorted (aggregateDiglet cfg linkCRU triggerOrbit pldmask m d) := by
  unfold aggregateDiglet
  split
  · exact hm
  · dsimp only
    split
    · have hs1 : MapSorted (if cfg.debugLog = true
          then mapTouch cfg m { orbit := triggerOrbit, bc := d &&& bcidmask } else m) := by
        split
        · exact mapTouch_sorted cfg _ hm
        · exact hm
      split
      · exact mapSet_sorted _ _ hs1
      · split
        · exact mapSet_sorted _ _ hs1
        · exact hs1
    · split
      · split
        · exact mapSet_sorted _ _ hm
        · split
          · exact mapSet_sorted _ _ hm
          · exact hm
      · exact hm

/-- Every entry of the map after the aggregation of a diglet is an entry of
the map before, or the entry of the diglet's time stamp with a non-zero mask
of the link's kind. -/
theorem aggregateDiglet_mem (cfg : Config) (linkCRU triggerOrbit n : Nat)
    (m : DigitMap) (d : Nat) (hm : MapSorted m) (e : InteractionRecord × CTPDigit)
    (he : e ∈ aggregateDiglet cfg linkCRU triggerOrbit (pldMask n) m d) :
    e ∈ m ∨ (e.1 = { orbit := triggerOrbit, bc := d &&& bcidmask } ∧
      d &&& pldMask n ≠ 0 ∧ kindMask cfg linkCRU e.2 = (d &&& pldMask n) >>> 12 ∧
      (linkCRU = cfg.GBTLinkIDIntRec ∨ linkCRU = cfg.GBTLinkIDClassRec)) := by
  unfold aggregateDiglet at he
  split at he
  · exact Or.inl he
  · next hnz =>
    dsimp only at he
    split at he
    · next hI =>
      have hs1 : MapSorted (if cfg.debugLog = true
          then mapTouch cfg m { orbit := triggerOrbit, bc := d &&& bcidmask } else m) := by
        split
        · exact mapTouch_sorted cfg _ hm
        · exact hm
      have hmem1 : ∀ x, x ∈ (if cfg.debugLog = true
          then mapTouch cfg m { orbit := triggerOrbit, bc := d &&& bcidmask } else m) →
          x.1 ≠ { orbit := triggerOrbit, bc := d &&& bcidmask } → x ∈ m := by
        intro x hx hne
        split at hx
        · unfold mapTouch at hx
          split at hx
          · rcases mem_mapSet hx with h | h
            · rw [h] at hne; exact absurd rfl hne
            · exact h
          · exact hx
        · exact hx
      have hunch : ∀ dd, mapFind (if cfg.debugLog = true
          then mapTouch cfg m { orbit := triggerOrbit, bc := d &&& bcidmask } else m)
            { orbit := triggerOrbit, bc := d &&& bcidmask } = some dd → ¬ dd.CTPInputMask = 0 →
          (if cfg.debugLog = true
            then mapTouch cfg m { orbit := triggerOrbit, bc := d &&& bcidmask } else m) = m := by
        intro dd hdd hnz'
        split at hdd
        · unfold mapTouch at hdd ⊢
          split at hdd
          · rw [mapFind_mapSet_self] at hdd
            simp only [Option.some.injEq] at hdd
            rw [← hdd] at hnz'
            exact absurd rfl hnz'
          · rw [if_pos (by assumption)]
        · rw [if_neg (by assumption)]
      generalize (if cfg.debugLog = true
          then mapTouch cfg m { orbit := triggerOrbit, bc := d &&& bcidmask } else m) = m1
          at he hs1 hmem1 hunch
      have hnew : ∀ v : CTPDigit, v.CTPInputMask = (d &&& pldMask n) >>> 12 →
          e ∈ mapSet m1 { orbit := triggerOrbit, bc := d &&& bcidmask } v →
          e ∈ m ∨ (e.1 = { orbit := triggerOrbit, bc := d &&& bcidmask } ∧
            d &&& pldMask n ≠ 0 ∧ kindMask cfg linkCRU e.2 = (d &&& pldMask n) >>> 12 ∧
            (linkCRU = cfg.GBTLinkIDIntRec ∨ linkCRU = cfg.GBTLinkIDClassRec)) := by
        intro v hv hin
        rcases mem_mapSet_sorted hs1 hin with h | ⟨h1, h2⟩
        · right
          rw [h]
          exact ⟨rfl, hnz, by simp [kindMask, hI, hv], Or.inl hI⟩
        · exact Or.inl (hmem1 e h1 h2)
      split at he
      · exact hnew _ rfl he
      · next dd hdd =>
        split at he
        · exact hnew _ rfl he
        · next hdnz =>
          rw [hunch dd hdd hdnz] at he
          exact Or.inl he
    · next hI =>
      split at he
      · next hC =>
        have hnew : ∀ v : CTPDigit, v.CTPClassMask = (d &&& pldMask n) >>> 12 →
            e ∈ mapSet m { orbit := triggerOrbit, bc := d &&& bcidmask } v →
            e ∈ m ∨ (e.1 = { orbit := triggerOrbit, bc := d &&& bcidmask } ∧
              d &&& pldMask n ≠ 0 ∧ kindMask cfg linkCRU e.2 = (d &&& pldMask n) >>> 12 ∧
              (linkCRU = cfg.GBTLinkIDIntRec ∨ linkCRU = cfg.GBTLinkIDClassRec)) := by
          intro v hv hin
          rcases mem_mapSet hin with h | h
          · right
            rw [h]
            exact ⟨rfl, hnz, by simp [kindMask, hI, hv], Or.inr hC⟩
          · exact Or.inl h
        split at he
        · exact hnew _ rfl he
        · split at he
          · exact hnew _ rfl he
          · exact Or.inl he
      · exact Or.inl he

theorem aggregateDiglet_noEmpty (cfg : Config) (linkCRU triggerOrbit n : Nat)
    (m : DigitMap) (d : Nat) (h : NoEmptyDigit m) :
    NoEmptyDigit (aggregateDiglet cfg linkCRU triggerOrbit (pldMask n) m d) := by
  refine ⟨aggregateDiglet_sorted cfg linkCRU triggerOrbit _ m d h.1, ?_⟩
  intro e he
  rcases aggregateDiglet_mem cfg linkCRU triggerOrbit n m d h.1 e he with h1 | ⟨_, hnz, hk, _⟩
  · exact h.2 e h1
  · have hne := pld_shift_ne_zero d n hnz
    rw [← hk] at hne
    unfold kindMask at hne
    split at hne
    · exact Or.inl hne
    · exact Or.inr hne

/-- C20: no empty digit is emitted. For every real-data run with digits
enabled that returns, every digit of the emitted list has a non-zero input
mask or a non-zero class mask. -/
theorem no_empty_digit_emitted (cfg : Config) (s s' : State) (inp : RunInput) (out : Output)
    (hd : cfg.mDoDigits = true) (hreal : 0 ∉ inp.deadBeef)
    (hrun : run cfg s inp = some (s', out)) :
    ∃ digits, out.digits = some digits ∧
      ∀ d ∈ digits, d.CTPInputMask ≠ 0 ∨ d.CTPClassMask ≠ 0 := by
  unfold run at hrun
  dsimp only at hrun
  rw [if_neg (not_any_deadBeef inp hreal)] at hrun
  split at hrun
  · exact absurd hrun (by simp)
  · next ls hls =>
    have hinv : NoEmptyDigit ls.digits :=
      processFrames_inv NoEmptyDigit cfg
        (fun linkCRU triggerOrbit n m d h => aggregateDiglet_noEmpty cfg linkCRU triggerOrbit n m d h)
        inp.frames LoopState.init ls ⟨List.Pairwise.nil, fun e he => by simp [LoopState.init] at he⟩ hls
    simp only [Option.some.injEq, Prod.mk.injEq] at hrun
    refine ⟨ls.digits.map Prod.snd, ?_, ?_⟩
    · rw [← hrun.2]
      simp only [hd, if_true]
      congr 1
      split
      · unfold lumiUpdate
        dsimp only
        rw [windowPush_mOutputDigits]
      · rfl
    · intro d hdm
      rw [List.mem_map] at hdm
      obtain ⟨e, he, rfl⟩ := hdm
      exact hinv.2 e he

/-! ## The emitted digit list -/

theorem mem_digletStamps (cfg : Config) (linkCRU triggerOrbit pldmask : Nat)
    (ds : List Nat) (k : InteractionRecord) :
    k ∈ digletStamps cfg linkCRU triggerOrbit pldmask ds ↔
      (linkCRU = cfg.GBTLinkIDIntRec ∨ linkCRU = cfg.GBTLinkIDClassRec) ∧
        ∃ d ∈ ds, d &&& pldmask ≠ 0 ∧ k = { orbit := triggerOrbit, bc := d &&& bcidmask } := by
  unfold digletStamps
  split
  · next h =>
    simp only [List.mem_map, List.mem_filter, decide_eq_true_eq]
    constructor
    · rintro ⟨d, ⟨hd, hnz⟩, rfl⟩
      exact ⟨h, d, hd, hnz, rfl⟩
    · rintro ⟨_, d, hd, hnz, rfl⟩
      exact ⟨d, ⟨hd, hnz⟩, rfl⟩
  · next h =>
    constructor
    · intro hk; simp at hk
    · rintro ⟨h', _⟩; exact absurd h' h

theorem mem_keys_mapSet (m : DigitMap) (k k' : InteractionRecord) (v : CTPDigit) :
    k' ∈ (mapSet m k v).map Prod.fst ↔ k' = k ∨ k' ∈ m.map Prod.fst := by
  induction m with
  | nil => simp [mapSet]
  | cons x rest ih =>
    obtain ⟨k0, v0⟩ := x
    unfold mapSet
    split
    · next h => subst h; simp
    · split
      · simp
      · simp only [List.map_cons, List.mem_cons, ih]
        constructor
        · rintro (h | h | h)
          · exact Or.inr (Or.inl h)
          · exact Or.inl h
          · exact Or.inr (Or.inr h)
        · rintro (h | h | h)
          · exact Or.inr (Or.inl h)
          · exact Or.inl h
          · exact Or.inr (Or.inr h)

theorem mapFind_mem_keys {m : DigitMap} {k : InteractionRecord} {d : CTPDigit}
    (h : mapFind m k = some d) : k ∈ m.map Prod.fst :=
  List.mem_map.mpr ⟨(k, d), mapFind_mem h, rfl⟩

theorem mem_keys_mapTouch (cfg : Config) (m : DigitMap) (ir k : InteractionRecord) :
    (k ∈ (mapTouch cfg m ir).map Prod.fst ∨ k = ir) ↔ (k ∈ m.map Prod.fst ∨ k = ir) := by
  unfold mapTouch
  split
  · rw [mem_keys_mapSet]
    constructor
    · rintro ((h | h) | h)
      · exact Or.inr h
      · exact Or.inl h
      · exact Or.inr h
    · rintro (h | h)
      · exact Or.inl (Or.inr h)
      · exact Or.inr h
  · rfl

/-- The keys of the map after the aggregation of one diglet. -/
theorem aggregateDiglet_keys (cfg : Config) (linkCRU triggerOrbit pldmask : Nat)
    (m : DigitMap) (d : Nat) (k : InteractionRecord) :
    k ∈ (aggregateDiglet cfg linkCRU triggerOrbit pldmask m d).map Prod.fst ↔
      k ∈ m.map Prod.fst ∨ k ∈ digletStamps cfg linkCRU triggerOrbit pldmask [d] := by
  rw [mem_digletStamps]
  simp only [List.mem_singleton, exists_eq_left]
  unfold aggregateDiglet
  split
  · next hz =>
    constructor
    · exact Or.inl
    · rintro (h | ⟨_, hnz, _⟩)
      · exact h
      · exact absurd hz hnz
  · next hnz =>
    dsimp only
    split
    · next hI =>
      have hm1 := fun k => mem_keys_mapTouch cfg m { orbit := triggerOrbit, bc := d &&& bcidmask } k
      have hkey : ∀ k, (k ∈ (if cfg.debugLog = true
          then mapTouch cfg m { orbit := triggerOrbit, bc := d &&& bcidmask } else m).map Prod.fst
            ∨ k = { orbit := triggerOrbit, bc := d &&& bcidmask }) ↔
          (k ∈ m.map Prod.fst ∨ k = { orbit := triggerOrbit, bc := d &&& bcidmask }) := by
        intro k
        split
        · exact hm1 k
        · rfl
      generalize (if cfg.debugLog = true
          then mapTouch cfg m { orbit := triggerOrbit, bc := d &&& bcidmask } else m) = m1
          at hkey
      have hset : ∀ v, (k ∈ (mapSet m1 { orbit := triggerOrbit, bc := d &&& bcidmask } v).map
          Prod.fst) ↔ (k ∈ m.map Prod.fst ∨
            ((linkCRU = cfg.GBTLinkIDIntRec ∨ linkCRU = cfg.GBTLinkIDClassRec) ∧
              d &&& pldmask ≠ 0 ∧ k = { orbit := triggerOrbit, bc := d &&& bcidmask })) := by
        intro v
        rw [mem_keys_mapSet, Or.comm, hkey k]
        constructor
        · rintro (h | h)
          · exact Or.inl h
          · exact Or.inr ⟨Or.inl hI, hnz, h⟩
        · rintro (h | ⟨_, _, h⟩)
          · exact Or.inl h
          · exact Or.inr h
      split
      · exact hset _
      · next dd hdd =>
        split
        · exact hset _
        · have hin := mapFind_mem_keys hdd
          constructor
          · intro h
            rcases (hkey k).mp (Or.inl h) with h | h
            · exact Or.inl h
            · exact Or.inr ⟨Or.inl hI, hnz, h⟩
          · rintro (h | ⟨_, _, h⟩)
            · rcases (hkey k).mpr (Or.inl h) with h | h
              · exact h
              · rw [h]; exact hin
            · rw [h]; exact hin
    · next hI =>
      split
      · next hC =>
        have hset : ∀ v, (k ∈ (mapSet m { orbit := triggerOrbit, bc := d &&& bcidmask } v).map
            Prod.fst) ↔ (k ∈ m.map Prod.fst ∨
              ((linkCRU = cfg.GBTLinkIDIntRec ∨ linkCRU = cfg.GBTLinkIDClassRec) ∧
                d &&& pldmask ≠ 0 ∧ k = { orbit := triggerOrbit, bc := d &&& bcidmask })) := by
          intro v
          rw [mem_keys_mapSet]
          constructor
          · rintro (h | h)
            · exact Or.inr ⟨Or.inr hC, hnz, h⟩
            · exact Or.inl h
          · rintro (h | ⟨_, _, h⟩)
            · exact Or.inr h
            · exact Or.inl h
        split
        · exact hset _
        · next dd hdd =>
          split
          · exact hset _
          · have hin := mapFind_mem_keys hdd
            constructor
            · exact Or.inl
            · rintro (h | ⟨_, _, h⟩)
              · exact h
              · rw [h]; exact hin
      · next hC =>
        constructor
        · exact Or.inl
        · rintro (h | ⟨h', _⟩)
          · exact h
          · rcases h' with h' | h'
            · exact absurd h' hI
            · exact absurd h' hC

theorem mem_digletStamps_append (cfg : Config) (linkCRU triggerOrbit pldmask : Nat)
    (a b : List Nat) (k : InteractionRecord) :
    k ∈ digletStamps cfg linkCRU triggerOrbit pldmask (a ++ b) ↔
      k ∈ digletStamps cfg linkCRU triggerOrbit pldmask a ∨
        k ∈ digletStamps cfg linkCRU triggerOrbit pldmask b := by
  simp only [mem_digletStamps, List.mem_append]
  constructor
  · rintro ⟨h, d, hd | hd, h1, h2⟩
    · exact Or.inl ⟨h, d, hd, h1, h2⟩
    · exact Or.inr ⟨h, d, hd, h1, h2⟩
  · rintro (⟨h, d, hd, h1, h2⟩ | ⟨h, d, hd, h1, h2⟩)
    · exact ⟨h, d, Or.inl hd, h1, h2⟩
    · exact ⟨h, d, Or.inr hd, h1, h2⟩

theorem foldl_processDiglet_keys (cfg : Config) (linkCRU triggerOrbit payloadCTP pldmask : Nat)
    (hd : cfg.mDoDigits = true) :
    ∀ (ds : List Nat) (st : Nat × DigitMap) (k : InteractionRecord),
      k ∈ (ds.foldl (processDiglet cfg linkCRU triggerOrbit payloadCTP pldmask) st).2.map
          Prod.fst ↔
        k ∈ st.2.map Prod.fst ∨ k ∈ digletStamps cfg linkCRU triggerOrbit pldmask ds := by
  intro ds
  induction ds with
  | nil =>
    intro st k
    have : digletStamps cfg linkCRU triggerOrbit pldmask [] = [] := by
      unfold digletStamps; split <;> rfl
    simp [this]
  | cons d ds ih =>
    intro st k
    rw [List.foldl_cons, ih, processDiglet_digits, if_pos hd, aggregateDiglet_keys]
    have happ := mem_digletStamps_append cfg linkCRU triggerOrbit pldmask [d] ds k
    rw [List.singleton_append] at happ
    rw [happ, or_assoc]

theorem processByte_keys (cfg : Config) (linkCRU triggerOrbit payloadCTP pldmask : Nat)
    (hd : cfg.mDoDigits = true) (fs fs' : FrameState) (b : Nat)
    (hb : processByte cfg linkCRU triggerOrbit payloadCTP pldmask fs b = some fs') :
    ∃ new, fs'.emitted = fs.emitted ++ new ∧
      ∀ k, k ∈ fs'.digits.map Prod.fst ↔
        k ∈ fs.digits.map Prod.fst ∨ k ∈ digletStamps cfg linkCRU triggerOrbit pldmask new := by
  have hnil : digletStamps cfg linkCRU triggerOrbit pldmask [] = [] := by
    unfold digletStamps; split <;> rfl
  unfold processByte at hb
  split at hb
  · simp only [Option.some.injEq] at hb; rw [← hb]
    exact ⟨[], by simp, fun k => by simp [hnil]⟩
  · split at hb
    · simp only [Option.some.injEq] at hb; rw [← hb]
      exact ⟨[], by simp, fun k => by simp [hnil]⟩
    · split at hb
      · split at hb
        · exact absurd hb (by simp)
        · next g _ =>
          simp only [Option.some.injEq] at hb
          rw [← hb]
          exact ⟨g.diglets, rfl, fun k =>
            foldl_processDiglet_keys cfg linkCRU triggerOrbit payloadCTP pldmask hd g.diglets
              (fs.countsMB, fs.digits) k⟩
      · simp only [Option.some.injEq] at hb; rw [← hb]
        exact ⟨[], by simp, fun k => by simp [hnil]⟩

theorem processBytes_keys (cfg : Config) (linkCRU triggerOrbit payloadCTP pldmask : Nat)
    (hd : cfg.mDoDigits = true) :
    ∀ (bytes : List Nat) (fs fs' : FrameState),
      processBytes cfg linkCRU triggerOrbit payloadCTP pldmask fs bytes = some fs' →
      ∃ new, fs'.emitted = fs.emitted ++ new ∧
        ∀ k, k ∈ fs'.digits.map Prod.fst ↔
          k ∈ fs.digits.map Prod.fst ∨
            k ∈ digletStamps cfg linkCRU triggerOrbit pldmask new := by
  intro bytes
  induction bytes with
  | nil =>
    intro fs fs' hb
    simp only [processBytes, Option.some.injEq] at hb
    rw [← hb]
    have hnil : digletStamps cfg linkCRU triggerOrbit pldmask [] = [] := by
      unfold digletStamps; split <;> rfl
    exact ⟨[], by simp, fun k => by simp [hnil]⟩
  | cons b bs ih =>
    intro fs fs' hb
    unfold processBytes at hb
    split at hb
    · exact absurd hb (by simp)
    · next fs1 h1 =>
      obtain ⟨n1, e1, k1⟩ :=
        processByte_keys cfg linkCRU triggerOrbit payloadCTP pldmask hd fs fs1 b h1
      obtain ⟨n2, e2, k2⟩ := ih fs1 fs' hb
      refine ⟨n1 ++ n2, by rw [e2, e1, List.append_assoc], fun k => ?_⟩
      rw [k2, k1, mem_digletStamps_append, or_assoc]

theorem processFrameBody_keys (cfg : Config) (hd : cfg.mDoDigits = true)
    (st st' : LoopState) (f : Frame) (orbit0 linkCRU payloadCTP : Nat) (d : List Nat)
    (hb : processFrameBody cfg st f orbit0 linkCRU payloadCTP = some (st', d)) :
    st'.payloadCTP = some payloadCTP ∧
      ∀ k, k ∈ st'.digits.map Prod.fst ↔
        k ∈ st.digits.map Prod.fst ∨
          k ∈ digletStamps cfg linkCRU f.triggerOrbit (pldMask payloadCTP) d := by
  unfold processFrameBody at hb
  dsimp only at hb
  split at hb
  · exact absurd hb (by simp)
  · next fs hfs =>
    simp only [Option.some.injEq, Prod.mk.injEq] at hb
    obtain ⟨new, e1, k1⟩ := processBytes_keys cfg linkCRU f.triggerOrbit payloadCTP
      (pldMask payloadCTP) hd f.payload _ fs hfs
    rw [List.nil_append] at e1
    rw [← hb.1, ← hb.2, e1]
    exact ⟨rfl, k1⟩

theorem processFrame_keys (cfg : Config) (hd : cfg.mDoDigits = true)
    (st st' : LoopState) (f : Frame) (d : List Nat)
    (hb : processFrame cfg st f = some (st', d)) :
    ∀ k, k ∈ st'.digits.map Prod.fst ↔
      k ∈ st.digits.map Prod.fst ∨
        k ∈ digletStamps cfg (linkOf f.feeID) f.triggerOrbit
          (pldMask (st'.payloadCTP.getD 0)) d := by
  have key : ∀ o p, processFrameBody cfg st f o (linkOf f.feeID) p = some (st', d) →
      ∀ k, k ∈ st'.digits.map Prod.fst ↔
        k ∈ st.digits.map Prod.fst ∨
          k ∈ digletStamps cfg (linkOf f.feeID) f.triggerOrbit
            (pldMask (st'.payloadCTP.getD 0)) d := by
    intro o p h
    obtain ⟨e1, k1⟩ := processFrameBody_keys cfg hd st st' f o (linkOf f.feeID) p d h
    rw [e1]
    exact k1
  unfold processFrame at hb
  dsimp only at hb
  split at hb
  · exact key _ _ hb
  · split at hb
    · rw [hd] at hb
      exact key _ _ hb
    · split at hb
      · exact absurd hb (by simp)
      · exact key _ _ hb

/-- The keys of the digit map after the loop over the frames are the keys
before and the time stamps aggregated in the frames. -/
theorem processFrames_keys (cfg : Config) (hd : cfg.mDoDigits = true) :
    ∀ (frames : List Frame) (st st' : LoopState), processFrames cfg st frames = some st' →
      ∀ k, k ∈ st'.digits.map Prod.fst ↔
        k ∈ st.digits.map Prod.fst ∨ k ∈ runStamps cfg st frames := by
  intro frames
  induction frames with
  | nil =>
    intro st st' hb k
    simp only [processFrames, Option.some.injEq] at hb
    rw [← hb]
    simp [runStamps]
  | cons f fs ih =>
    intro st st' hb k
    unfold processFrames at hb
    unfold runStamps
    split at hb
    · exact absurd hb (by simp)
    · next st1 d h1 =>
      rw [ih st1 st' hb k, processFrame_keys cfg hd st st1 f d h1 k, List.mem_append, or_assoc]

theorem aggregateDiglet_stamped (cfg : Config) (hdbg : cfg.debugLog = false)
    (linkCRU triggerOrbit pldmask : Nat) (m : DigitMap) (d : Nat) (h : StampedDigits m) :
    StampedDigits (aggregateDiglet cfg linkCRU triggerOrbit pldmask m d) := by
  refine ⟨aggregateDiglet_sorted cfg linkCRU triggerOrbit pldmask m d h.1, ?_⟩
  intro e he
  have hnew : ∀ v : CTPDigit, v.intRecord = { orbit := triggerOrbit, bc := d &&& bcidmask } →
      e ∈ mapSet m { orbit := triggerOrbit, bc := d &&& bcidmask } v → e.2.intRecord = e.1 := by
    intro v hv hin
    rcases mem_mapSet hin with h1 | h1
    · rw [h1]; exact hv
    · exact h.2 e h1
  have hfound : ∀ dd, mapFind m { orbit := triggerOrbit, bc := d &&& bcidmask } = some dd →
      dd.intRecord = { orbit := triggerOrbit, bc := d &&& bcidmask } :=
    fun dd hdd => h.2 _ (mapFind_mem hdd)
  unfold aggregateDiglet at he
  split at he
  · exact h.2 e he
  · dsimp only at he
    simp only [hdbg, Bool.false_eq_true, if_false] at he
    split at he
    · split at he
      · exact hnew _ rfl he
      · next dd hdd =>
        split at he
        · refine hnew _ ?_ he
          exact hfound dd hdd
        · exact h.2 e he
    · split at he
      · split at he
        · exact hnew _ rfl he
        · next dd hdd =>
          split at he
          · refine hnew _ ?_ he
            exact hfound dd hdd
          · exact h.2 e he
      · exact h.2 e he

theorem pairwise_map_fst_of_sorted (m : DigitMap) (h : MapSorted m) :
    (m.map Prod.fst).Pairwise (fun a b => irLt a b = true) := by
  unfold MapSorted at h
  exact List.pairwise_map.mpr h

/-- The emitted digit list when `LOG(debug)` does not evaluate its operands:
for every real-data run with digits enabled, the list has exactly one record
per time stamp for which a diglet with a non-zero mask was aggregated, each
record carries that time stamp, and the records are in strictly increasing
order of (orbit, bc). -/
theorem emitted_digits_without_debug (cfg : Config) (s s' : State) (inp : RunInput)
    (out : Output) (hd : cfg.mDoDigits = true) (hdbg : cfg.debugLog = false)
    (hreal : 0 ∉ inp.deadBeef) (hrun : run cfg s inp = some (s', out)) :
    ∃ digits, out.digits = some digits ∧
      (digits.map (fun x => x.intRecord)).Pairwise (fun a b => irLt a b = true) ∧
      ∀ k, k ∈ digits.map (fun x => x.intRecord) ↔
        k ∈ runStamps cfg LoopState.init inp.frames := by
  unfold run at hrun
  dsimp only at hrun
  rw [if_neg (not_any_deadBeef inp hreal)] at hrun
  split at hrun
  · exact absurd hrun (by simp)
  · next ls hls =>
    have hinv : StampedDigits ls.digits :=
      processFrames_inv StampedDigits cfg
        (fun linkCRU triggerOrbit n m d h =>
          aggregateDiglet_stamped cfg hdbg linkCRU triggerOrbit (pldMask n) m d h)
        inp.frames LoopState.init ls
        ⟨List.Pairwise.nil, fun e he => by simp [LoopState.init] at he⟩ hls
    have hkeys := processFrames_keys cfg hd inp.frames LoopState.init ls hls
    have hmap : ls.digits.map (fun e => e.2.intRecord) = ls.digits.map Prod.fst :=
      List.map_congr_left (fun e he => hinv.2 e he)
    simp only [Option.some.injEq, Prod.mk.injEq] at hrun
    refine ⟨ls.digits.map Prod.snd, ?_, ?_, ?_⟩
    · rw [← hrun.2]
      simp only [hd, if_true]
      congr 1
      split
      · unfold lumiUpdate
        dsimp only
        rw [windowPush_mOutputDigits]
      · rfl
    · rw [List.map_map]
      show (ls.digits.map (fun e => e.2.intRecord)).Pairwise _
      rw [hmap]
      exact pairwise_map_fst_of_sorted ls.digits hinv.1
    · intro k
      rw [List.map_map]
      show k ∈ ls.digits.map (fun e => e.2.intRecord) ↔ _
      rw [hmap, hkeys k]
      simp [LoopState.init]


/-- C12, the code with `LOG(debug)` evaluating its operands: a frame of the
interaction-record link with two diglets, of bunch crossings `0xabc` and
`0xabd` in orbit 7, both with input mask 1. The log line evaluates
`digits[ir]`, which files a default digit under the time stamp, so the case
that stores `digit.intRecord = ir` is never taken: both emitted records carry
the time stamp of a default digit, not (7, `0xabc`) and (7, `0xabd`), and the
list is not in strictly increasing order of (orbit, bc). With the log line
not evaluated the same frame gives the two time stamps in order. -/
theorem debug_log_loses_time_stamp :
    (run exampleDebugConfig (State.init ⟨0, 0, 0⟩) ⟨[], [exampleTwoStamps]⟩).map
        (fun r => r.2.digits) =
      some (some [{ intRecord := ⟨0xffffffff, 0xffff⟩, CTPInputMask := 1, CTPClassMask := 0 },
                  { intRecord := ⟨0xffffffff, 0xffff⟩, CTPInputMask := 1, CTPClassMask := 0 }]) ∧
    runStamps exampleDebugConfig LoopState.init [exampleTwoStamps] = [⟨7, 0xabc⟩, ⟨7, 0xabd⟩] ∧
    irLt ⟨0xffffffff, 0xffff⟩ ⟨0xffffffff, 0xffff⟩ = false ∧
    (run exampleConfig (State.init ⟨0, 0, 0⟩) ⟨[], [exampleTwoStamps]⟩).map
        (fun r => r.2.digits) =
      some (some [{ intRecord := ⟨7, 0xabc⟩, CTPInputMask := 1, CTPClassMask := 0 },
                  { intRecord := ⟨7, 0xabd⟩, CTPInputMask := 1, CTPClassMask := 0 }]) := by
  refine ⟨by rfl, by rfl, by rfl, by rfl⟩

/-! ## The aggregate of an interval -/

theorem tfCountsOf_foldl (l : List LumiInfo) (a : Nat) :
    l.foldl (fun tfCounts lp => (tfCounts + lp.counts) % 2 ^ 32) (a % 2 ^ 32)
      = (a + countsSum l) % 2 ^ 32 := by
  induction l generalizing a with
  | nil => simp [countsSum]
  | cons x xs ih =>
    rw [List.foldl_cons]
    have h1 : (a % 2 ^ 32 + x.counts) % 2 ^ 32 = (a + x.counts) % 2 ^ 32 := by
      rw [Nat.add_mod, Nat.mod_mod, ← Nat.add_mod]
    rw [h1, ih (a + x.counts)]
    unfold countsSum
    rw [List.map_cons, List.sum_cons, Nat.add_assoc]

/-- The loop over the LumiSamples gives the sum of their counts in 32 bits. -/
theorem tfCountsOf_eq (l : List LumiInfo) : tfCountsOf l = countsSum l % 2 ^ 32 := by
  have h := tfCountsOf_foldl l 0
  rw [Nat.zero_mod, Nat.zero_add] at h
  exact h

theorem countsSum_append (a b : List LumiInfo) : countsSum (a ++ b) = countsSum a + countsSum b := by
  unfold countsSum
  rw [List.map_append, List.sum_append]

theorem foldl_processDiglet_count (cfg : Config) (linkCRU triggerOrbit payloadCTP pldmask : Nat) :
    ∀ (ds : List Nat) (st : Nat × DigitMap),
      (ds.foldl (processDiglet cfg linkCRU triggerOrbit payloadCTP pldmask) st).1 =
        st.1 + (if (cfg.mDoLumi && decide (payloadCTP = cfg.NIntRecPayload)) = true then
          (ds.filter (fun d => decide (d &&& cfg.mTVXMask ≠ 0))).length else 0) := by
  intro ds
  induction ds with
  | nil => intro st; simp
  | cons d ds ih =>
    intro st
    rw [List.foldl_cons, ih]
    have h1 : (processDiglet cfg linkCRU triggerOrbit payloadCTP pldmask st d).1 =
        if (cfg.mDoLumi && decide (payloadCTP = cfg.NIntRecPayload)) = true then
          (if d &&& cfg.mTVXMask ≠ 0 then st.1 + 1 else st.1)
        else st.1 := by
      unfold processDiglet
      dsimp only
      split <;> rfl
    rw [h1]
    by_cases hc : (cfg.mDoLumi && decide (payloadCTP = cfg.NIntRecPayload)) = true
    · rw [if_pos hc, if_pos hc, if_pos hc]
      by_cases hd : d &&& cfg.mTVXMask ≠ 0
      · rw [if_pos hd, List.filter_cons_of_pos (by simpa using hd), List.length_cons]
        omega
      · rw [if_neg hd, List.filter_cons_of_neg (by simpa using hd)]
    · rw [if_neg hc, if_neg hc, if_neg hc]

theorem processByte_count (cfg : Config) (linkCRU triggerOrbit payloadCTP pldmask : Nat)
    (fs fs' : FrameState) (b : Nat)
    (hb : processByte cfg linkCRU triggerOrbit payloadCTP pldmask fs b = some fs') :
    ∃ new, fs'.emitted = fs.emitted ++ new ∧
      fs'.countsMB = fs.countsMB +
        (if (cfg.mDoLumi && decide (payloadCTP = cfg.NIntRecPayload)) = true then
          (new.filter (fun d => decide (d &&& cfg.mTVXMask ≠ 0))).length else 0) := by
  unfold processByte at hb
  split at hb
  · simp only [Option.some.injEq] at hb; rw [← hb]
    exact ⟨[], by simp, by simp⟩
  · split at hb
    · simp only [Option.some.injEq] at hb; rw [← hb]
      exact ⟨[], by simp, by simp⟩
    · split at hb
      · split at hb
        · exact absurd hb (by simp)
        · next g _ =>
          simp only [Option.some.injEq] at hb
          rw [← hb]
          exact ⟨g.diglets, rfl,
            foldl_processDiglet_count cfg linkCRU triggerOrbit payloadCTP pldmask g.diglets
              (fs.countsMB, fs.digits)⟩
      · simp only [Option.some.injEq] at hb; rw [← hb]
        exact ⟨[], by simp, by simp⟩

theorem processBytes_count (cfg : Config) (linkCRU triggerOrbit payloadCTP pldmask : Nat) :
    ∀ (bytes : List Nat) (fs fs' : FrameState),
      processBytes cfg linkCRU triggerOrbit payloadCTP pldmask fs bytes = some fs' →
      ∃ new, fs'.emitted = fs.emitted ++ new ∧
        fs'.countsMB = fs.countsMB +
          (if (cfg.mDoLumi && decide (payloadCTP = cfg.NIntRecPayload)) = true then
            (new.filter (fun d => decide (d &&& cfg.mTVXMask ≠ 0))).length else 0) := by
  intro bytes
  induction bytes with
  | nil =>
    intro fs fs' hb
    simp only [processBytes, Option.some.injEq] at hb
    rw [← hb]
    exact ⟨[], by simp, by simp⟩
  | cons b bs ih =>
    intro fs fs' hb
    unfold processBytes at hb
    split at hb
    · exact absurd hb (by simp)
    · next fs1 h1 =>
      obtain ⟨n1, e1, k1⟩ :=
        processByte_count cfg linkCRU triggerOrbit payloadCTP pldmask fs fs1 b h1
      obtain ⟨n2, e2, k2⟩ := ih fs1 fs' hb
      refine ⟨n1 ++ n2, by rw [e2, e1, List.append_assoc], ?_⟩
      rw [k2, k1]
      by_cases hc : (cfg.mDoLumi && decide (payloadCTP = cfg.NIntRecPayload)) = true
      · rw [if_pos hc, if_pos hc, if_pos hc, List.filter_append, List.length_append]
        omega
      · rw [if_neg hc, if_neg hc, if_neg hc]

/-- The counts of one frame body: the LumiSamples and the counter together
grow by the number of emitted diglets with a bit under the trigger mask, when
luminosity is enabled and the payload width in force is the one of the
interaction-record link, and do not change otherwise. -/
theorem processFrameBody_count (cfg : Config) (st st' : LoopState) (f : Frame)
    (orbit0 linkCRU payloadCTP : Nat) (d : List Nat)
    (hb : processFrameBody cfg st f orbit0 linkCRU payloadCTP = some (st', d)) :
    countsSum st'.lumiPointsHBF1 + st'.countsMB =
      countsSum st.lumiPointsHBF1 + st.countsMB +
        (if (cfg.mDoLumi && decide (payloadCTP = cfg.NIntRecPayload)) = true then
          (d.filter (fun x => decide (x &&& cfg.mTVXMask ≠ 0))).length else 0) := by
  unfold processFrameBody at hb
  dsimp only at hb
  split at hb
  · exact absurd hb (by simp)
  · next fs hfs =>
    simp only [Option.some.injEq, Prod.mk.injEq] at hb
    obtain ⟨new, e1, k1⟩ := processBytes_count cfg linkCRU f.triggerOrbit payloadCTP
      (pldMask payloadCTP) f.payload _ fs hfs
    rw [List.nil_append] at e1
    dsimp only at k1
    rw [← hb.1, ← hb.2, e1]
    dsimp only
    rw [k1]
    split
    · rw [countsSum_append]
      simp only [countsSum, List.map_cons, List.map_nil, List.sum_cons, List.sum_nil]
      omega
    · omega

theorem processFrame_count (cfg : Config) (hl : cfg.mDoLumi = true)
    (hw : cfg.NClassPayload ≠ cfg.NIntRecPayload) (st st' : LoopState) (f : Frame) (d : List Nat)
    (hlink : linkOf f.feeID = cfg.GBTLinkIDIntRec ∨ linkOf f.feeID = cfg.GBTLinkIDClassRec)
    (hb : processFrame cfg st f = some (st', d)) :
    countsSum st'.lumiPointsHBF1 + st'.countsMB =
      countsSum st.lumiPointsHBF1 + st.countsMB + specFrameCount cfg (linkOf f.feeID) d := by
  unfold processFrame at hb
  dsimp only at hb
  unfold specFrameCount
  by_cases h1 : linkOf f.feeID = cfg.GBTLinkIDIntRec
  · rw [if_pos h1] at hb
    rw [if_pos h1, processFrameBody_count cfg st st' f _ _ _ d hb, hl]
    simp
  · rw [if_neg h1] at hb
    rw [if_neg h1]
    have h2 : linkOf f.feeID = cfg.GBTLinkIDClassRec := hlink.resolve_left h1
    rw [if_pos h2] at hb
    split at hb
    · simp only [Option.some.injEq, Prod.mk.injEq] at hb
      rw [← hb.1]
      rfl
    · rw [processFrameBody_count cfg st st' f _ _ _ d hb, hl]
      simp [hw]

/-- The counts of a run whose frames all come from the two expected links,
with distinct payload widths for the two: the counts of the LumiSamples and
the counter left for the last sample add up to the count of the
specification. -/
theorem processFrames_count (cfg : Config) (hl : cfg.mDoLumi = true)
    (hw : cfg.NClassPayload ≠ cfg.NIntRecPayload) :
    ∀ (frames : List Frame) (st st' : LoopState),
      (∀ f ∈ frames, linkOf f.feeID = cfg.GBTLinkIDIntRec ∨
        linkOf f.feeID = cfg.GBTLinkIDClassRec) →
      processFrames cfg st frames = some st' →
      countsSum st'.lumiPointsHBF1 + st'.countsMB =
        countsSum st.lumiPointsHBF1 + st.countsMB + specRunCount cfg st frames := by
  intro frames
  induction frames with
  | nil =>
    intro st st' _ hb
    simp only [processFrames, Option.some.injEq] at hb
    rw [← hb]
    rfl
  | cons f fs ih =>
    intro st st' hlinks hb
    unfold processFrames at hb
    unfold specRunCount
    split at hb
    · exact absurd hb (by simp)
    · next st1 d h1 =>
      rw [ih st1 st' (fun g hg => hlinks g (List.mem_cons_of_mem f hg)) hb,
        processFrame_count cfg hl hw st st1 f d (hlinks f (List.mem_cons_self f fs)) h1]
      omega

/-- The aggregate of an interval whose frames all come from the two expected
links (payload widths distinct): the value pushed into the window is the sum
of the counts of the LumiSamples in 32 bits, and that sum is the number of
diglets of interaction-record frames with a bit under the trigger mask. -/
theorem aggregate_of_expected_links (cfg : Config) (hl : cfg.mDoLumi = true)
    (hw : cfg.NClassPayload ≠ cfg.NIntRecPayload) (frames : List Frame) (ls : LoopState)
    (hlinks : ∀ f ∈ frames, linkOf f.feeID = cfg.GBTLinkIDIntRec ∨
      linkOf f.feeID = cfg.GBTLinkIDClassRec)
    (hls : processFrames cfg LoopState.init frames = some ls) :
    tfCountsOf (lumiPointsOf ls) = countsSum (lumiPointsOf ls) % 2 ^ 32 ∧
      countsSum (lumiPointsOf ls) = specRunCount cfg LoopState.init frames := by
  refine ⟨tfCountsOf_eq _, ?_⟩
  have h := processFrames_count cfg hl hw frames LoopState.init ls hlinks hls
  have h0 : countsSum LoopState.init.lumiPointsHBF1 + LoopState.init.countsMB = 0 := rfl
  rw [h0, Nat.zero_add] at h
  unfold lumiPointsOf
  rw [countsSum_append, ← h]
  simp only [countsSum, List.map_cons, List.map_nil, List.sum_cons, List.sum_nil, Nat.add_zero]

/-- C16, the code on a run with a frame of an unexpected link: after an empty
frame of the interaction-record link, a frame with link field 2 and one
hardware word whose bit 2 (the trigger mask is 4) is set. The run has one
LumiSample with count 1 and pushes the aggregate 1 into the window, while no
diglet was emitted from a frame of the interaction-record link: the count of
the specification is 0. -/
theorem aggregate_counts_unexpected_link :
    linkOf 0x200 = 2 ∧
    (processFrames exampleConfig LoopState.init
        [⟨7, 0, []⟩, ⟨7, 0x200, [4, 0, 0, 0, 0, 0, 0, 0, 0, 0]⟩]).map
        (fun ls => (lumiPointsOf ls, countsSum (lumiPointsOf ls)))
      = some ([{ orbit := 7, nHBFCounted := 0, counts := 1 }], 1) ∧
    (run exampleConfig (State.init ⟨0, 0, 0⟩)
        ⟨[], [⟨7, 0, []⟩, ⟨7, 0x200, [4, 0, 0, 0, 0, 0, 0, 0, 0, 0]⟩]⟩).map
        (fun r => (r.1.mHistory, r.1.mCounts)) = some ([1], 1) ∧
    specRunCount exampleConfig LoopState.init
        [⟨7, 0, []⟩, ⟨7, 0x200, [4, 0, 0, 0, 0, 0, 0, 0, 0, 0]⟩] = 0 := by
  refine ⟨by decide, by rfl, by rfl, by rfl⟩

/-! ## Instances at concrete inputs -/

/-- Witness of `byte_to_word_reassembly`: a payload of one block of 16 bytes
on the interaction-record link; one word is handed over, and bit 9 of the
word is bit 1 of byte 1. -/
theorem byte_to_word_reassembly_witness :
    processBytes exampleConfig 0 7 60 (pldMask 60)
        { gbtWord := 0, wordCount := 0, remnant := 0, size_gbt := 0, countsMB := 0,
          digits := [], emitted := [] }
        [0xbc, 0x1a, 0, 0, 0, 0, 0, 0xd0, 0xab, 0x01, 1, 2, 3, 4, 5, 6]
      = handWords exampleConfig 0 7 60 (pldMask 60)
        { gbtWord := 0, wordCount := 0, remnant := 0, size_gbt := 0, countsMB := 0,
          digits := [], emitted := [] }
        (payloadWords [0xbc, 0x1a, 0, 0, 0, 0, 0, 0xd0, 0xab, 0x01, 1, 2, 3, 4, 5, 6] 1) ∧
      (payloadWords [0xbc, 0x1a, 0, 0, 0, 0, 0, 0xd0, 0xab, 0x01, 1, 2, 3, 4, 5, 6] 1).length
        = 1 :=
  have h := byte_to_word_reassembly exampleConfig 0 7 60 (pldMask 60)
    { gbtWord := 0, wordCount := 0, remnant := 0, size_gbt := 0, countsMB := 0,
      digits := [], emitted := [] }
    [0xbc, 0x1a, 0, 0, 0, 0, 0, 0xd0, 0xab, 0x01, 1, 2, 3, 4, 5, 6] 1 rfl rfl rfl
  ⟨h.1, h.2.1⟩

/-- Witness of `window_push_step`: window size 3, the queue 1, 2 and a run of
two orbits with the aggregate 1 and two LumiSamples. -/
theorem window_push_step_witness :
    ∃ s' out, run exampleConfig
        { mOutputDigits := [], mOutputLumiInfo := { orbit := 4, nHBFCounted := 3, counts := 3 },
          mCounts := 3, mNHBIntegrated := 3, mHistory := [1, 2], contDeadBeef := 0 }
        ⟨[], [⟨1, 0, [4, 0, 0, 0, 0, 0, 0, 0, 0, 0]⟩, ⟨2, 0, []⟩]⟩ = some (s', out) ∧
      s'.mHistory = [1, 2, 1] ∧ s'.mCounts = 4 ∧ s'.mNHBIntegrated = 5 :=
  match window_push_step exampleConfig
    { mOutputDigits := [], mOutputLumiInfo := { orbit := 4, nHBFCounted := 3, counts := 3 },
      mCounts := 3, mNHBIntegrated := 3, mHistory := [1, 2], contDeadBeef := 0 }
    ⟨[], [⟨1, 0, [4, 0, 0, 0, 0, 0, 0, 0, 0, 0]⟩, ⟨2, 0, []⟩]⟩
    { digits := [], lumiPointsHBF1 := [{ orbit := 2, nHBFCounted := 0, counts := 1 }],
      countsMB := 0, payloadCTP := some 60, orbit0 := 2, first := false, remnant := 0,
      size_gbt := 0 }
    rfl (by decide) (by rfl) with
  | ⟨s', out, h1, h2, _⟩ =>
    ⟨s', out, h1, (h2 (by decide)).1, (h2 (by decide)).2.1, (h2 (by decide)).2.2⟩

/-- Witness of `sample_counter_never_zero`: window size 3, a sentinel run,
then a real-data run of two orbits. -/
theorem sample_counter_never_zero_witness :
    ∃ s' out, run exampleConfig
        { mOutputDigits := [], mOutputLumiInfo := ⟨0, 0, 0⟩, mCounts := 0, mNHBIntegrated := 0,
          mHistory := [], contDeadBeef := 1 }
        ⟨[], [⟨1, 0, [4, 0, 0, 0, 0, 0, 0, 0, 0, 0]⟩, ⟨2, 0, []⟩]⟩ = some (s', out) ∧
      1 ≤ s'.mNHBIntegrated ∧
      out.lumi = some { orbit := 2, nHBFCounted := s'.mNHBIntegrated, counts := s'.mCounts } :=
  match sample_counter_never_zero exampleConfig ⟨0, 0, 0⟩ [⟨[0], []⟩]
    { mOutputDigits := [], mOutputLumiInfo := ⟨0, 0, 0⟩, mCounts := 0, mNHBIntegrated := 0,
      mHistory := [], contDeadBeef := 1 }
    ⟨[], [⟨1, 0, [4, 0, 0, 0, 0, 0, 0, 0, 0, 0]⟩, ⟨2, 0, []⟩]⟩
    { digits := [], lumiPointsHBF1 := [{ orbit := 2, nHBFCounted := 0, counts := 1 }],
      countsMB := 0, payloadCTP := some 60, orbit0 := 2, first := false, remnant := 0,
      size_gbt := 0 }
    (by decide) rfl (by rfl) (by decide) (by rfl) with
  | ⟨s', out, h1, h2, h3, _⟩ => ⟨s', out, h1, h2, h3⟩

/-- Witness of `no_empty_digit_emitted`: a run with one frame of the
interaction-record link that holds two diglets with input mask 1. -/
theorem no_empty_digit_emitted_witness :
    ∃ digits,
      some [({ intRecord := ⟨7, 0xabc⟩, CTPInputMask := 1, CTPClassMask := 0 } : CTPDigit),
            { intRecord := ⟨7, 0xabd⟩, CTPInputMask := 1, CTPClassMask := 0 }] = some digits ∧
      ∀ d ∈ digits, d.CTPInputMask ≠ 0 ∨ d.CTPClassMask ≠ 0 :=
  no_empty_digit_emitted exampleConfig (State.init ⟨0, 0, 0⟩)
    { mOutputDigits := [{ intRecord := ⟨7, 0xabc⟩, CTPInputMask := 1, CTPClassMask := 0 },
                        { intRecord := ⟨7, 0xabd⟩, CTPInputMask := 1, CTPClassMask := 0 }],
      mOutputLumiInfo := { orbit := 7, nHBFCounted := 1, counts := 2 },
      mCounts := 2, mNHBIntegrated := 1, mHistory := [2], contDeadBeef := 0 }
    ⟨[], [exampleTwoStamps]⟩
    { digits := some [{ intRecord := ⟨7, 0xabc⟩, CTPInputMask := 1, CTPClassMask := 0 },
                      { intRecord := ⟨7, 0xabd⟩, CTPInputMask := 1, CTPClassMask := 0 }],
      lumi := some { orbit := 7, nHBFCounted := 1, counts := 2 } }
    rfl (by decide) (by rfl)

end CTP
